import Mathlib

/-!
# JARVIS audio pipeline: ring buffer and resampler

A shallow embedding of `src/src/audio/audio_pipeline.cpp`
(`AudioRingBuffer`, `AudioResampler`, `VoiceActivityDetector`,
`AudioPipeline`) and of `src/src/utils/config_manager.cpp`
(`ConfigManager`), with the properties of the audio front end and of the
configuration store stated and proved over it.

Conventions of the embedding:

* `size_t` values are natural numbers below `2 ^ 64`; every `size_t`
  addition and subtraction of the source is written with its wrap-around
  (`szAdd`, `szSub`).
* `int16_t` samples are integers; the ring buffer only copies them.
* a `(pointer, count)` argument pair is a list, `count` being its length.
* `std::vector::operator[]` is modelled totally: a read outside the vector
  gives `0` and a write outside it changes nothing.
* the ring-buffer properties are stated for usable capacities `C < 2 ^ 63`:
  a vector of `C + 1` two-byte samples cannot be allocated beyond that, and
  for `C = 2 ^ 64 - 1` the source's `capacity + 1` wraps to `0`, where
  `% capacity_` is undefined.
* a finite `double` is the rational number it denotes, and every `double`
  operation rounds its exact result to binary64 (see `rnd`).
* the loops of the pipeline are embedded one iteration at a time, the clock
  being an argument; two threads on one ring buffer are embedded as a step
  function per access to shared memory and a schedule (see `Spsc`).
* an exception that the source catches is a result of the embedded
  function (`Option`, or a flag next to the value).
-/

namespace jarvis

/-- Number of values of a `size_t` (64-bit target). -/
def SIZE_MOD : Nat := 2 ^ 64

/-- Addition of two `size_t` values. -/
def szAdd (a b : Nat) : Nat := (a + b) % SIZE_MOD

/-- Subtraction of two `size_t` values (both below `2 ^ 64`). -/
def szSub (a b : Nat) : Nat := (a + SIZE_MOD - b) % SIZE_MOD

/-- The data members of `class AudioRingBuffer` (audio_pipeline.h, 40-44). -/
structure AudioRingBuffer where
  buffer_ : List Int
  head_ : Nat
  tail_ : Nat
  capacity_ : Nat
deriving DecidableEq

namespace AudioRingBuffer

/-- Constructor `AudioRingBuffer(capacity)`: `capacity_(capacity + 1)`,
`buffer_(capacity + 1)` (value-initialised samples), `head_{0}`, `tail_{0}`. -/
def new (capacity : Nat) : AudioRingBuffer :=
  { buffer_ := List.replicate (szAdd capacity 1) 0
    head_ := 0
    tail_ := 0
    capacity_ := szAdd capacity 1 }

/-- Method `available()`: `(tail + capacity_ - head) % capacity_`. -/
def available (rb : AudioRingBuffer) : Nat :=
  szSub (szAdd rb.tail_ rb.capacity_) rb.head_ % rb.capacity_

/-- Method `freeSpace()`: `capacity_ - available() - 1`. -/
def freeSpace (rb : AudioRingBuffer) : Nat :=
  szSub (szSub rb.capacity_ rb.available) 1

/-- Body of the `for` loop of `write`: each sample is stored at `tail`, which
then advances modulo `capacity_`. Returns the storage and the final `tail`. -/
def writeLoop (cap : Nat) : List Int → Nat → List Int → List Int × Nat
  | buf, tail, [] => (buf, tail)
  | buf, tail, x :: xs => writeLoop cap (buf.set tail x) (szAdd tail 1 % cap) xs

/-- Method `write(data, count)`: the result flag and the buffer afterwards. -/
def write (rb : AudioRingBuffer) (data : List Int) : Bool × AudioRingBuffer :=
  let free := rb.freeSpace
  if data.length > free then
    (false, rb)
  else
    let r := writeLoop rb.capacity_ rb.buffer_ rb.tail_ data
    (true, { rb with buffer_ := r.1, tail_ := r.2 })

/-- Body of the `for` loop of `read`: `toRead` samples are copied from `head`,
which advances modulo `capacity_`. Returns the copied samples and the final
`head`. -/
def readLoop (cap : Nat) (buf : List Int) : Nat → Nat → List Int × Nat
  | head, 0 => ([], head)
  | head, n + 1 =>
    let r := readLoop cap buf (szAdd head 1 % cap) n
    (buf.getD head 0 :: r.1, r.2)

/-- Method `read(buffer, count)`: the returned count, the samples copied into
`buffer[0 .. toRead)`, and the buffer afterwards. -/
def read (rb : AudioRingBuffer) (count : Nat) : Nat × List Int × AudioRingBuffer :=
  let avail := rb.available
  let toRead := min count avail
  let r := readLoop rb.capacity_ rb.buffer_ rb.head_ toRead
  (toRead, r.1, { rb with head_ := r.2 })

/-- Method `clear()`: both indices are reset to `0`. -/
def clear (rb : AudioRingBuffer) : AudioRingBuffer :=
  { rb with head_ := 0, tail_ := 0 }

/-- States reachable from `AudioRingBuffer(C)` by `write`, `read`, `clear`. -/
inductive Reachable (C : Nat) : AudioRingBuffer → Prop
  | init : Reachable C (new C)
  | write {rb : AudioRingBuffer} (data : List Int) :
      Reachable C rb → Reachable C (rb.write data).2
  | read {rb : AudioRingBuffer} (count : Nat) :
      Reachable C rb → Reachable C (rb.read count).2.2
  | clear {rb : AudioRingBuffer} : Reachable C rb → Reachable C rb.clear

/-- The stored, unread samples in FIFO order: the `available()` slots from
`head_` onwards, modulo `capacity_`. -/
def contents (rb : AudioRingBuffer) : List Int :=
  (List.range rb.available).map
    fun i => rb.buffer_.getD ((rb.head_ + i) % rb.capacity_) 0

/-- A call of the producer or of the consumer. -/
inductive Call
  | write (data : List Int)
  | read (count : Nat)
deriving DecidableEq

/-- Observation of a call sequence: the samples returned by the reads, in
order, and the samples of the writes that returned `true`, in order. -/
structure Trace where
  readOut : List Int
  accepted : List Int
  state : AudioRingBuffer
deriving DecidableEq

/-- Runs a sequence of calls from a state, recording what the reads return
and what the successful writes were given. -/
def run : Trace → List Call → Trace
  | t, [] => t
  | t, Call.write data :: cs =>
    let r := t.state.write data
    run { readOut := t.readOut
          accepted := if r.1 then t.accepted ++ data else t.accepted
          state := r.2 } cs
  | t, Call.read count :: cs =>
    let r := t.state.read count
    run { readOut := t.readOut ++ r.2.1
          accepted := t.accepted
          state := r.2.2 } cs

/-- Successive reads with the given counts; the concatenated samples and the
final state. -/
def readMany : AudioRingBuffer → List Nat → List Int × AudioRingBuffer
  | rb, [] => ([], rb)
  | rb, c :: cs =>
    let r := rb.read c
    let s := readMany r.2.2 cs
    (r.2.1 ++ s.1, s.2)

/-- Representation invariant of a buffer built by `AudioRingBuffer(C)`. -/
structure Inv (C : Nat) (rb : AudioRingBuffer) : Prop where
  cap : rb.capacity_ = C + 1
  len : rb.buffer_.length = C + 1
  head : rb.head_ < C + 1
  tail : rb.tail_ < C + 1

/-- One iteration of the loop of `write`, on the whole state. -/
def push (rb : AudioRingBuffer) (x : Int) : AudioRingBuffer :=
  { rb with buffer_ := rb.buffer_.set rb.tail_ x, tail_ := szAdd rb.tail_ 1 % rb.capacity_ }

/-- One iteration of the loop of `read`, on the whole state. -/
def pop (rb : AudioRingBuffer) : AudioRingBuffer :=
  { rb with head_ := szAdd rb.head_ 1 % rb.capacity_ }

/-- State after the loop of `write` has stored `data`. -/
def stored (rb : AudioRingBuffer) (data : List Int) : AudioRingBuffer :=
  { rb with
    buffer_ := (writeLoop rb.capacity_ rb.buffer_ rb.tail_ data).1
    tail_ := (writeLoop rb.capacity_ rb.buffer_ rb.tail_ data).2 }

/-- State after the loop of `read` has copied `n` samples. -/
def drained (rb : AudioRingBuffer) (n : Nat) : AudioRingBuffer :=
  { rb with head_ := (readLoop rb.capacity_ rb.buffer_ rb.head_ n).2 }

/-- The slot indices visited by the `for` loop of `write` or of `read`: `n`
iterations from the index `start`, which advances modulo `capacity_`. -/
def loopSlots (cap : Nat) : Nat → Nat → List Nat
  | _, 0 => []
  | start, n + 1 => start :: loopSlots cap (szAdd start 1 % cap) n

/-- The indices of the accesses `buffer_[tail]` that `write(data, count)`
makes. -/
def writeAccesses (rb : AudioRingBuffer) (data : List Int) : List Nat :=
  if data.length > rb.freeSpace then [] else loopSlots rb.capacity_ rb.tail_ data.length

/-- The indices of the accesses `buffer_[head]` that `read(buffer, count)`
makes. -/
def readAccesses (rb : AudioRingBuffer) (count : Nat) : List Nat :=
  loopSlots rb.capacity_ rb.head_ (min count rb.available)

/-- A reachable empty state of a capacity-2 buffer whose indices sit on the
last slot, so that the next write wraps around the end of the storage. -/
def wrapState : AudioRingBuffer := (((new 2).write [1, 2]).2.read 2).2.2

end AudioRingBuffer

/-! ## Double-precision arithmetic

A finite `double` is identified with the rational number it denotes. Every
arithmetic operation of the source on `double` operands is the exact operation
followed by one rounding to the nearest binary64 number, ties to even
(`rnd`), which is what an IEEE-754 target computes when it evaluates each
operation on its own. Infinities and NaN do not occur for the positive rates
and the sample ranges considered below, and results stay far below the
overflow threshold `2 ^ 1024`, which `rnd` therefore does not model. -/

/-- Halving loop of `ilog2`; `fuel` bounds the number of halvings. -/
def ilog2Aux : Nat → Nat → Nat
  | 0, _ => 0
  | fuel + 1, n => if n < 2 then 0 else ilog2Aux fuel (n / 2) + 1

/-- Position of the highest set bit of a positive natural number. -/
def ilog2 (n : Nat) : Nat := ilog2Aux n n

/-- Binary exponent of a nonzero rational: the `e` with
`2 ^ e ≤ |q| < 2 ^ (e + 1)`. -/
def binExp (q : ℚ) : ℤ :=
  let e0 : ℤ := (ilog2 q.num.natAbs : ℤ) - (ilog2 q.den : ℤ)
  if (2 : ℚ) ^ e0 ≤ |q| then e0 else e0 - 1

/-- Nearest integer, ties to even. -/
def roundEven (x : ℚ) : ℤ :=
  if x - ⌊x⌋ < 1 / 2 then ⌊x⌋
  else if 1 / 2 < x - ⌊x⌋ then ⌊x⌋ + 1
  else if ⌊x⌋ % 2 = 0 then ⌊x⌋ else ⌊x⌋ + 1

/-- Rounding of an exact value to binary64 (53-bit significand, least normal
exponent `-1022`, gradual underflow), round-to-nearest-even: the value is
rounded to a multiple of its unit in the last place. -/
def rnd (q : ℚ) : ℚ :=
  if q = 0 then 0
  else roundEven (q / 2 ^ (max (binExp q) (-1022) - 52)) * 2 ^ (max (binExp q) (-1022) - 52)

/-- Addition of two `double` values. -/
def fadd (a b : ℚ) : ℚ := rnd (a + b)

/-- Subtraction of two `double` values. -/
def fsub (a b : ℚ) : ℚ := rnd (a - b)

/-- Multiplication of two `double` values. -/
def fmul (a b : ℚ) : ℚ := rnd (a * b)

/-- Division of two `double` values (nonzero divisor). -/
def fdiv (a b : ℚ) : ℚ := rnd (a / b)

/-- Conversion of an `int` or `int16_t` to `double`. -/
def ofInt (n : Int) : ℚ := rnd n

/-- Conversion of a `size_t` to `double`. -/
def ofSize (n : Nat) : ℚ := rnd n

/-- Conversion `static_cast<size_t>(x)` of a non-negative `double`: the
integer part. -/
def toSize (x : ℚ) : Nat := ⌊x⌋₊

/-- Conversion `static_cast<int16_t>(x)` of a `double` whose integer part is a
16-bit value: truncation toward zero. -/
def toInt16 (x : ℚ) : Int := if 0 ≤ x then ⌊x⌋ else ⌈x⌉

/-! ## AudioResampler -/

/-- The data members of `class AudioResampler` (audio_pipeline.h, 56-61). -/
structure AudioResampler where
  inputRate_ : Int
  outputRate_ : Int
  channels_ : Int
  ratio_ : ℚ
  accumulator_ : ℚ

namespace AudioResampler

/-- Constructor `AudioResampler(inputRate, outputRate, channels)`:
`ratio_(static_cast<double>(outputRate) / inputRate)`, `accumulator_(0.0)`. -/
def new (inputRate outputRate : Int) (channels : Int) : AudioResampler :=
  { inputRate_ := inputRate
    outputRate_ := outputRate
    channels_ := channels
    ratio_ := fdiv (ofInt outputRate) (ofInt inputRate)
    accumulator_ := 0 }

/-- Body of the output loop of `resample` for output index `i`: the value
stored in `output[i]`. -/
def outputSample (r : AudioResampler) (input : List Int) (i : Nat) : Int :=
  let inputIndex := fdiv (ofSize i) r.ratio_
  let index := toSize inputIndex
  let fraction := fsub inputIndex (ofSize index)
  if szAdd index 1 < input.length then
    toInt16 (fadd (fmul (ofInt (input.getD index 0)) (fsub 1 fraction))
      (fmul (ofInt (input.getD (szAdd index 1) 0)) fraction))
  else
    input.getD index 0

/-- Method `resample(input, inputFrames)`; the list `input` holds the
`inputFrames` samples. -/
def resample (r : AudioResampler) (input : List Int) : List Int :=
  if r.inputRate_ = r.outputRate_ then
    input
  else
    let outputFrames := toSize (fmul (ofSize input.length) r.ratio_)
    (List.range outputFrames).map (outputSample r input)

/-- Method `reset()`. -/
def reset (r : AudioResampler) : AudioResampler :=
  { r with accumulator_ := 0 }

/-- The interpolation the specification describes, at the exact input
position `p`: `idx = floor(p)`, `f = p − idx`; with a partner in range the
value `input[idx]·(1 − f) + input[idx+1]·f` in exact arithmetic, truncated
toward zero; otherwise `input[idx]`. -/
def specInterpolate (input : List Int) (p : ℚ) : Int :=
  if ⌊p⌋₊ + 1 < input.length then
    toInt16 ((input.getD ⌊p⌋₊ 0 : ℚ) * (1 - (p - (⌊p⌋₊ : ℚ))) +
      (input.getD (⌊p⌋₊ + 1) 0 : ℚ) * (p - (⌊p⌋₊ : ℚ)))
  else
    input.getD ⌊p⌋₊ 0

/-- Output sample `i` as the specification describes it: the interpolation at
the exact position `p = i · inputRate / outputRate`. -/
def specSample (inputRate outputRate : Int) (input : List Int) (i : Nat) : Int :=
  specInterpolate input ((i : ℚ) * inputRate / outputRate)

/-- The indices at which the body of the output loop of `resample` reads
`input` for output index `i`: `input[index]`, and `input[index + 1]` on the
interpolation branch. -/
def sampleReads (r : AudioResampler) (input : List Int) (i : Nat) : List Nat :=
  let inputIndex := fdiv (ofSize i) r.ratio_
  let index := toSize inputIndex
  if szAdd index 1 < input.length then [index, szAdd index 1] else [index]

/-- Ninety-nine samples, all zero except a one at position 49. -/
def impulseAt49 : List Int := List.replicate 49 0 ++ 1 :: List.replicate 49 0

end AudioResampler

/-! ## Square root in double precision -/

/-- Digit-by-digit integer square root: `b` candidate bits remain. -/
def isqrtAux : Nat → Nat → Nat → Nat
  | 0, _, acc => acc
  | b + 1, n, acc =>
    if (acc + 2 ^ b) * (acc + 2 ^ b) ≤ n then isqrtAux b n (acc + 2 ^ b) else isqrtAux b n acc

/-- Integer square root: the greatest `r` with `r * r ≤ n`. -/
def isqrt (n : Nat) : Nat := isqrtAux (ilog2 n / 2 + 1) n 0

/-- Correctly rounded `std::sqrt` of a non-negative `double`: the binary64
number nearest to the real square root (`m` is the root's significand rounded
down, in units of the last place `u`). -/
def fsqrt (x : ℚ) : ℚ :=
  if x ≤ 0 then 0
  else
    let u : ℚ := 2 ^ (max (binExp x / 2) (-1022) - 52)
    let m : ℕ := isqrt ⌊x / (u * u)⌋₊
    if x / (u * u) < (m + 1 / 2) ^ 2 then m * u
    else if (m + 1 / 2) ^ 2 < x / (u * u) then (m + 1) * u
    else if m % 2 = 0 then m * u else (m + 1) * u

/-- Multiplication of two `size_t` values. -/
def szMul (a b : Nat) : Nat := (a * b) % SIZE_MOD

/-- Conversion of an `int` to `size_t`. -/
def intToSize (n : Int) : Nat := (n % (2 ^ 64 : Int)).toNat

/-- A finite binary32 (`float`) value: a 24-bit significand times a power of
two not below the least subnormal. -/
def IsFloat32 (q : ℚ) : Prop :=
  ∃ k t : ℤ, |k| < 2 ^ 24 ∧ -149 ≤ t ∧ q = (k : ℚ) * 2 ^ t

/-! ## VoiceActivityDetector -/

/-- The data members of `class VoiceActivityDetector` (audio_pipeline.h,
74-80); `threshold_` is the value of the `float`. -/
structure VoiceActivityDetector where
  sampleRate_ : Int
  frameSize_ : Int
  threshold_ : ℚ
  silenceTimeoutMs_ : Int
  silentFrames_ : Int
  voiceDetected_ : Bool
deriving DecidableEq

namespace VoiceActivityDetector

/-- Constructor `VoiceActivityDetector(sampleRate, frameSize)`:
`threshold_(0.01f)` (the binary32 number `10737418 / 2 ^ 30`),
`silenceTimeoutMs_(2000)`, `silentFrames_(0)`, `voiceDetected_(false)`. -/
def new (sampleRate frameSize : Int) : VoiceActivityDetector :=
  { sampleRate_ := sampleRate
    frameSize_ := frameSize
    threshold_ := 10737418 / 2 ^ 30
    silenceTimeoutMs_ := 2000
    silentFrames_ := 0
    voiceDetected_ := false }

/-- The energy loop of `processFrame`: `sample = double(frame[i]) / 32768.0`,
`sum += sample * sample`, from `sum = 0.0`. -/
def energy (frame : List Int) : ℚ :=
  frame.foldl
    (fun sum x => fadd sum (fmul (fdiv (ofInt x) 32768) (fdiv (ofInt x) 32768))) 0

/-- The value `rms = std::sqrt(sum / frameSize)` for a non-empty frame. -/
def rms (frame : List Int) : ℚ :=
  fsqrt (fdiv (energy frame) (ofSize frame.length))

/-- The test `rms > threshold_`. For an empty frame `sum / frameSize` is
`0.0 / 0`, a NaN, and the comparison is false. -/
def voiced (v : VoiceActivityDetector) (frame : List Int) : Bool :=
  if frame.length = 0 then false else decide (v.threshold_ < rms frame)

/-- The value `silenceDuration =
(silentFrames_ * frameSize) / double(sampleRate_) * 1000.0` for a nonzero
sample rate. -/
def silenceDuration (v : VoiceActivityDetector) (frameSize : Nat) : ℚ :=
  fmul (fdiv (ofSize (szMul (intToSize v.silentFrames_) frameSize)) (ofInt v.sampleRate_)) 1000

/-- The test `silenceDuration >= silenceTimeoutMs_`. With `sampleRate_ = 0`
the quotient is `+infinity` for a positive dividend (the test holds) and a
NaN for a zero dividend (the test fails). -/
def timedOut (v : VoiceActivityDetector) (frameSize : Nat) : Bool :=
  if v.sampleRate_ = 0 then decide (szMul (intToSize v.silentFrames_) frameSize ≠ 0)
  else decide (ofInt v.silenceTimeoutMs_ ≤ v.silenceDuration frameSize)

/-- Method `processFrame(frame, frameSize)`: the returned flag and the
detector afterwards. The counter is an `int`; its increment is taken without
overflow. -/
def processFrame (v : VoiceActivityDetector) (frame : List Int) :
    Bool × VoiceActivityDetector :=
  if v.voiced frame then
    (true, { v with silentFrames_ := 0, voiceDetected_ := true })
  else
    let v1 := { v with silentFrames_ := v.silentFrames_ + 1 }
    if v1.timedOut frame.length then
      (false, { v1 with voiceDetected_ := false, silentFrames_ := 0 })
    else
      (v1.voiceDetected_, v1)

/-- Method `setThreshold(threshold)`. -/
def setThreshold (v : VoiceActivityDetector) (threshold : ℚ) : VoiceActivityDetector :=
  { v with threshold_ := threshold }

/-- Method `setSilenceTimeout(ms)`. -/
def setSilenceTimeout (v : VoiceActivityDetector) (ms : Int) : VoiceActivityDetector :=
  { v with silenceTimeoutMs_ := ms }

/-- Modelled from the spec: `VoiceActivityDetector::reset()`, which
`handleWakeWord` calls but the class neither declares nor defines. The spec
says the VAD "resets at every wake-word detection"; its state is the
consecutive-silent-frame counter and the voice-active latch, so the reset
clears both and keeps the configuration. -/
def reset (v : VoiceActivityDetector) : VoiceActivityDetector :=
  { v with silentFrames_ := 0, voiceDetected_ := false }

/-- Exact mean of `(sample / 32768)²` over a frame: the square of the
normalized RMS, in exact arithmetic. -/
def meanSquare (frame : List Int) : ℚ :=
  (frame.map fun (x : Int) => ((x : ℚ) / 32768) ^ 2).sum / frame.length

/-- The exact normalized RMS of a non-empty frame is strictly greater than
`t`, stated without a square root. -/
def RmsAbove (frame : List Int) (t : ℚ) : Prop :=
  frame ≠ [] ∧ (t < 0 ∨ t ^ 2 < meanSquare frame)

instance (frame : List Int) (t : ℚ) : Decidable (RmsAbove frame t) := by
  unfold RmsAbove
  infer_instance

/-- Sum of the squares of the samples of a frame. -/
def sqSum (frame : List Int) : ℤ := (frame.map fun (x : Int) => x * x).sum

/-- The timeout survives the round trip through milliseconds in double
precision: `T / 1000.0 * 1000.0 >= T`. This is the value of the test
`silenceDuration >= silenceTimeoutMs_` when the elapsed silence is exactly the
timeout. -/
def roundTrips (timeoutMs : Int) : Bool :=
  decide ((timeoutMs : ℚ) ≤ fmul (fdiv (timeoutMs : ℚ) 1000) 1000)

/-- All samples are 16-bit values. -/
def Int16Frame (frame : List Int) : Prop := ∀ x ∈ frame, -32768 ≤ x ∧ x ≤ 32767

instance (frame : List Int) : Decidable (Int16Frame frame) := by
  unfold Int16Frame
  infer_instance

/-- A call made on a detector. -/
inductive Op
  | frame (samples : List Int)
  | setThreshold (threshold : ℚ)
  | setSilenceTimeout (ms : Int)

/-- Runs a sequence of calls; returns the flags returned by the
`processFrame` calls, in order, and the final detector. -/
def runOps : VoiceActivityDetector → List Op → List Bool × VoiceActivityDetector
  | v, [] => ([], v)
  | v, Op.frame samples :: ops =>
    let r := v.processFrame samples
    let s := runOps r.2 ops
    (r.1 :: s.1, s.2)
  | v, Op.setThreshold t :: ops => runOps (v.setThreshold t) ops
  | v, Op.setSilenceTimeout ms :: ops => runOps (v.setSilenceTimeout ms) ops

/-- The elapsed-silence test in integer terms: `s` frames of `frameSize`
samples last longer than the timeout, or exactly as long and the timeout
survives the round trip through milliseconds. -/
def expired (v : VoiceActivityDetector) (frameSize : Nat) (s : Int) : Bool :=
  decide (v.silenceTimeoutMs_ * v.sampleRate_ < s * frameSize * 1000) ||
    (decide (s * frameSize * 1000 = v.silenceTimeoutMs_ * v.sampleRate_) &&
      roundTrips v.silenceTimeoutMs_)

/-- A frame of 79 samples whose exact mean square lies just above the square
of the threshold `10997897 / 2 ^ 24`. -/
def edgeFrame : List Int :=
  [21483, 21482, 21478, 21477, 21481, 21479, 21482, 21482, 21478, 21483,
    21481, 21478, 21478, 21478, 21477, 21480, 21481, 21483, 21480, 21481,
    21478, 21482, 21481, 21477, 21482, 21483, 21479, 21482, 21480, 21479,
    21481, 21479, 21478, 21478, 21480, 21477, 21481, 21482, 21479, 21482,
    21482, 21479, 21483, 21482, 21483, 21479, 21479, 21478, 21480, 21479,
    21477, 21483, 21477, 21478, 21483, 21482, 21478, 21481, 21479, 21478,
    21480, 21483, 21477, 21478, 21483, 21479, 21481, 21477, 21479, 21483,
    21480, 21482, 21478, 21483, 21480, 21482, 21483, 20134, 22757]

/-- A detector at 16 kHz whose threshold was set to the `float`
`10997897 / 2 ^ 24` (about 0.6555). -/
def edgeDetector : VoiceActivityDetector :=
  (new 16000 79).setThreshold (10997897 / 2 ^ 24)

/-- A detector at 16 kHz fed frames of 480 samples (30 ms), with the silence
timeout set to 2010 ms, after 66 consecutive silent frames of an utterance. -/
def lateDetector : VoiceActivityDetector :=
  { sampleRate_ := 16000
    frameSize_ := 480
    threshold_ := 10737418 / 2 ^ 30
    silenceTimeoutMs_ := 2010
    silentFrames_ := 66
    voiceDetected_ := true }

/-- No frame of a sequence of calls has an exact RMS strictly above the
threshold in force when it is processed, starting from the threshold `t`
(frames of fewer than `2 ^ 23` 16-bit samples, thresholds that are `float`
values). -/
def NeverAbove : ℚ → List Op → Prop
  | _, [] => True
  | t, Op.frame samples :: ops =>
    (Int16Frame samples ∧ samples.length < 2 ^ 23 ∧ ¬ RmsAbove samples t) ∧ NeverAbove t ops
  | _, Op.setThreshold t :: ops => IsFloat32 t ∧ NeverAbove t ops
  | t, Op.setSilenceTimeout _ :: ops => NeverAbove t ops

/-- A detector at 8 kHz with the silence timeout set to 1 ms. -/
def quickDetector : VoiceActivityDetector :=
  (new 8000 4).setSilenceTimeout 1

/-- Feeds frames to the detector one after the other; returns the flags
returned by `processFrame` and the final detector. -/
def feed (v : VoiceActivityDetector) (frames : List (List Int)) :
    List Bool × VoiceActivityDetector :=
  runOps v (frames.map Op.frame)

end VoiceActivityDetector

/-! ## AudioPipeline

The pipeline is embedded sequentially: a handler is the list of its
statements, each a function on the pipeline record, so that the states between
two statements can be inspected. The record carries a log of the observable
effects in program order. A callback is external code: the embedding records
its invocation and takes it not to re-enter the pipeline. The clock
(`steady_clock::now()`, in nanosecond ticks) is an explicit argument. -/

/-- The enumeration `PipelineState` (audio_pipeline.h, 20-26). -/
inductive PipelineState
  | IDLE
  | LISTENING
  | THINKING
  | SPEAKING
  | ERROR
deriving DecidableEq

/-- The structure `AudioPipeline::Metrics` with its default member values. -/
structure Metrics where
  wakeToStartMs : ℚ := 0
  speechDurationMs : ℚ := 0
  sttLatencyMs : ℚ := 0
  nluLatencyMs : ℚ := 0
  ttsLatencyMs : ℚ := 0
  falseWakes : Int := 0
deriving DecidableEq

/-- The two consumers of the raw audio buffer. -/
inductive Consumer
  | wakeWord
  | recognition
deriving DecidableEq

/-- Observable effects of the pipeline, logged in program order. -/
inductive Effect
  | stateStore (s : PipelineState)
  | wakeWordCallback
  | speechCallback (transcript : String)
  | ttsCallback (response : String)
  | sttClear
  | vadReset
  | rawRead (who : Consumer) (count : Nat)
deriving DecidableEq

/-- The data members of `class AudioPipeline` that the loops and handlers
use; a callback member is `true` when a callback is set; `wakeFrame` and
`sttFrame` are the frame vectors local to the two consumer loops. -/
structure AudioPipeline where
  rawAudioBuffer_ : AudioRingBuffer
  wakeWordBuffer_ : AudioRingBuffer
  sttBuffer_ : AudioRingBuffer
  wakeWordResampler_ : AudioResampler
  sttResampler_ : AudioResampler
  vad_ : VoiceActivityDetector
  running_ : Bool
  state_ : PipelineState
  wakeWordCallback_ : Bool
  speechCallback_ : Bool
  ttsCallback_ : Bool
  sampleRate_ : Int
  channels_ : Int
  frameSize_ : Int
  metrics_ : Metrics
  wakeStartTime_ : Int
  speechStartTime_ : Int
  wakeFrame : List Int
  sttFrame : List Int
  log : List Effect

namespace AudioPipeline

/-- Method `initialize(sampleRate, channels, frameSize)` on a
default-constructed pipeline (state `IDLE`, not running, no callback, default
metrics, time points at the epoch). -/
def init (sampleRate channels frameSize : Int) : AudioPipeline :=
  { rawAudioBuffer_ := AudioRingBuffer.new (intToSize (sampleRate * 30))
    wakeWordBuffer_ := AudioRingBuffer.new (intToSize (sampleRate * 5))
    sttBuffer_ := AudioRingBuffer.new (intToSize (sampleRate * 30))
    wakeWordResampler_ := AudioResampler.new sampleRate 16000 channels
    sttResampler_ := AudioResampler.new sampleRate 16000 channels
    vad_ := VoiceActivityDetector.new 16000 frameSize
    running_ := false
    state_ := PipelineState.IDLE
    wakeWordCallback_ := false
    speechCallback_ := false
    ttsCallback_ := false
    sampleRate_ := sampleRate
    channels_ := channels
    frameSize_ := frameSize
    metrics_ := {}
    wakeStartTime_ := 0
    speechStartTime_ := 0
    wakeFrame := List.replicate 512 0
    sttFrame := List.replicate 4096 0
    log := [] }

/-- Method `getState()`. -/
def getState (p : AudioPipeline) : PipelineState := p.state_

/-- Method `setState(state)`: the store, then `notify_all`. -/
def setState (p : AudioPipeline) (s : PipelineState) : AudioPipeline :=
  { p with state_ := s, log := p.log ++ [Effect.stateStore s] }

/-- Method `getMetrics()`. -/
def getMetrics (p : AudioPipeline) : Metrics := p.metrics_

/-- Runs the statements of a handler in order. -/
def runSteps (steps : List (AudioPipeline → AudioPipeline)) (p : AudioPipeline) :
    AudioPipeline :=
  steps.foldl (fun q f => f q) p

/-- The pipeline before the first statement and after each statement. -/
def traceSteps : List (AudioPipeline → AudioPipeline) → AudioPipeline → List AudioPipeline
  | [], p => [p]
  | f :: fs, p => p :: traceSteps fs (f p)

/-- The statements of `handleWakeWord()`, in source order. -/
def handleWakeWordSteps (now : Int) : List (AudioPipeline → AudioPipeline) :=
  [ fun p => { p with metrics_ := { p.metrics_ with wakeToStartMs := 0 } },
    fun p => { p with wakeStartTime_ := now },
    fun p => if p.wakeWordCallback_ then
      { p with log := p.log ++ [Effect.wakeWordCallback] } else p,
    fun p => p.setState PipelineState.LISTENING,
    fun p => { p with sttBuffer_ := p.sttBuffer_.clear, log := p.log ++ [Effect.sttClear] },
    fun p => { p with vad_ := p.vad_.reset, log := p.log ++ [Effect.vadReset] } ]

/-- Method `handleWakeWord()`. -/
def handleWakeWord (p : AudioPipeline) (now : Int) : AudioPipeline :=
  runSteps (handleWakeWordSteps now) p

/-- The statements of `handleSpeechEnd()`, in source order; the two sleeps
and the construction of the strings change no member. -/
def handleSpeechEndSteps (now : Int) : List (AudioPipeline → AudioPipeline) :=
  [ fun p => { p with metrics_ := { p.metrics_ with
      speechDurationMs := fdiv (ofInt (now - p.speechStartTime_)) 1000000 } },
    fun p => if p.speechCallback_ then
      { p with log := p.log ++ [Effect.speechCallback "Simulated transcript"] } else p,
    fun p => p.setState PipelineState.THINKING,
    fun p => p.setState PipelineState.SPEAKING,
    fun p => if p.ttsCallback_ then
      { p with log := p.log ++ [Effect.ttsCallback ("I heard: " ++ "Simulated transcript")] }
      else p,
    fun p => p.setState PipelineState.IDLE ]

/-- Method `handleSpeechEnd()`. -/
def handleSpeechEnd (p : AudioPipeline) (now : Int) : AudioPipeline :=
  runSteps (handleSpeechEndSteps now) p

/-- Method `handleTTSComplete()`. -/
def handleTTSComplete (p : AudioPipeline) : AudioPipeline :=
  p.setState PipelineState.IDLE

/-- The statement `rawAudioBuffer_->read(frame.data(), porcupineFrameSize)` of
the wake-word loop: the samples read overwrite the front of the loop's frame
vector. -/
def wakeRead (p : AudioPipeline) : AudioPipeline :=
  let r := p.rawAudioBuffer_.read 512
  { p with
    rawAudioBuffer_ := r.2.2
    wakeFrame := r.2.1 ++ p.wakeFrame.drop r.2.1.length
    log := p.log ++ [Effect.rawRead Consumer.wakeWord r.1] }

/-- One iteration of the `while` loop of `wakeWordLoop()`, the answer of the
wake-word detector being `detected`. -/
def wakeWordIterationWith (detected : Bool) (p : AudioPipeline) (now : Int) : AudioPipeline :=
  if p.getState = PipelineState.IDLE then
    let available := p.rawAudioBuffer_.available
    if available ≥ 512 then
      let p1 := p.wakeRead
      let _resampled := p1.wakeWordResampler_.resample p1.wakeFrame
      if detected then p1.handleWakeWord now else p1
    else p
  else p

/-- One iteration of the `while` loop of `wakeWordLoop()` as it stands in the
source, where the detector is a placeholder: `bool detected = false`. -/
def wakeWordIteration (p : AudioPipeline) (now : Int) : AudioPipeline :=
  wakeWordIterationWith false p now

/-- The statement `rawAudioBuffer_->read(frame.data(), sttFrameSize)` of the
recognition loop. -/
def recognitionRead (p : AudioPipeline) : AudioPipeline :=
  let r := p.rawAudioBuffer_.read 4096
  { p with
    rawAudioBuffer_ := r.2.2
    sttFrame := r.2.1 ++ p.sttFrame.drop r.2.1.length
    log := p.log ++ [Effect.rawRead Consumer.recognition r.1] }

/-- One iteration of the `while` loop of `speechRecognitionLoop()`. -/
def speechRecognitionIteration (p : AudioPipeline) (now : Int) : AudioPipeline :=
  if p.getState = PipelineState.LISTENING then
    let available := p.rawAudioBuffer_.available
    if available ≥ 4096 then
      let p1 := p.recognitionRead
      let resampled := p1.sttResampler_.resample p1.sttFrame
      let voiceActive := p1.vad_.processFrame resampled
      let p2 := { p1 with vad_ := voiceActive.2 }
      if !voiceActive.1 then p2.handleSpeechEnd now else p2
    else p
  else p

/-- One iteration of the `while` loop of `audioCaptureLoop()`: a frame of
`frameSize_` zero samples is written to the raw buffer. -/
def audioCaptureIteration (p : AudioPipeline) : AudioPipeline :=
  { p with rawAudioBuffer_ :=
      (p.rawAudioBuffer_.write (List.replicate (intToSize p.frameSize_) 0)).2 }

/-- An iteration of one of the worker loops. -/
inductive LoopStep
  | capture
  | wakeWord (detected : Bool) (now : Int)
  | recognition (now : Int)

/-- Runs one loop iteration. -/
def step (p : AudioPipeline) : LoopStep → AudioPipeline
  | LoopStep.capture => p.audioCaptureIteration
  | LoopStep.wakeWord detected now => wakeWordIterationWith detected p now
  | LoopStep.recognition now => p.speechRecognitionIteration now

/-- Runs loop iterations one after the other. -/
def stepMany (p : AudioPipeline) (steps : List LoopStep) : AudioPipeline :=
  steps.foldl step p

/-- The states stored by `setState`, in order. -/
def stores : List Effect → List PipelineState
  | [] => []
  | Effect.stateStore s :: es => s :: stores es
  | _ :: es => stores es

/-- The edges of the cycle IDLE → LISTENING → THINKING → SPEAKING → IDLE. -/
def isEdge : PipelineState → PipelineState → Bool
  | PipelineState.IDLE, PipelineState.LISTENING => true
  | PipelineState.LISTENING, PipelineState.THINKING => true
  | PipelineState.THINKING, PipelineState.SPEAKING => true
  | PipelineState.SPEAKING, PipelineState.IDLE => true
  | _, _ => false

/-- Every step of the sequence `s, t₁, t₂, …` is an edge of the cycle. -/
def followsCycle : PipelineState → List PipelineState → Bool
  | _, [] => true
  | s, t :: ts => isEdge s t && followsCycle t ts

/-- The last state of the sequence `s, t₁, t₂, …`. -/
def lastState : PipelineState → List PipelineState → PipelineState
  | s, [] => s
  | _, t :: ts => lastState t ts

/-- Number of reads of the raw buffer that a consumer has made. -/
def rawReads (who : Consumer) : List Effect → Nat
  | [] => 0
  | Effect.rawRead w _ :: es => (if w = who then 1 else 0) + rawReads who es
  | _ :: es => rawReads who es

/-- Number of invocations of the wake-word callback. -/
def wakeCallbacks : List Effect → Nat
  | [] => 0
  | Effect.wakeWordCallback :: es => 1 + wakeCallbacks es
  | _ :: es => wakeCallbacks es

/-- A small pipeline in state `IDLE` with all callbacks set, whose STT buffer
holds the two samples `1, 2` and whose detector is mid-utterance. -/
def demo : AudioPipeline :=
  { init 1 1 4 with
    sttBuffer_ := ((AudioRingBuffer.new 30).write [1, 2]).2
    vad_ := { VoiceActivityDetector.new 16000 4 with silentFrames_ := 7, voiceDetected_ := true }
    wakeWordCallback_ := true
    speechCallback_ := true
    ttsCallback_ := true }

/-- The loop iterations that the source can make: the wake-word detector of
`wakeWordLoop()` is the placeholder `bool detected = false`. -/
def LoopStep.inSource : LoopStep → Bool
  | LoopStep.wakeWord detected _ => !detected
  | _ => true

/-- The demo pipeline after seven capture iterations: its raw buffer of
capacity 30 holds 28 samples, two slots short of one more frame of four. -/
def nearlyFull : AudioPipeline :=
  demo.stepMany (List.replicate 7 LoopStep.capture)

/-- Invariant of the pipeline between loop iterations. -/
structure Gated (p : AudioPipeline) : Prop where
  cycle : followsCycle PipelineState.IDLE (stores p.log) = true
  last : lastState PipelineState.IDLE (stores p.log) = p.state_
  rest : p.state_ = PipelineState.IDLE ∨ p.state_ = PipelineState.LISTENING
  noError : PipelineState.ERROR ∉ stores p.log

end AudioPipeline

/-! ## ConfigManager

A shallow embedding of `src/src/utils/config_manager.cpp`. The configuration
is a `nlohmann::json` value; of that library the embedding keeps the value
type and the operations the source uses on it (`contains`, `operator[]` with
a string key, assignment, `get<int>`), each with the exception it can throw. -/

/-- The value type `nlohmann::json`. An object is a map from strings to
values, kept as an association list; `numberInteger` stands for both integer
kinds of the library (signed and unsigned 64-bit). -/
inductive Json
  | null
  | boolean (b : Bool)
  | numberInteger (n : Int)
  | numberFloat (x : ℚ)
  | string (s : String)
  | array (items : List Json)
  | object (members : List (String × Json))

namespace Json

/-- Value stored under `key` in the members of an object (`std::map::find`). -/
def find (key : String) : List (String × Json) → Option Json
  | [] => none
  | (k, v) :: rest => if k = key then some v else find key rest

/-- The members after `v` has been stored under `key`: the value of an
existing member is replaced, a missing member is added. -/
def store (key : String) (v : Json) : List (String × Json) → List (String × Json)
  | [] => [(key, v)]
  | (k, w) :: rest => if k = key then (k, v) :: rest else (k, w) :: store key v rest

/-- Translation of `basic_json::contains(key)`: true on an object that has
the key, false on every other value. -/
def contains (j : Json) (key : String) : Bool :=
  match j with
  | object members => (find key members).isSome
  | _ => false

/-- Whether `operator[](key)` accepts the value: it does on an object and on
`null` (which it turns into an object), and throws `type_error` on every
other value. -/
def indexable : Json → Bool
  | null => true
  | object _ => true
  | _ => false

/-- The value `(*current)[key]` refers to, on an object that has the key. -/
def member (j : Json) (key : String) : Json :=
  match j with
  | object members => (find key members).getD null
  | _ => null

/-- The value after the assignment `j[key] = v`, for `j` an object or `null`. -/
def put (j : Json) (key : String) (v : Json) : Json :=
  match j with
  | object members => object (store key v members)
  | _ => object [(key, v)]

/-- Conversion `static_cast<int>` of a 64-bit integer: reduction to 32 bits. -/
def toInt32 (n : Int) : Int := (n + 2 ^ 31) % 2 ^ 32 - 2 ^ 31

/-- Translation of `get<int>()`: defined on the number kinds and on
booleans, `none` (the exception `type_error`) on every other value. A float
is truncated toward zero. -/
def getInt (j : Json) : Option Int :=
  match j with
  | numberInteger n => some (toInt32 n)
  | numberFloat x => some (toInt32 (if 0 ≤ x then ⌊x⌋ else ⌈x⌉))
  | boolean b => some (if b then 1 else 0)
  | _ => none

end Json

/-- The data members of `class ConfigManager` (config_manager.h). -/
structure ConfigManager where
  config_ : Json := Json.null
  loaded_ : Bool := false
  filename_ : String := ""

namespace ConfigManager

/-- Translation of `ConfigManager::ConfigManager()`. -/
def new : ConfigManager := {}

/-- Translation of `ConfigManager::load(filename)`; the file is a parameter:
`none` when it cannot be opened, else the value parsed from it. (A file that
opens and does not parse is outside the embedding; `loaded_` stays as it was
then, too.) -/
def load (c : ConfigManager) (filename : String) (file : Option Json) : Bool × ConfigManager :=
  match file with
  | none => (false, c)
  | some j => (true, { c with config_ := j, loaded_ := true, filename_ := filename })

/-- The loop of `splitKey` over the characters that are left, with the
segments found so far and the segment being read. -/
def splitKeyLoop : List Char → List String → List Char → List String × List Char
  | [], keys, current => (keys, current)
  | c :: cs, keys, current =>
    if c = '.' then
      if current ≠ [] then splitKeyLoop cs (keys ++ [String.mk current]) []
      else splitKeyLoop cs keys current
    else splitKeyLoop cs keys (current ++ [c])

/-- Translation of `ConfigManager::splitKey(key)`: the non-empty segments
between the dots. -/
def splitKey (key : String) : List String :=
  let r := splitKeyLoop key.toList [] []
  if r.2 ≠ [] then r.1 ++ [String.mk r.2] else r.1

/-- The walk of the getters from `current` along the keys: `none` is the
early `return defaultValue` at a key that `contains` does not find. -/
def walk : Json → List String → Option Json
  | j, [] => some j
  | j, k :: ks => if !j.contains k then none else walk (j.member k) ks

/-- Translation of `ConfigManager::getInt(key, defaultValue)`. The exception
of `get<int>()` is caught and gives the default. -/
def getInt (c : ConfigManager) (key : String) (defaultValue : Int) : Int :=
  if !c.loaded_ then defaultValue
  else
    match walk c.config_ (splitKey key) with
    | none => defaultValue
    | some j =>
      match j.getInt with
      | some n => n
      | none => defaultValue

/-- The loop and the final assignment of `setValue` on the value `current`
points to, for the keys that are left. The result is the value after the
statements that ran, and whether all of them ran: `false` is an exception of
`operator[]`, and what had been stored before it stays stored. (With no key
at all `keys.size() - 1` wraps and `keys[0]` is undefined; the embedding
leaves the value as it is.) -/
def setPath : Json → List String → Json → Json × Bool
  | j, [], _ => (j, false)
  | j, [k], value => if j.indexable then (j.put k value, true) else (j, false)
  | j, k :: k2 :: rest, value =>
    if !j.contains k && !j.indexable then (j, false)
    else
      let j1 := if !j.contains k then j.put k (Json.object []) else j
      let r := setPath (j1.member k) (k2 :: rest) value
      (j1.put k r.1, r.2)

/-- Translation of `ConfigManager::setValue(key, value)`: the exception is
caught (and reported on `std::cerr`). -/
def setValue (c : ConfigManager) (key : String) (value : Json) : ConfigManager :=
  { c with config_ := (setPath c.config_ (splitKey key) value).1 }

/-- Translation of `ConfigManager::setInt(key, value)`. -/
def setInt (c : ConfigManager) (key : String) (value : Int) : ConfigManager :=
  c.setValue key (Json.numberInteger value)

/-- Whether every value that `setValue` indexes with one of the keys is an
object or `null`, so that no `operator[]` throws. -/
def settable : Json → List String → Bool
  | _, [] => true
  | j, [_] => j.indexable
  | j, k :: k2 :: rest => if j.contains k then settable (j.member k) (k2 :: rest) else j.indexable

/-- A loaded configuration `{"audio": {"rate": 16000}, "name": "jarvis"}`. -/
def sample : ConfigManager :=
  (new.load "config.json" (some (Json.object
    [("audio", Json.object [("rate", Json.numberInteger 16000)]),
     ("name", Json.string "jarvis")]))).2

end ConfigManager

/-! ## One producer and one consumer on a ring buffer

The calls `write` and `read` of `AudioRingBuffer`, cut into their accesses to
shared memory: every load or store of `head_`, of `tail_` and of a slot of
`buffer_` is one step of the thread that makes it, and a schedule interleaves
the steps of the two threads. What a thread computes between two accesses
(the test `count > free`, `std::min`, the loop counter, the index modulo
`capacity_`) belongs to the step of the access before it. Every access takes
effect at its step; the memory orders of the atomic accesses are not part of
the embedding. -/

/-- The two threads. -/
inductive Thread
  | producer
  | consumer
deriving DecidableEq

/-- Position of the producer inside `write(data, count)`, named by the next
access to shared memory: `head_.load` and `tail_.load` of `available()`
(inside `freeSpace()`), `tail_.load` of `write`, then for `copy tail left` the
store `buffer_[tail] = data[i]` of the first sample of `left` or, when `left`
is empty, `tail_.store(tail)`. -/
inductive WriteAt
  | loadHead
  | loadTail (head : Nat)
  | reloadTail
  | copy (tail : Nat) (left : List Int)
deriving DecidableEq

/-- Position of the consumer inside `read(buffer, count)`, named by the next
access to shared memory: `head_.load` and `tail_.load` of `available()`,
`head_.load` of `read`, then for `copy head left toRead` the load of
`buffer_[head]` when `left` samples remain or, when none remains,
`head_.store(head)`. -/
inductive ReadAt
  | loadHead
  | loadTail (head : Nat)
  | reloadHead (toRead : Nat)
  | copy (head : Nat) (left : Nat) (toRead : Nat)
deriving DecidableEq

/-- The producer thread: where it stands, the `write` calls it still has to
make (the first one is in progress unless it stands at `loadHead`), and the
calls it has completed, each with the value returned. -/
structure ProducerThread where
  pc : WriteAt := WriteAt.loadHead
  calls : List (List Int)
  done : List (List Int × Bool) := []
deriving DecidableEq

/-- The consumer thread: where it stands, the counts of the `read` calls it
still has to make, the samples copied into the caller's buffers so far, in
order, and the values returned by the completed calls. -/
structure ConsumerThread where
  pc : ReadAt := ReadAt.loadHead
  calls : List Nat
  out : List Int := []
  done : List Nat := []
deriving DecidableEq

/-- One ring buffer shared by one producer and one consumer. -/
structure Spsc where
  shared : AudioRingBuffer
  producer : ProducerThread
  consumer : ConsumerThread
deriving DecidableEq

/-- The stream written: the data of the `write` calls that returned true, in
order. -/
def accepted : List (List Int × Bool) → List Int
  | [] => []
  | (data, ok) :: rest => if ok then data ++ accepted rest else accepted rest

namespace Spsc

/-- A buffer built by `AudioRingBuffer(C)` and two threads that have the
given calls to make. -/
def init (C : Nat) (writes : List (List Int)) (reads : List Nat) : Spsc :=
  { shared := AudioRingBuffer.new C
    producer := { calls := writes }
    consumer := { calls := reads } }

/-- One step of the producer: the next access of the `write` call in
progress, following `AudioRingBuffer::write`, `freeSpace` and `available`. -/
def stepProducer (s : Spsc) : Spsc :=
  match s.producer.calls with
  | [] => s
  | data :: later =>
    match s.producer.pc with
    | WriteAt.loadHead =>
      { s with producer := { s.producer with pc := WriteAt.loadTail s.shared.head_ } }
    | WriteAt.loadTail head =>
      let avail := szSub (szAdd s.shared.tail_ s.shared.capacity_) head % s.shared.capacity_
      let free := szSub (szSub s.shared.capacity_ avail) 1
      if data.length > free then
        { s with
          producer :=
            { pc := WriteAt.loadHead, calls := later, done := s.producer.done ++ [(data, false)] } }
      else
        { s with producer := { s.producer with pc := WriteAt.reloadTail } }
    | WriteAt.reloadTail =>
      { s with producer := { s.producer with pc := WriteAt.copy s.shared.tail_ data } }
    | WriteAt.copy tail (x :: left) =>
      { s with
        shared := { s.shared with buffer_ := s.shared.buffer_.set tail x }
        producer :=
          { s.producer with pc := WriteAt.copy (szAdd tail 1 % s.shared.capacity_) left } }
    | WriteAt.copy tail [] =>
      { s with
        shared := { s.shared with tail_ := tail }
        producer :=
          { pc := WriteAt.loadHead, calls := later, done := s.producer.done ++ [(data, true)] } }

/-- One step of the consumer: the next access of the `read` call in
progress, following `AudioRingBuffer::read` and `available`. -/
def stepConsumer (s : Spsc) : Spsc :=
  match s.consumer.calls with
  | [] => s
  | count :: later =>
    match s.consumer.pc with
    | ReadAt.loadHead =>
      { s with consumer := { s.consumer with pc := ReadAt.loadTail s.shared.head_ } }
    | ReadAt.loadTail head =>
      let avail := szSub (szAdd s.shared.tail_ s.shared.capacity_) head % s.shared.capacity_
      let toRead := min count avail
      { s with consumer := { s.consumer with pc := ReadAt.reloadHead toRead } }
    | ReadAt.reloadHead toRead =>
      { s with consumer := { s.consumer with pc := ReadAt.copy s.shared.head_ toRead toRead } }
    | ReadAt.copy head (left + 1) toRead =>
      { s with
        consumer :=
          { s.consumer with
            pc := ReadAt.copy (szAdd head 1 % s.shared.capacity_) left toRead
            out := s.consumer.out ++ [s.shared.buffer_.getD head 0] } }
    | ReadAt.copy head 0 toRead =>
      { s with
        shared := { s.shared with head_ := head }
        consumer :=
          { pc := ReadAt.loadHead, calls := later, out := s.consumer.out
            done := s.consumer.done ++ [toRead] } }

/-- One step of the thread the schedule names. -/
def step (s : Spsc) : Thread → Spsc
  | Thread.producer => s.stepProducer
  | Thread.consumer => s.stepConsumer

/-- The steps of a schedule, one after the other. -/
def run (s : Spsc) (schedule : List Thread) : Spsc :=
  schedule.foldl step s

/-- The slot of `buffer_` the producer stores to at its next step, if that
step is a slot store. -/
def storeIndex (s : Spsc) : Option Nat :=
  match s.producer.calls, s.producer.pc with
  | _ :: _, WriteAt.copy tail (_ :: _) => some tail
  | _, _ => none

/-- The slot of `buffer_` the consumer loads at its next step, if that step
is a slot load. -/
def loadIndex (s : Spsc) : Option Nat :=
  match s.consumer.calls, s.consumer.pc with
  | _ :: _, ReadAt.copy head (_ + 1) _ => some head
  | _, _ => none

/-- Upper bound on the steps the producer still needs: a call takes two
loads, then one load, one store per sample and the store of `tail_`. -/
def producerWork (p : ProducerThread) : Nat :=
  match p.calls with
  | [] => 0
  | data :: later =>
    (match p.pc with
      | WriteAt.loadHead => data.length + 4
      | WriteAt.loadTail _ => data.length + 3
      | WriteAt.reloadTail => data.length + 2
      | WriteAt.copy _ left => left.length + 1) +
    (later.map fun d => d.length + 4).sum

/-- Upper bound on the steps the consumer still needs. -/
def consumerWork (c : ConsumerThread) : Nat :=
  match c.calls with
  | [] => 0
  | count :: later =>
    (match c.pc with
      | ReadAt.loadHead => count + 4
      | ReadAt.loadTail _ => count + 3
      | ReadAt.reloadHead toRead => toRead + 2
      | ReadAt.copy _ left _ => left + 1) +
    (later.map fun n => n + 4).sum

/-- What holds of the producer at each position, for `H` samples read and
`T` samples published so far. -/
def prodInv (C H T : Nat) (buf : List Int) (calls : List (List Int)) : WriteAt → Prop
  | WriteAt.loadHead => True
  | WriteAt.loadTail head => ∃ seen, seen ≤ H ∧ head = seen % (C + 1) ∧ T ≤ seen + C
  | WriteAt.reloadTail => ∀ data ∈ calls.head?, T + data.length ≤ H + C
  | WriteAt.copy tail left =>
    ∀ data ∈ calls.head?, ∃ written, data = written ++ left ∧
      tail = (T + written.length) % (C + 1) ∧ T + data.length ≤ H + C ∧
      ∀ i, i < written.length → buf.getD ((T + i) % (C + 1)) 0 = written.getD i 0

/-- What holds of the consumer at each position, for `H` samples read and
`T` samples published so far, `acc` being the stream written. -/
def consInv (C H T : Nat) (acc out : List Int) : ReadAt → Prop
  | ReadAt.loadHead => out = acc.take H
  | ReadAt.loadTail head => head = H % (C + 1) ∧ out = acc.take H
  | ReadAt.reloadHead toRead => H + toRead ≤ T ∧ out = acc.take H
  | ReadAt.copy head left toRead =>
    ∃ k, k + left = toRead ∧ head = (H + k) % (C + 1) ∧ H + toRead ≤ T ∧ out = acc.take (H + k)

/-- Invariant of the shared buffer and the two threads: `H` is the number of
samples the completed `read` calls have returned, `T` the number of samples
the completed `write` calls have stored. -/
structure Coherent (C : Nat) (s : Spsc) (H T : Nat) : Prop where
  cap : s.shared.capacity_ = C + 1
  len : s.shared.buffer_.length = C + 1
  head : s.shared.head_ = H % (C + 1)
  tail : s.shared.tail_ = T % (C + 1)
  le : H ≤ T
  room : T ≤ H + C
  returned : s.consumer.done.sum = H
  written : (accepted s.producer.done).length = T
  stored : ∀ i, H ≤ i → i < T →
    s.shared.buffer_.getD (i % (C + 1)) 0 = (accepted s.producer.done).getD i 0
  prod : prodInv C H T s.shared.buffer_ s.producer.calls s.producer.pc
  cons : consInv C H T (accepted s.producer.done) s.consumer.out s.consumer.pc

/-- Bookkeeping of the calls: the completed and the remaining `write` calls
are the calls given, no `read` call is lost, and a thread with no call left
stands at the start of a call. -/
structure Booked (writes : List (List Int)) (reads : List Nat) (s : Spsc) : Prop where
  writes : s.producer.done.map Prod.fst ++ s.producer.calls = writes
  reads : s.consumer.done.length + s.consumer.calls.length = reads.length
  producerIdle : s.producer.calls = [] → s.producer.pc = WriteAt.loadHead
  consumerIdle : s.consumer.calls = [] → s.consumer.pc = ReadAt.loadHead

/-- Capacity 2; writes of `1, 2`, of `3, 4, 5` and of `3`; reads of up to one,
two and two samples. -/
def small : Spsc := init 2 [[1, 2], [3, 4, 5], [3]] [1, 2, 2]

/-- A schedule for `small`: the producer completes its first two calls, the
consumer its first; then each thread goes up to the slot access of its next
call. -/
def upToSlots : List Thread :=
  List.replicate 8 Thread.producer ++ List.replicate 5 Thread.consumer ++
    [Thread.producer, Thread.consumer, Thread.producer, Thread.consumer, Thread.producer,
      Thread.consumer]

/-- The schedule `upToSlots` continued until both threads have made all their
calls. -/
def toTheEnd : List Thread :=
  upToSlots ++ [Thread.producer, Thread.consumer, Thread.producer, Thread.consumer] ++
    List.replicate 5 Thread.consumer

end Spsc

/-! ## Arithmetic of `size_t` and of the circular indices -/

theorem szAdd_of_lt {a b : Nat} (h : a + b < 2 ^ 64) : szAdd a b = a + b := by
  unfold szAdd SIZE_MOD
  exact Nat.mod_eq_of_lt h

theorem szSub_of_le {a b : Nat} (hb : b ≤ a) (ha : a < 2 ^ 64) : szSub a b = a - b := by
  unfold szSub SIZE_MOD
  have : a + 2 ^ 64 - b = (a - b) + 2 ^ 64 := by omega
  rw [this, Nat.add_mod_right]
  exact Nat.mod_eq_of_lt (by omega)

theorem mod_of_lt_two_mul {x n : Nat} (h : x < 2 * n) :
    x % n = if x < n then x else x - n := by
  split
  · next hlt => exact Nat.mod_eq_of_lt hlt
  · next hge =>
    have hx : x = (x - n) + n := by omega
    rw [hx, Nat.add_mod_right, Nat.mod_eq_of_lt (by omega)]
    omega

namespace AudioRingBuffer

theorem new_inv {C : Nat} (hC : C < 2 ^ 63) : Inv C (new C) := by
  have h : szAdd C 1 = C + 1 := szAdd_of_lt (by omega)
  refine ⟨?_, ?_, ?_, ?_⟩ <;> simp [new, h]

theorem available_eq {C : Nat} {rb : AudioRingBuffer} (hC : C < 2 ^ 63) (h : Inv C rb) :
    rb.available =
      if rb.head_ ≤ rb.tail_ then rb.tail_ - rb.head_ else rb.tail_ + (C + 1) - rb.head_ := by
  have hh := h.head
  have ht := h.tail
  unfold available
  rw [h.cap, szAdd_of_lt (by omega), szSub_of_le (by omega) (by omega),
    mod_of_lt_two_mul (by omega)]
  split <;> split <;> omega

theorem available_le {C : Nat} {rb : AudioRingBuffer} (hC : C < 2 ^ 63) (h : Inv C rb) :
    rb.available ≤ C := by
  have hh := h.head
  have ht := h.tail
  rw [available_eq hC h]
  split <;> omega

theorem freeSpace_eq {C : Nat} {rb : AudioRingBuffer} (hC : C < 2 ^ 63) (h : Inv C rb) :
    rb.freeSpace = C - rb.available := by
  have ha := available_le hC h
  unfold freeSpace
  have h1 : szSub (C + 1) rb.available = C + 1 - rb.available :=
    szSub_of_le (by omega) (by omega)
  rw [h.cap, h1, szSub_of_le (by omega) (by omega)]
  omega

theorem stored_nil (rb : AudioRingBuffer) : stored rb [] = rb := rfl

theorem stored_cons (rb : AudioRingBuffer) (x : Int) (xs : List Int) :
    stored rb (x :: xs) = stored (push rb x) xs := rfl

theorem drained_zero (rb : AudioRingBuffer) : drained rb 0 = rb := rfl

theorem drained_succ (rb : AudioRingBuffer) (n : Nat) :
    drained rb (n + 1) = drained (pop rb) n := rfl

theorem readLoop_succ (rb : AudioRingBuffer) (n : Nat) :
    (readLoop rb.capacity_ rb.buffer_ rb.head_ (n + 1)).1 =
      rb.buffer_.getD rb.head_ 0 ::
        (readLoop (pop rb).capacity_ (pop rb).buffer_ (pop rb).head_ n).1 := rfl

theorem next_index {C i : Nat} (hC : C < 2 ^ 63) (hi : i < C + 1) :
    szAdd i 1 % (C + 1) = if i + 1 < C + 1 then i + 1 else 0 := by
  rw [szAdd_of_lt (by omega), mod_of_lt_two_mul (by omega)]
  split <;> omega

theorem slot_eq_tail_iff {C : Nat} {rb : AudioRingBuffer} (hC : C < 2 ^ 63) (h : Inv C rb)
    {i : Nat} (hi : i ≤ C) :
    (rb.head_ + i) % rb.capacity_ = rb.tail_ ↔ i = rb.available := by
  have hh := h.head
  have ht := h.tail
  rw [available_eq hC h, h.cap, mod_of_lt_two_mul (by omega)]
  split <;> split <;> omega

theorem slot_lt {C : Nat} {rb : AudioRingBuffer} (h : Inv C rb) (i : Nat) :
    (rb.head_ + i) % rb.capacity_ < C + 1 := by
  rw [h.cap]
  exact Nat.mod_lt _ (by omega)

theorem push_inv {C : Nat} {rb : AudioRingBuffer} (hC : C < 2 ^ 63) (h : Inv C rb) (x : Int) :
    Inv C (push rb x) := by
  have ht := h.tail
  refine ⟨h.cap, ?_, h.head, ?_⟩
  · simp [push, h.len]
  · show szAdd rb.tail_ 1 % rb.capacity_ < C + 1
    rw [h.cap]
    exact Nat.mod_lt _ (by omega)

theorem push_available {C : Nat} {rb : AudioRingBuffer} (hC : C < 2 ^ 63) (h : Inv C rb)
    (x : Int) (hfree : rb.available < C) : (push rb x).available = rb.available + 1 := by
  have hh := h.head
  have ht := h.tail
  have hp := push_inv hC h x
  have e1 := available_eq hC h
  have e2 := available_eq hC hp
  have e3 : (push rb x).tail_ = if rb.tail_ + 1 < C + 1 then rb.tail_ + 1 else 0 := by
    show szAdd rb.tail_ 1 % rb.capacity_ = _
    rw [h.cap, next_index hC ht]
  have e4 : (push rb x).head_ = rb.head_ := rfl
  rw [e2, e3, e4]
  rw [e1] at hfree ⊢
  split at hfree <;> split <;> split <;> omega

theorem push_contents {C : Nat} {rb : AudioRingBuffer} (hC : C < 2 ^ 63) (h : Inv C rb)
    (x : Int) (hfree : rb.available < C) : (push rb x).contents = rb.contents ++ [x] := by
  have ht := h.tail
  unfold contents
  rw [push_available hC h x hfree, List.range_succ, List.map_append]
  congr 1
  · apply List.map_congr_left
    intro i hi
    have hi2 : i < rb.available := List.mem_range.mp hi
    have hne : ¬ (rb.head_ + i) % rb.capacity_ = rb.tail_ := by
      rw [slot_eq_tail_iff hC h (by omega)]
      omega
    show (rb.buffer_.set rb.tail_ x).getD ((rb.head_ + i) % rb.capacity_) 0 = _
    simp only [List.getD_eq_getElem?_getD]
    rw [List.getElem?_set_ne (fun e => hne e.symm)]
  · have he : (rb.head_ + rb.available) % rb.capacity_ = rb.tail_ :=
      (slot_eq_tail_iff hC h (by omega)).mpr rfl
    show [(rb.buffer_.set rb.tail_ x).getD ((rb.head_ + rb.available) % rb.capacity_) 0] = [x]
    rw [he]
    simp only [List.getD_eq_getElem?_getD]
    rw [List.getElem?_set_self (by rw [h.len]; exact ht)]
    rfl

theorem pop_inv {C : Nat} {rb : AudioRingBuffer} (h : Inv C rb) : Inv C (pop rb) := by
  refine ⟨h.cap, h.len, ?_, h.tail⟩
  show szAdd rb.head_ 1 % rb.capacity_ < C + 1
  rw [h.cap]
  exact Nat.mod_lt _ (by omega)

theorem pop_available {C : Nat} {rb : AudioRingBuffer} (hC : C < 2 ^ 63) (h : Inv C rb)
    (hpos : 0 < rb.available) : (pop rb).available = rb.available - 1 := by
  have hh := h.head
  have ht := h.tail
  have hp := pop_inv h
  have e1 := available_eq hC h
  have e2 := available_eq hC hp
  have e3 : (pop rb).head_ = if rb.head_ + 1 < C + 1 then rb.head_ + 1 else 0 := by
    show szAdd rb.head_ 1 % rb.capacity_ = _
    rw [h.cap, next_index hC hh]
  have e4 : (pop rb).tail_ = rb.tail_ := rfl
  rw [e2, e3, e4]
  rw [e1] at hpos ⊢
  split at hpos <;> split <;> split <;> omega

theorem pop_contents {C : Nat} {rb : AudioRingBuffer} (hC : C < 2 ^ 63) (h : Inv C rb)
    (hpos : 0 < rb.available) :
    rb.contents = rb.buffer_.getD rb.head_ 0 :: (pop rb).contents := by
  have hh := h.head
  have ha := available_le hC h
  have hav : rb.available = (rb.available - 1) + 1 := by omega
  unfold contents
  rw [pop_available hC h hpos]
  conv_lhs => rw [hav, List.range_succ_eq_map, List.map_cons, List.map_map]
  congr 1
  · rw [Nat.add_zero, h.cap, Nat.mod_eq_of_lt hh]
  · apply List.map_congr_left
    intro i hi
    have hi2 : i < rb.available - 1 := List.mem_range.mp hi
    have e3 : (pop rb).head_ = if rb.head_ + 1 < C + 1 then rb.head_ + 1 else 0 := by
      show szAdd rb.head_ 1 % rb.capacity_ = _
      rw [h.cap, next_index hC hh]
    show rb.buffer_.getD ((rb.head_ + (i + 1)) % rb.capacity_) 0 =
      rb.buffer_.getD (((pop rb).head_ + i) % rb.capacity_) 0
    congr 1
    rw [e3, h.cap]
    split
    · congr 1
      omega
    · next hge =>
      have hhd : rb.head_ = C := by omega
      rw [hhd, show C + (i + 1) = i + (C + 1) by omega, Nat.add_mod_right, Nat.zero_add]

theorem stored_spec {C : Nat} (hC : C < 2 ^ 63) (data : List Int) :
    ∀ rb : AudioRingBuffer, Inv C rb → rb.available + data.length ≤ C →
      Inv C (stored rb data) ∧
      (stored rb data).available = rb.available + data.length ∧
      (stored rb data).contents = rb.contents ++ data := by
  induction data with
  | nil =>
    intro rb h _
    simp [stored_nil, h]
  | cons x xs ih =>
    intro rb h hle
    have hlen : (x :: xs).length = xs.length + 1 := rfl
    have hfree : rb.available < C := by omega
    have hpa := push_available hC h x hfree
    obtain ⟨i1, i2, i3⟩ := ih (push rb x) (push_inv hC h x) (by omega)
    rw [stored_cons]
    refine ⟨i1, by omega, ?_⟩
    rw [i3, push_contents hC h x hfree, List.append_assoc]
    rfl

theorem drained_spec {C : Nat} (hC : C < 2 ^ 63) (n : Nat) :
    ∀ rb : AudioRingBuffer, Inv C rb → n ≤ rb.available →
      Inv C (drained rb n) ∧
      (drained rb n).available = rb.available - n ∧
      (readLoop rb.capacity_ rb.buffer_ rb.head_ n).1 = rb.contents.take n ∧
      (drained rb n).contents = rb.contents.drop n := by
  induction n with
  | zero =>
    intro rb h _
    simp [drained_zero, h, readLoop]
  | succ n ih =>
    intro rb h hle
    have hpos : 0 < rb.available := by omega
    have hpa := pop_available hC h hpos
    obtain ⟨i1, i2, i3, i4⟩ := ih (pop rb) (pop_inv h) (by omega)
    rw [drained_succ, readLoop_succ, pop_contents hC h hpos]
    refine ⟨i1, by omega, ?_, ?_⟩
    · rw [i3, List.take_succ_cons]
    · rw [i4, List.drop_succ_cons]

theorem contents_length (rb : AudioRingBuffer) : rb.contents.length = rb.available := by
  simp [contents]

theorem write_fail {rb : AudioRingBuffer} {data : List Int}
    (h : rb.freeSpace < data.length) : rb.write data = (false, rb) := by
  unfold write
  simp only [gt_iff_lt, h, if_true]

theorem write_ok {rb : AudioRingBuffer} {data : List Int}
    (h : data.length ≤ rb.freeSpace) : rb.write data = (true, stored rb data) := by
  unfold write
  simp only [gt_iff_lt, Nat.not_lt.mpr h, if_false]
  rfl

theorem read_eq (rb : AudioRingBuffer) (count : Nat) :
    rb.read count =
      (min count rb.available,
        (readLoop rb.capacity_ rb.buffer_ rb.head_ (min count rb.available)).1,
        drained rb (min count rb.available)) := rfl

theorem readLoop_length (cap : Nat) (buf : List Int) (n : Nat) :
    ∀ head : Nat, (readLoop cap buf head n).1.length = n := by
  induction n with
  | zero => intro head; rfl
  | succ n ih =>
    intro head
    show ((readLoop cap buf (szAdd head 1 % cap) n).1.length) + 1 = n + 1
    rw [ih]

theorem write_inv {C : Nat} {rb : AudioRingBuffer} (hC : C < 2 ^ 63) (h : Inv C rb)
    (data : List Int) : Inv C (rb.write data).2 := by
  by_cases hd : data.length ≤ rb.freeSpace
  · rw [write_ok hd]
    have ha := available_le hC h
    rw [freeSpace_eq hC h] at hd
    exact (stored_spec hC data rb h (by omega)).1
  · rw [write_fail (by omega)]
    exact h

theorem read_inv {C : Nat} {rb : AudioRingBuffer} (hC : C < 2 ^ 63) (h : Inv C rb)
    (count : Nat) : Inv C (rb.read count).2.2 := by
  rw [read_eq]
  exact (drained_spec hC _ rb h (Nat.min_le_right _ _)).1

theorem clear_inv {C : Nat} {rb : AudioRingBuffer} (h : Inv C rb) : Inv C rb.clear :=
  ⟨h.cap, h.len, Nat.succ_pos C, Nat.succ_pos C⟩

theorem reachable_inv {C : Nat} (hC : C < 2 ^ 63) {rb : AudioRingBuffer}
    (hr : Reachable C rb) : Inv C rb := by
  induction hr with
  | init => exact new_inv hC
  | write data _ ih => exact write_inv hC ih data
  | read count _ ih => exact read_inv hC ih count
  | clear _ ih => exact clear_inv ih

theorem read_contents {C : Nat} {rb : AudioRingBuffer} (hC : C < 2 ^ 63) (h : Inv C rb)
    (count : Nat) :
    (rb.read count).2.1 = rb.contents.take count ∧
      (rb.read count).2.2.contents = rb.contents.drop count := by
  obtain ⟨_, _, i3, i4⟩ := drained_spec hC (min count rb.available) rb h (Nat.min_le_right _ _)
  rw [read_eq]
  have hl := contents_length rb
  constructor
  · show (readLoop rb.capacity_ rb.buffer_ rb.head_ (min count rb.available)).1 = _
    rw [i3, ← hl, List.take_eq_take]
    simp
  · show (drained rb (min count rb.available)).contents = _
    rw [i4]
    by_cases hc : count ≤ rb.available
    · rw [Nat.min_eq_left hc]
    · rw [Nat.min_eq_right (by omega), List.drop_of_length_le (by omega),
        List.drop_of_length_le (by omega)]

theorem write_contents {C : Nat} {rb : AudioRingBuffer} (hC : C < 2 ^ 63) (h : Inv C rb)
    (data : List Int) :
    (rb.write data).2.contents =
      if (rb.write data).1 then rb.contents ++ data else rb.contents := by
  by_cases hd : data.length ≤ rb.freeSpace
  · rw [write_ok hd]
    have ha := available_le hC h
    rw [freeSpace_eq hC h] at hd
    simpa using (stored_spec hC data rb h (by omega)).2.2
  · rw [write_fail (by omega)]
    simp

theorem run_fifo {C : Nat} (hC : C < 2 ^ 63) (calls : List Call) :
    ∀ t : Trace, Inv C t.state → t.readOut ++ t.state.contents = t.accepted →
      Inv C (run t calls).state ∧
      (run t calls).readOut ++ (run t calls).state.contents = (run t calls).accepted := by
  induction calls with
  | nil => intro t h e; exact ⟨h, e⟩
  | cons c cs ih =>
    intro t h e
    cases c with
    | write data =>
      apply ih
      · exact write_inv hC h data
      · show t.readOut ++ (t.state.write data).2.contents = _
        rw [write_contents hC h data]
        split
        · rw [← List.append_assoc, e]
        · exact e
    | read count =>
      apply ih
      · exact read_inv hC h count
      · show (t.readOut ++ (t.state.read count).2.1) ++ (t.state.read count).2.2.contents = _
        rw [(read_contents hC h count).1, (read_contents hC h count).2, List.append_assoc,
          List.take_append_drop]
        exact e

theorem readMany_spec {C : Nat} (hC : C < 2 ^ 63) (counts : List Nat) :
    ∀ rb : AudioRingBuffer, Inv C rb →
      (readMany rb counts).1 = rb.contents.take counts.sum := by
  induction counts with
  | nil => intro rb _; simp [readMany]
  | cons c cs ih =>
    intro rb h
    show (rb.read c).2.1 ++ (readMany (rb.read c).2.2 cs).1 = _
    rw [ih _ (read_inv hC h c), (read_contents hC h c).1, (read_contents hC h c).2,
      List.sum_cons, List.take_add]

end AudioRingBuffer

/-! ## Ring buffer: the properties -/

section RingBufferProperties

open AudioRingBuffer

/-- C1 (FIFO). For a buffer of usable capacity `C` (its `C + 1` slots being
allocatable, `C < 2 ^ 63`) and every sequence of `write` and `read` calls from
the empty buffer: what the reads returned is a prefix of what the successful
writes were given, the samples still stored are exactly the remainder, and any
further read returns the front of that remainder. In particular, from any
reachable empty state (wherever `head_ = tail_` lies in the storage) a write of
`xs` that succeeds followed by reads totalling `|xs|` returns exactly `xs`. -/
theorem ring_buffer_fifo (C : Nat) (hC : C < 2 ^ 63) (calls : List Call) (n : Nat) :
    (run ⟨[], [], new C⟩ calls).readOut <+: (run ⟨[], [], new C⟩ calls).accepted ∧
    (run ⟨[], [], new C⟩ calls).accepted =
      (run ⟨[], [], new C⟩ calls).readOut ++ (run ⟨[], [], new C⟩ calls).state.contents ∧
    ((run ⟨[], [], new C⟩ calls).state.read n).2.1 =
      (run ⟨[], [], new C⟩ calls).state.contents.take n ∧
    (∀ (rb : AudioRingBuffer) (xs : List Int) (counts : List Nat),
      Reachable C rb → rb.available = 0 → (rb.write xs).1 = true →
      counts.sum = xs.length → (readMany (rb.write xs).2 counts).1 = xs) := by
  have h0 : Inv C (new C) := new_inv hC
  have hc0 : (new C).contents = [] := by
    have : (new C).available = 0 := by
      rw [available_eq hC h0]
      simp [new]
    simp [contents, this]
  obtain ⟨hi, he⟩ := run_fifo hC calls ⟨[], [], new C⟩ h0 (by simp [hc0])
  refine ⟨⟨_, he⟩, he.symm, (read_contents hC hi n).1, ?_⟩
  intro rb xs counts hreach hempty hwrite hsum
  have hinv := reachable_inv hC hreach
  have hcont : rb.contents = [] := by simp [contents, hempty]
  rw [readMany_spec hC counts _ (write_inv hC hinv xs), write_contents hC hinv xs, hwrite, hsum,
    hcont]
  simp

/-- C2. `write` returns `true` exactly when `count ≤ freeSpace()`, the free
space being that of the state before the call; this holds in every state and
for every count, `0` included. -/
theorem write_true_iff_fits (rb : AudioRingBuffer) (data : List Int) :
    (rb.write data).1 = true ↔ data.length ≤ rb.freeSpace := by
  by_cases hd : data.length ≤ rb.freeSpace
  · simp [write_ok hd, hd]
  · simp [write_fail (Nat.lt_of_not_le hd), hd]

/-- C3 (atomic overflow). A `write` of more than `freeSpace()` samples returns
`false` and returns the very same state: `head_`, `tail_` and every slot are
unchanged, hence so are `available()`, `freeSpace()` and the result of any
later `read` or `write`. -/
theorem write_overflow_atomic (rb : AudioRingBuffer) (data : List Int)
    (hover : rb.freeSpace < data.length) (n : Nat) (later : List Int) :
    (rb.write data).1 = false ∧
    (rb.write data).2 = rb ∧
    (rb.write data).2.head_ = rb.head_ ∧
    (rb.write data).2.tail_ = rb.tail_ ∧
    (rb.write data).2.buffer_ = rb.buffer_ ∧
    (rb.write data).2.available = rb.available ∧
    (rb.write data).2.freeSpace = rb.freeSpace ∧
    (rb.write data).2.read n = rb.read n ∧
    (rb.write data).2.write later = rb.write later := by
  rw [write_fail hover]
  simp

/-- C4. In every state reachable from `AudioRingBuffer(C)` by `write`, `read`
and `clear` (with `C + 1` slots allocatable), `available() + freeSpace() = C`. -/
theorem available_add_freeSpace (C : Nat) (hC : C < 2 ^ 63) (rb : AudioRingBuffer)
    (hreach : Reachable C rb) : rb.available + rb.freeSpace = C := by
  have h := reachable_inv hC hreach
  have ha := available_le hC h
  rw [freeSpace_eq hC h]
  omega

/-- C6. In every reachable state (of a buffer with `C + 1` allocatable slots):
a successful `write` of `n` samples raises `available()` by exactly `n` and
lowers `freeSpace()` by exactly `n`; a `read` that returns `k` lowers
`available()` by exactly `k` and raises `freeSpace()` by exactly `k`. -/
theorem transfer_counts_exact (C : Nat) (hC : C < 2 ^ 63) (rb : AudioRingBuffer)
    (hreach : Reachable C rb) (data : List Int) (count : Nat) :
    ((rb.write data).1 = true →
      (rb.write data).2.available = rb.available + data.length ∧
      (rb.write data).2.freeSpace + data.length = rb.freeSpace) ∧
    (rb.read count).2.2.available + (rb.read count).1 = rb.available ∧
    (rb.read count).2.2.freeSpace = rb.freeSpace + (rb.read count).1 := by
  have h := reachable_inv hC hreach
  have ha := available_le hC h
  have hf := freeSpace_eq hC h
  constructor
  · intro hw
    have hd : data.length ≤ rb.freeSpace := by
      by_contra hlt
      rw [write_fail (Nat.lt_of_not_le hlt)] at hw
      exact Bool.false_ne_true hw
    have hs := stored_spec hC data rb h (by omega)
    rw [write_ok hd]
    show (stored rb data).available = _ ∧ (stored rb data).freeSpace + _ = _
    rw [freeSpace_eq hC hs.1, hs.2.1]
    omega
  · have hd := drained_spec hC (min count rb.available) rb h (Nat.min_le_right _ _)
    have hm : min count rb.available ≤ rb.available := Nat.min_le_right _ _
    rw [read_eq]
    show (drained rb _).available + min count rb.available = _ ∧
      (drained rb _).freeSpace = _ + min count rb.available
    rw [freeSpace_eq hC hd.1, hd.2.1]
    omega

/-- C7. The empty state is unambiguous (buffer with `C + 1` allocatable
slots): a fresh `AudioRingBuffer(C)` and any reachable buffer after `clear()`
report `available() = 0` and `freeSpace() = C`; writing exactly `C` samples
into an empty reachable buffer succeeds and gives `available() = C`,
`freeSpace() = 0`; and in every reachable state `head_ = tail_` holds exactly
when the buffer is empty. -/
theorem empty_state_unambiguous (C : Nat) (hC : C < 2 ^ 63) (rb : AudioRingBuffer)
    (hreach : Reachable C rb) (data : List Int) :
    (new C).available = 0 ∧ (new C).freeSpace = C ∧
    rb.clear.available = 0 ∧ rb.clear.freeSpace = C ∧
    (rb.available = 0 → data.length = C →
      (rb.write data).1 = true ∧ (rb.write data).2.available = C ∧
      (rb.write data).2.freeSpace = 0) ∧
    (rb.head_ = rb.tail_ ↔ rb.available = 0) := by
  have h := reachable_inv hC hreach
  have hh := h.head
  have ht := h.tail
  have hn := new_inv hC
  have hc := clear_inv h
  have an : (new C).available = 0 := by rw [available_eq hC hn]; simp [new]
  have ac : rb.clear.available = 0 := by rw [available_eq hC hc]; simp [clear]
  refine ⟨an, ?_, ac, ?_, ?_, ?_⟩
  · rw [freeSpace_eq hC hn, an]; rfl
  · rw [freeSpace_eq hC hc, ac]; rfl
  · intro h0 hlen
    have hd : data.length ≤ rb.freeSpace := by rw [freeSpace_eq hC h, h0]; omega
    have hs := stored_spec hC data rb h (by omega)
    rw [write_ok hd]
    refine ⟨rfl, ?_, ?_⟩
    · show (stored rb data).available = C
      rw [hs.2.1]; omega
    · show (stored rb data).freeSpace = 0
      rw [freeSpace_eq hC hs.1, hs.2.1]; omega
  · rw [available_eq hC h]
    split <;> omega

/-! ### Concrete instances -/

theorem wrapState_reachable : Reachable 2 AudioRingBuffer.wrapState :=
  Reachable.read 2 (Reachable.write [1, 2] Reachable.init)

/-- Instance of C1: capacity 2, the second write wraps around slot 2. -/
theorem ring_buffer_fifo_witness :
    (run ⟨[], [], new 2⟩ [Call.write [1, 2], Call.read 2, Call.write [7, 8], Call.read 1]).accepted
      = (run ⟨[], [], new 2⟩
          [Call.write [1, 2], Call.read 2, Call.write [7, 8], Call.read 1]).readOut ++
        (run ⟨[], [], new 2⟩
          [Call.write [1, 2], Call.read 2, Call.write [7, 8], Call.read 1]).state.contents ∧
    (readMany (wrapState.write [7, 8]).2 [1, 1]).1 = [7, 8] :=
  have h := ring_buffer_fifo 2 (by decide)
    [Call.write [1, 2], Call.read 2, Call.write [7, 8], Call.read 1] 1
  ⟨h.2.1, h.2.2.2 wrapState [7, 8] [1, 1] wrapState_reachable (by decide) (by decide)
    (by decide)⟩

/-- Instance of C3: three samples do not fit a capacity-2 buffer. -/
theorem write_overflow_atomic_witness :
    ((new 2).write [1, 2, 3]).1 = false ∧ ((new 2).write [1, 2, 3]).2 = new 2 :=
  have h := write_overflow_atomic (new 2) [1, 2, 3] (by decide) 0 []
  ⟨h.1, h.2.1⟩

/-- Instance of C4 at the wrapped state. -/
theorem available_add_freeSpace_witness : wrapState.available + wrapState.freeSpace = 2 :=
  available_add_freeSpace 2 (by decide) wrapState wrapState_reachable

/-- Instance of C6 at the wrapped state. -/
theorem transfer_counts_exact_witness :
    (wrapState.write [7, 8]).2.available = wrapState.available + 2 ∧
    (wrapState.read 1).2.2.freeSpace = wrapState.freeSpace + (wrapState.read 1).1 :=
  have h := transfer_counts_exact 2 (by decide) wrapState wrapState_reachable [7, 8] 1
  ⟨(h.1 (by decide)).1, h.2.2⟩

/-- Instance of C7: filling the wrapped empty state. -/
theorem empty_state_unambiguous_witness :
    (wrapState.write [7, 8]).1 = true ∧ (wrapState.write [7, 8]).2.available = 2 ∧
      (wrapState.write [7, 8]).2.freeSpace = 0 :=
  (empty_state_unambiguous 2 (by decide) wrapState wrapState_reachable [7, 8]).2.2.2.2.1
    (by decide) (by decide)

end RingBufferProperties

/-! ## Double-precision arithmetic: exactly representable values -/

theorem ilog2Aux_spec (fuel : Nat) : ∀ n : Nat, n ≤ fuel → 0 < n →
    2 ^ ilog2Aux fuel n ≤ n ∧ n < 2 ^ (ilog2Aux fuel n + 1) := by
  induction fuel with
  | zero => intro n h1 h2; omega
  | succ f ih =>
    intro n h1 h2
    unfold ilog2Aux
    split
    · simp; omega
    · next hge =>
      obtain ⟨a, b⟩ := ih (n / 2) (by omega) (by omega)
      rw [pow_succ] at b ⊢
      rw [pow_succ]
      constructor <;> omega

theorem ilog2_spec {n : Nat} (h : 0 < n) : 2 ^ ilog2 n ≤ n ∧ n < 2 ^ (ilog2 n + 1) :=
  ilog2Aux_spec n n (Nat.le_refl n) h

theorem binExp_le {q : ℚ} (hq : q ≠ 0) : (2 : ℚ) ^ binExp q ≤ |q| := by
  unfold binExp
  simp only
  split
  · next h => exact h
  · have hn : 0 < q.num.natAbs := Int.natAbs_pos.mpr (Rat.num_ne_zero.mpr hq)
    have hd : 0 < q.den := q.den_pos
    obtain ⟨a, _⟩ := ilog2_spec hn
    obtain ⟨_, b⟩ := ilog2_spec hd
    have habs : |q| = (q.num.natAbs : ℚ) / (q.den : ℚ) := by
      conv_lhs => rw [← Rat.num_div_den q]
      rw [abs_div, Nat.abs_cast, Nat.cast_natAbs, Int.cast_abs]
    have ha : ((2 : ℚ) ^ ilog2 q.num.natAbs) ≤ (q.num.natAbs : ℚ) := by exact_mod_cast a
    have hb : (q.den : ℚ) ≤ (2 : ℚ) ^ (ilog2 q.den + 1) := by exact_mod_cast b.le
    have hdq : (0 : ℚ) < (q.den : ℚ) := by exact_mod_cast hd
    rw [habs, le_div_iff₀ hdq]
    have e : (2 : ℚ) ^ ((ilog2 q.num.natAbs : ℤ) - (ilog2 q.den : ℤ) - 1) =
        2 ^ ilog2 q.num.natAbs / 2 ^ (ilog2 q.den + 1) := by
      rw [show ((ilog2 q.num.natAbs : ℤ) - (ilog2 q.den : ℤ) - 1) =
        (ilog2 q.num.natAbs : ℤ) - ((ilog2 q.den + 1 : ℕ) : ℤ) by push_cast; ring]
      rw [zpow_sub₀ (by norm_num), zpow_natCast, zpow_natCast]
    rw [e]
    have hp : (0 : ℚ) < 2 ^ (ilog2 q.den + 1) := by positivity
    calc 2 ^ ilog2 q.num.natAbs / 2 ^ (ilog2 q.den + 1) * (q.den : ℚ)
        ≤ 2 ^ ilog2 q.num.natAbs / 2 ^ (ilog2 q.den + 1) * 2 ^ (ilog2 q.den + 1) := by
          apply mul_le_mul_of_nonneg_left hb
          positivity
      _ = 2 ^ ilog2 q.num.natAbs := by field_simp
      _ ≤ _ := ha

theorem roundEven_intCast (z : ℤ) : roundEven (z : ℚ) = z := by
  unfold roundEven
  simp

/-- Values `m * 2 ^ t` with a significand below `2 ^ 53` and an exponent in
range are binary64 numbers: rounding leaves them as they are. -/
theorem rnd_exact (m t : ℤ) (hm : |m| < 2 ^ 53) (ht : -1074 ≤ t) :
    rnd ((m : ℚ) * 2 ^ t) = (m : ℚ) * 2 ^ t := by
  by_cases hm0 : m = 0
  · subst hm0
    simp [rnd]
  have h2 : (0 : ℚ) < 2 ^ t := by positivity
  have hq : (m : ℚ) * 2 ^ t ≠ 0 := by
    apply mul_ne_zero
    · exact_mod_cast hm0
    · exact ne_of_gt h2
  have hb := binExp_le hq
  have hlt : |(m : ℚ) * 2 ^ t| < 2 ^ (53 + t) := by
    rw [abs_mul, abs_of_pos h2, zpow_add₀ (by norm_num)]
    apply mul_lt_mul_of_pos_right _ h2
    have : |(m : ℚ)| = ((|m| : ℤ) : ℚ) := by rw [Int.cast_abs]
    rw [this]
    exact_mod_cast hm
  have hexp : binExp ((m : ℚ) * 2 ^ t) < 53 + t := by
    have := lt_of_le_of_lt hb hlt
    exact (zpow_lt_zpow_iff_right₀ (by norm_num : (1 : ℚ) < 2)).mp this
  unfold rnd
  rw [if_neg hq]
  set e := max (binExp ((m : ℚ) * 2 ^ t)) (-1022) with he
  have hle : e - 52 ≤ t := by
    have : e ≤ 52 + t := by
      rw [he]
      apply max_le <;> omega
    omega
  obtain ⟨j, hj⟩ := Int.eq_ofNat_of_zero_le (by omega : 0 ≤ t - (e - 52))
  have ht2 : t = (j : ℤ) + (e - 52) := by omega
  have hdiv : (m : ℚ) * 2 ^ t / 2 ^ (e - 52) = ((m * 2 ^ j : ℤ) : ℚ) := by
    rw [ht2, zpow_add₀ (by norm_num), zpow_natCast]
    have : (2 : ℚ) ^ (e - 52) ≠ 0 := by positivity
    field_simp
    ring
  rw [hdiv, roundEven_intCast, ht2, zpow_add₀ (by norm_num), zpow_natCast]
  push_cast
  ring

/-- Known binary64 values: `0.1`, `1.0 / 3.0`, the two ties above `2 ^ 53`
(to even), and the least subnormal. -/
theorem rnd_known_values :
    rnd (1 / 10) = 3602879701896397 / 2 ^ 55 ∧
    rnd (1 / 3) = 6004799503160661 / 2 ^ 54 ∧
    rnd (2 ^ 53 + 1) = 2 ^ 53 ∧
    rnd (2 ^ 53 + 3) = 2 ^ 53 + 4 ∧
    rnd (-(2 ^ 53 + 3)) = -(2 ^ 53 + 4) ∧
    rnd (3 / 2 ^ 1075) = 2 / 2 ^ 1074 ∧
    rnd (1 / 2 ^ 1075) = 0 := by
  decide!

theorem rnd_intCast (m : ℤ) (hm : |m| < 2 ^ 53) : rnd (m : ℚ) = m := by
  have := rnd_exact m 0 hm (by norm_num)
  simpa using this

theorem rnd_natCast (n : ℕ) (hn : n < 2 ^ 53) : rnd (n : ℚ) = n := by
  have := rnd_intCast (n : ℤ) (by rw [abs_of_nonneg (by positivity)]; exact_mod_cast hn)
  simpa using this


namespace AudioResampler

theorem toSize_natCast (n : ℕ) : toSize (n : ℚ) = n := by
  unfold toSize
  simp

theorem toInt16_intCast (z : ℤ) : toInt16 (z : ℚ) = z := by
  unfold toInt16
  split <;> simp

theorem rnd_zero : rnd 0 = 0 := by simp [rnd]

theorem ofSize_exact {n : ℕ} (hn : n < 2 ^ 53) : ofSize n = n := rnd_natCast n hn

theorem ofInt_exact {z : ℤ} (hz : |z| < 2 ^ 53) : ofInt z = z := rnd_intCast z hz

/-- When the input position of output index `i` is exactly the integer `p`,
the output sample is `input[p]`. -/
theorem outputSample_of_exact (r : AudioResampler) (input : List Int) (i p : Nat)
    (hidx : fdiv (ofSize i) r.ratio_ = p) (hp53 : p < 2 ^ 53)
    (hrange : ∀ x ∈ input, -32768 ≤ x ∧ x ≤ 32767) :
    outputSample r input i = input.getD p 0 := by
  unfold outputSample
  simp only [hidx, toSize_natCast, ofSize_exact hp53]
  split
  · next hlt =>
    have hp : p < input.length := by
      have : szAdd p 1 = p + 1 := by
        unfold szAdd SIZE_MOD
        exact Nat.mod_eq_of_lt (by omega)
      omega
    have hmem : input.getD p 0 ∈ input := by
      rw [List.getD_eq_getElem _ _ hp]
      exact List.getElem_mem hp
    obtain ⟨h1, h2⟩ := hrange _ hmem
    have ha : ofInt (input.getD p 0) = (input.getD p 0 : ℚ) :=
      ofInt_exact (by rw [abs_lt]; constructor <;> omega)
    have h11 : rnd (1 : ℚ) = 1 := by simpa using rnd_natCast 1 (by norm_num)
    have hr : rnd (input.getD p 0 : ℚ) = (input.getD p 0 : ℚ) := ha
    simp only [fsub, fadd, fmul, sub_self, rnd_zero, sub_zero, h11, mul_one, mul_zero,
      add_zero, ha, hr, toInt16_intCast]
  · rfl


theorem dyadic_exponent_bound {a b : ℤ} {m s : ℕ} (ha0 : 0 < a) (ha : a < 2 ^ 31)
    (hb0 : 0 < b) (h : b * 2 ^ s = m * a) (hm : m < 2 ^ 53) : s < 1074 ∧ 0 < m := by
  have hmpos : 0 < m := by
    rcases Nat.eq_zero_or_pos m with h0 | h0
    · subst h0
      have : (0 : ℤ) < b * 2 ^ s := by positivity
      simp [h] at this
    · exact h0
  refine ⟨?_, hmpos⟩
  by_contra hs
  have hs2 : 84 ≤ s := by omega
  have h1 : (2 : ℤ) ^ 84 ≤ 2 ^ s := pow_le_pow_right₀ (by norm_num) hs2
  have h2 : (2 : ℤ) ^ s ≤ b * 2 ^ s := by
    have : (0 : ℤ) < 2 ^ s := by positivity
    nlinarith
  have hmz : (m : ℤ) < 2 ^ 53 := by exact_mod_cast hm
  have hmz0 : (0 : ℤ) ≤ m := by positivity
  have h3 : (m : ℤ) * a < 2 ^ 53 * 2 ^ 31 := by nlinarith
  rw [← h] at h3
  have : (2 : ℤ) ^ 53 * 2 ^ 31 = 2 ^ 84 := by norm_num
  omega

/-- The stored ratio is exact when `outputRate / inputRate = m / 2 ^ s`. -/
theorem ratio_of_dyadic {inputRate outputRate : ℤ} (channels : ℤ) {m s : ℕ}
    (hin : 0 < inputRate) (hin2 : inputRate < 2 ^ 31)
    (hout : 0 < outputRate) (hout2 : outputRate < 2 ^ 31)
    (h : outputRate * 2 ^ s = m * inputRate) (hm : m < 2 ^ 53) :
    (new inputRate outputRate channels).ratio_ = (m : ℚ) * 2 ^ (-(s : ℤ)) := by
  obtain ⟨hs, _⟩ := dyadic_exponent_bound hin hin2 hout h hm
  have e1 : ofInt outputRate = outputRate := ofInt_exact (by rw [abs_lt]; constructor <;> omega)
  have e2 : ofInt inputRate = inputRate := ofInt_exact (by rw [abs_lt]; constructor <;> omega)
  have hq : (outputRate : ℚ) / inputRate = ((m : ℤ) : ℚ) * 2 ^ (-(s : ℤ)) := by
    have hi : (inputRate : ℚ) ≠ 0 := by exact_mod_cast ne_of_gt hin
    have hz : (outputRate : ℚ) * 2 ^ s = m * inputRate := by exact_mod_cast h
    rw [zpow_neg, zpow_natCast]
    field_simp
    linarith
  show fdiv (ofInt outputRate) (ofInt inputRate) = _
  unfold fdiv
  rw [e1, e2, hq, rnd_exact _ _ (by rw [abs_of_nonneg (by positivity)]; exact_mod_cast hm)
    (by omega)]
  push_cast
  rfl


theorem resample_of_ne {r : AudioResampler} (h : r.inputRate_ ≠ r.outputRate_)
    (input : List Int) :
    resample r input =
      (List.range (toSize (fmul (ofSize input.length) r.ratio_))).map (outputSample r input) := by
  unfold resample
  rw [if_neg h]

/-- Number of output frames for a dyadic ratio `m / 2 ^ s`. -/
theorem outputFrames_of_dyadic {r : AudioResampler} {m s : ℕ} (n : ℕ)
    (hr : r.ratio_ = (m : ℚ) * 2 ^ (-(s : ℤ))) (hs : s < 1074) (hn : n * m < 2 ^ 53)
    (hm : 0 < m) :
    toSize (fmul (ofSize n) r.ratio_) = n * m / 2 ^ s := by
  have hn2 : n < 2 ^ 53 := lt_of_le_of_lt (Nat.le_mul_of_pos_right n hm) hn
  have e : (n : ℚ) * ((m : ℚ) * 2 ^ (-(s : ℤ))) = ((n * m : ℕ) : ℤ) * 2 ^ (-(s : ℤ)) := by
    push_cast
    ring
  unfold fmul
  rw [ofSize_exact hn2, hr, e, rnd_exact _ _
    (by rw [abs_of_nonneg (by positivity)]; exact_mod_cast hn) (by omega)]
  unfold toSize
  rw [zpow_neg, zpow_natCast, ← div_eq_mul_inv]
  have : (((n * m : ℕ) : ℤ) : ℚ) / 2 ^ s = ((n * m : ℕ) : ℚ) / ((2 ^ s : ℕ) : ℚ) := by
    push_cast
    rfl
  rw [this, Nat.floor_div_eq_div]


theorem resample_of_eq {r : AudioResampler} (h : r.inputRate_ = r.outputRate_)
    (input : List Int) : resample r input = input := by
  unfold resample
  exact if_pos h

theorem getElem?_map_range {f : ℕ → ℤ} {n i : ℕ} (h : i < n) :
    ((List.range n).map f)[i]? = some (f i) := by
  rw [List.getElem?_map, List.getElem?_range h]
  rfl

end AudioResampler

/-! ## Double-precision arithmetic: rounding error -/

theorem roundEven_error (x : ℚ) : |(roundEven x : ℚ) - x| ≤ 1 / 2 := by
  have h1 : (⌊x⌋ : ℚ) ≤ x := Int.floor_le x
  have h2 : x < ⌊x⌋ + 1 := Int.lt_floor_add_one x
  unfold roundEven
  split
  · next h => rw [abs_le]; constructor <;> linarith
  · next h =>
    split
    · next h3 => push_cast; rw [abs_le]; constructor <;> linarith
    · next h3 =>
      have h4 : x - ⌊x⌋ = 1 / 2 := le_antisymm (not_lt.mp h3) (not_lt.mp h)
      split
      · rw [abs_le]; constructor <;> linarith
      · push_cast; rw [abs_le]; constructor <;> linarith

/-- Relative error of one rounding in the normal range: at most `2 ^ -53`. -/
theorem rnd_error {q : ℚ} (hq : (2 : ℚ) ^ (-1022 : ℤ) ≤ |q|) :
    |rnd q - q| ≤ |q| * 2 ^ (-53 : ℤ) := by
  have hpos : (0 : ℚ) < |q| := lt_of_lt_of_le (by positivity) hq
  have hq0 : q ≠ 0 := abs_pos.mp hpos
  unfold rnd
  rw [if_neg hq0]
  set e := max (binExp q) (-1022) with he
  have hu : (0 : ℚ) < 2 ^ (e - 52) := by positivity
  have hle : (2 : ℚ) ^ e ≤ |q| := by
    rcases max_choice (binExp q) (-1022) with h | h
    · rw [he, h]; exact binExp_le hq0
    · rw [he, h]; exact hq
  have herr := roundEven_error (q / 2 ^ (e - 52))
  have e1 : (roundEven (q / 2 ^ (e - 52)) : ℚ) * 2 ^ (e - 52) - q =
      ((roundEven (q / 2 ^ (e - 52)) : ℚ) - q / 2 ^ (e - 52)) * 2 ^ (e - 52) := by
    field_simp
  rw [e1, abs_mul, abs_of_pos hu]
  have e2 : (2 : ℚ) ^ (e - 52) = 2 ^ e * 2 ^ (-52 : ℤ) := by
    rw [← zpow_add₀ (by norm_num)]
    rfl
  have e3 : (2 : ℚ) ^ (-52 : ℤ) = 2 * 2 ^ (-53 : ℤ) := by norm_num
  calc |(roundEven (q / 2 ^ (e - 52)) : ℚ) - q / 2 ^ (e - 52)| * 2 ^ (e - 52)
      ≤ 1 / 2 * 2 ^ (e - 52) := mul_le_mul_of_nonneg_right herr hu.le
    _ = 2 ^ e * 2 ^ (-53 : ℤ) := by rw [e2, e3]; ring
    _ ≤ |q| * 2 ^ (-53 : ℤ) := mul_le_mul_of_nonneg_right hle (by positivity)


theorem rnd_between {q : ℚ} (hq : (2 : ℚ) ^ (-1022 : ℤ) ≤ q) :
    q * (1 - 2 ^ (-53 : ℤ)) ≤ rnd q ∧ rnd q ≤ q * (1 + 2 ^ (-53 : ℤ)) := by
  have hpos : (0 : ℚ) < q := lt_of_lt_of_le (by positivity) hq
  have h := rnd_error (q := q) (by rw [abs_of_pos hpos]; exact hq)
  rw [abs_of_pos hpos, abs_le] at h
  constructor <;> linarith [h.1, h.2]

/-- The double-precision frame count `N ⊗ (out ⊘ in)` stays within a relative
distance `2 ^ -51` of the exact product `N · out / in`. -/
theorem frames_between {inputRate outputRate : ℤ} (channels : ℤ) {n : ℕ}
    (hin : 0 < inputRate) (hin2 : inputRate < 2 ^ 31)
    (hout : 0 < outputRate) (hout2 : outputRate < 2 ^ 31) (hn : 0 < n) :
    (n : ℚ) * outputRate / inputRate * (1 - 2 ^ (-51 : ℤ)) ≤
        fmul (ofSize n) (AudioResampler.new inputRate outputRate channels).ratio_ ∧
      fmul (ofSize n) (AudioResampler.new inputRate outputRate channels).ratio_ ≤
        (n : ℚ) * outputRate / inputRate * (1 + 2 ^ (-51 : ℤ)) := by
  have hiq : (0 : ℚ) < inputRate := by exact_mod_cast hin
  have hoq : (1 : ℚ) ≤ outputRate := by exact_mod_cast hout
  have hiq2 : (inputRate : ℚ) < 2 ^ 31 := by exact_mod_cast hin2
  have hnq : (1 : ℚ) ≤ n := by exact_mod_cast hn
  have e1 : ofInt outputRate = outputRate :=
    AudioResampler.ofInt_exact (by rw [abs_lt]; constructor <;> omega)
  have e2 : ofInt inputRate = inputRate :=
    AudioResampler.ofInt_exact (by rw [abs_lt]; constructor <;> omega)
  -- the exact ratio
  have hr0 : (2 : ℚ) ^ (-31 : ℤ) ≤ (outputRate : ℚ) / inputRate := by
    rw [le_div_iff₀ hiq]
    have : (2 : ℚ) ^ (-31 : ℤ) * inputRate ≤ 2 ^ (-31 : ℤ) * 2 ^ 31 :=
      mul_le_mul_of_nonneg_left hiq2.le (by positivity)
    have h1 : (2 : ℚ) ^ (-31 : ℤ) * 2 ^ 31 = 1 := by norm_num
    linarith
  have hsmall : (2 : ℚ) ^ (-1022 : ℤ) ≤ 2 ^ (-33 : ℤ) :=
    zpow_le_zpow_right₀ (by norm_num) (by norm_num)
  have h31 : (2 : ℚ) ^ (-33 : ℤ) ≤ 2 ^ (-31 : ℤ) :=
    zpow_le_zpow_right₀ (by norm_num) (by norm_num)
  obtain ⟨ra, rb⟩ := rnd_between (q := (outputRate : ℚ) / inputRate) (by linarith)
  obtain ⟨na, nb⟩ := rnd_between (q := (n : ℚ)) (by
    have : (2 : ℚ) ^ (-1022 : ℤ) ≤ 1 := zpow_le_one_of_nonpos₀ (by norm_num) (by norm_num)
    linarith)
  have hratio : (AudioResampler.new inputRate outputRate channels).ratio_ =
      rnd ((outputRate : ℚ) / inputRate) := by
    show fdiv (ofInt outputRate) (ofInt inputRate) = _
    unfold fdiv
    rw [e1, e2]
  have hx : (n : ℚ) * outputRate / inputRate = n * ((outputRate : ℚ) / inputRate) := by ring
  rw [hratio, hx]
  unfold fmul ofSize
  have hd0 : (0 : ℚ) < 2 ^ (-53 : ℤ) := by positivity
  have hd1 : (2 : ℚ) ^ (-53 : ℤ) < 1 / 2 := by norm_num
  have hq14 : (1 : ℚ) / 4 ≤ (1 - 2 ^ (-53 : ℤ)) * (1 - 2 ^ (-53 : ℤ)) := by norm_num
  have c3lo : (1 : ℚ) - 2 ^ (-51 : ℤ) ≤
      (1 - 2 ^ (-53 : ℤ)) * (1 - 2 ^ (-53 : ℤ)) * (1 - 2 ^ (-53 : ℤ)) := by norm_num
  have c3hi : (1 + 2 ^ (-53 : ℤ)) * (1 + 2 ^ (-53 : ℤ)) * (1 + 2 ^ (-53 : ℤ)) ≤
      (1 : ℚ) + 2 ^ (-51 : ℤ) := by norm_num
  have h2 : (2 : ℚ) ^ (-33 : ℤ) = 2 ^ (-31 : ℤ) * (1 / 4) := by norm_num
  have key : ∀ y : ℚ, (2 : ℚ) ^ (-1022 : ℤ) ≤ y →
      y * (1 - 2 ^ (-53 : ℤ)) ≤ rnd y ∧ rnd y ≤ y * (1 + 2 ^ (-53 : ℤ)) :=
    fun y hy => rnd_between hy
  generalize (2 : ℚ) ^ (-53 : ℤ) = d at ra rb na nb hd0 hd1 hq14 c3lo c3hi key
  generalize (outputRate : ℚ) / inputRate = r0 at ra rb hr0 ⊢
  generalize (2 : ℚ) ^ (-51 : ℤ) = d4 at c3lo c3hi ⊢
  have hr0pos : (0 : ℚ) < r0 := lt_of_lt_of_le (by positivity) hr0
  have h1d : (0 : ℚ) < 1 - d := by linarith
  have hn0 : (0 : ℚ) < n := by linarith
  have hrpos : (0 : ℚ) < rnd r0 := lt_of_lt_of_le (mul_pos hr0pos h1d) ra
  have hnpos : (0 : ℚ) < rnd (n : ℚ) := lt_of_lt_of_le (mul_pos hn0 h1d) na
  have ylo : (n : ℚ) * r0 * ((1 - d) * (1 - d)) ≤ rnd (n : ℚ) * rnd r0 := by
    have h := mul_le_mul na ra (mul_pos hr0pos h1d).le hnpos.le
    calc (n : ℚ) * r0 * ((1 - d) * (1 - d)) = (n : ℚ) * (1 - d) * (r0 * (1 - d)) := by ring
      _ ≤ _ := h
  have yhi : rnd (n : ℚ) * rnd r0 ≤ (n : ℚ) * r0 * ((1 + d) * (1 + d)) := by
    have h := mul_le_mul nb rb hrpos.le (mul_pos hn0 (by linarith : (0 : ℚ) < 1 + d)).le
    calc rnd (n : ℚ) * rnd r0 ≤ (n : ℚ) * (1 + d) * (r0 * (1 + d)) := h
      _ = _ := by ring
  have hnr : (2 : ℚ) ^ (-31 : ℤ) ≤ (n : ℚ) * r0 :=
    le_trans hr0 (le_mul_of_one_le_left hr0pos.le hnq)
  have ybig : (2 : ℚ) ^ (-1022 : ℤ) ≤ rnd (n : ℚ) * rnd r0 := by
    have h3 : (2 : ℚ) ^ (-31 : ℤ) * (1 / 4) ≤ (n : ℚ) * r0 * ((1 - d) * (1 - d)) :=
      mul_le_mul hnr hq14 (by norm_num) (by positivity)
    calc (2 : ℚ) ^ (-1022 : ℤ) ≤ 2 ^ (-33 : ℤ) := hsmall
      _ = 2 ^ (-31 : ℤ) * (1 / 4) := h2
      _ ≤ _ := h3
      _ ≤ _ := ylo
  obtain ⟨ca, cb⟩ := key _ ybig
  have hxpos : (0 : ℚ) < (n : ℚ) * r0 := by positivity
  constructor
  · calc (n : ℚ) * r0 * (1 - d4)
        ≤ (n : ℚ) * r0 * ((1 - d) * (1 - d) * (1 - d)) :=
          mul_le_mul_of_nonneg_left c3lo hxpos.le
      _ = (n : ℚ) * r0 * ((1 - d) * (1 - d)) * (1 - d) := by ring
      _ ≤ rnd (n : ℚ) * rnd r0 * (1 - d) := mul_le_mul_of_nonneg_right ylo (by linarith)
      _ ≤ _ := ca
  · calc rnd (rnd (n : ℚ) * rnd r0)
        ≤ rnd (n : ℚ) * rnd r0 * (1 + d) := cb
      _ ≤ (n : ℚ) * r0 * ((1 + d) * (1 + d)) * (1 + d) :=
          mul_le_mul_of_nonneg_right yhi (by linarith)
      _ = (n : ℚ) * r0 * ((1 + d) * (1 + d) * (1 + d)) := by ring
      _ ≤ (n : ℚ) * r0 * (1 + d4) := mul_le_mul_of_nonneg_left c3hi hxpos.le


theorem frames_within_one {inputRate outputRate : ℤ} (channels : ℤ) (input : List Int)
    (hin : 0 < inputRate) (hin2 : inputRate < 2 ^ 31)
    (hout : 0 < outputRate) (hout2 : outputRate < 2 ^ 31)
    (hx : (input.length : ℚ) * outputRate / inputRate ≤ 2 ^ 51) :
    ⌊(input.length : ℚ) * outputRate / inputRate⌋ - 1 ≤
        ((AudioResampler.resample (AudioResampler.new inputRate outputRate channels)
          input).length : ℤ) ∧
      ((AudioResampler.resample (AudioResampler.new inputRate outputRate channels)
          input).length : ℤ) ≤ ⌊(input.length : ℚ) * outputRate / inputRate⌋ + 1 := by
  have hi : (inputRate : ℚ) ≠ 0 := by exact_mod_cast ne_of_gt hin
  by_cases heq : inputRate = outputRate
  · subst heq
    rw [AudioResampler.resample_of_eq rfl, mul_div_assoc, div_self hi, mul_one]
    simp
  rcases Nat.eq_zero_or_pos input.length with h0 | hpos
  · have : input = [] := List.length_eq_zero.mp h0
    subst this
    rw [AudioResampler.resample_of_ne heq]
    simp [ofSize, fmul, AudioResampler.rnd_zero, toSize]
  obtain ⟨lo, hi2⟩ := frames_between channels hin hin2 hout hout2 hpos
  rw [AudioResampler.resample_of_ne heq, List.length_map, List.length_range]
  set x : ℚ := (input.length : ℚ) * outputRate / inputRate with hxdef
  have hx0 : 0 ≤ x := by
    rw [hxdef]
    have h1 : (0 : ℚ) < inputRate := by exact_mod_cast hin
    have h2 : (0 : ℚ) < outputRate := by exact_mod_cast hout
    positivity
  have h51 : x * 2 ^ (-51 : ℤ) ≤ 1 := by
    have : x * 2 ^ (-51 : ℤ) ≤ 2 ^ 51 * 2 ^ (-51 : ℤ) :=
      mul_le_mul_of_nonneg_right hx (by positivity)
    have h2 : (2 : ℚ) ^ 51 * 2 ^ (-51 : ℤ) = 1 := by norm_num
    linarith
  have hd4 : (2 : ℚ) ^ (-51 : ℤ) ≤ 1 := by norm_num
  generalize (2 : ℚ) ^ (-51 : ℤ) = d4 at lo hi2 h51 hd4
  generalize fmul (ofSize input.length)
    (AudioResampler.new inputRate outputRate channels).ratio_ = c at lo hi2 ⊢
  have hc0 : 0 ≤ c := by
    have : 0 ≤ x * (1 - d4) := mul_nonneg hx0 (by linarith)
    linarith
  have hlo : x - 1 ≤ c := by linarith
  have hhi : c ≤ x + 1 := by linarith
  unfold toSize
  rw [Int.natCast_floor_eq_floor hc0]
  constructor
  · rw [← Int.floor_sub_one]
    exact Int.floor_le_floor hlo
  · rw [← Int.floor_add_one]
    exact Int.floor_le_floor hhi

/-! ## Resampler: the properties -/

section ResamplerProperties

open AudioResampler

/-- C8 (resampler identity). A resampler constructed with equal input and
output rates returns its input unchanged: the same `N` samples, element for
element, for every `N ≥ 0`. -/
theorem resample_identity (rate channels : Int) (input : List Int) :
    resample (new rate rate channels) input = input :=
  resample_of_eq rfl input

/-- C9, as stated, fails: 49 frames resampled from rate 49 to rate 1 give no
output frame, whereas `floor(49 · 1 / 49) = 1`. The stored ratio is the double
nearest to `1 / 49`, and `49` times it rounds to the double just below `1`. -/
theorem resample_length_counterexample :
    ((resample (new 49 1 1) (List.replicate 49 0)).length : ℤ) ≠
      ⌊((List.replicate 49 (0 : Int)).length : ℚ) * ((1 : ℤ) : ℚ) / ((49 : ℤ) : ℚ)⌋ := by
  decide!

/-- C9, amended. For positive `int` rates: zero input frames give an empty
output; for differing rates the output has `trunc(N ⊗ ratio_)` frames, the
product being taken in double precision with `ratio_` the double nearest to
`outputRate / inputRate`; this count is exactly
`floor(N · outputRate / inputRate)` whenever `outputRate / inputRate = m / 2 ^ s`
with `N · m < 2 ^ 53` (every integer up-sampling ratio, every power-of-two
down-sampling ratio, equal rates); and for all rates it differs from
`floor(N · outputRate / inputRate)` by at most one as long as
`N · outputRate / inputRate ≤ 2 ^ 51`. -/
theorem resample_length (inputRate outputRate channels : Int)
    (hin : 0 < inputRate) (hin2 : inputRate < 2 ^ 31)
    (hout : 0 < outputRate) (hout2 : outputRate < 2 ^ 31) (input : List Int) :
    resample (new inputRate outputRate channels) [] = [] ∧
    (inputRate ≠ outputRate →
      (resample (new inputRate outputRate channels) input).length =
        toSize (fmul (ofSize input.length) (fdiv (ofInt outputRate) (ofInt inputRate)))) ∧
    (∀ m s : ℕ, outputRate * 2 ^ s = m * inputRate → input.length * m < 2 ^ 53 →
      ((resample (new inputRate outputRate channels) input).length : ℤ) =
        ⌊(input.length : ℚ) * (outputRate : ℚ) / (inputRate : ℚ)⌋) ∧
    ((input.length : ℚ) * (outputRate : ℚ) / (inputRate : ℚ) ≤ 2 ^ 51 →
      ⌊(input.length : ℚ) * (outputRate : ℚ) / (inputRate : ℚ)⌋ - 1 ≤
          ((resample (new inputRate outputRate channels) input).length : ℤ) ∧
        ((resample (new inputRate outputRate channels) input).length : ℤ) ≤
          ⌊(input.length : ℚ) * (outputRate : ℚ) / (inputRate : ℚ)⌋ + 1) := by
  have hi : (inputRate : ℚ) ≠ 0 := by exact_mod_cast ne_of_gt hin
  refine ⟨?_, ?_, ?_, frames_within_one channels input hin hin2 hout hout2⟩
  · unfold resample
    split
    · rfl
    · simp [ofSize, fmul, rnd_zero, toSize]
  · intro hne
    rw [resample_of_ne hne]
    simp
    rfl
  · intro m s hms hN
    by_cases heq : inputRate = outputRate
    · subst heq
      rw [resample_of_eq rfl, mul_div_assoc, div_self hi, mul_one]
      simp
    rcases Nat.eq_zero_or_pos input.length with h0 | hpos
    · have : input = [] := List.length_eq_zero.mp h0
      subst this
      rw [resample_of_ne heq]
      simp [ofSize, fmul, rnd_zero, toSize]
    have hm53 : m < 2 ^ 53 := by
      refine lt_of_le_of_lt ?_ hN
      exact Nat.le_mul_of_pos_left m hpos
    obtain ⟨hs, hm0⟩ := dyadic_exponent_bound hin hin2 hout hms hm53
    have hr := ratio_of_dyadic channels hin hin2 hout hout2 hms hm53
    rw [resample_of_ne heq, List.length_map, List.length_range,
      outputFrames_of_dyadic _ hr hs hN hm0]
    have hz : (outputRate : ℚ) * 2 ^ s = m * inputRate := by exact_mod_cast hms
    have hq : (input.length : ℚ) * (outputRate : ℚ) / (inputRate : ℚ) =
        ((input.length * m : ℕ) : ℚ) / ((2 ^ s : ℕ) : ℚ) := by
      push_cast
      field_simp
      linear_combination (input.length : ℚ) * hz
    rw [hq, ← @Nat.floor_div_eq_div ℚ, Int.natCast_floor_eq_floor (by positivity)]

/-- Instance of the amended C9: two frames from 16 kHz to 48 kHz. -/
theorem resample_length_witness :
    ((resample (new 16000 48000 1) [1, 2]).length : ℤ) =
      ⌊(([1, 2] : List Int).length : ℚ) * ((48000 : ℤ) : ℚ) / ((16000 : ℤ) : ℚ)⌋ :=
  (resample_length 16000 48000 1 (by decide) (by decide) (by decide) (by decide) [1, 2]).2.2.1
    3 0 (by decide) (by decide)

/-- C10, as stated, fails in its down-sampling half: with `inputRate = 49`
and `outputRate = 1` the second output sample is `0`, whereas `input[49] = 1`.
The double position `1 / ratio_` lies just above `49`, so the sample is
interpolated towards `input[50]` and truncated. -/
theorem resample_aligned_counterexample :
    (resample (new 49 1 1) impulseAt49)[1]? ≠ impulseAt49[49 * 1]? := by
  decide!

/-- C10, amended. For positive `int` rates and 16-bit samples: when
`outputRate = k · inputRate` with `k ≥ 2` (and `N · k < 2 ^ 53`),
`output[k · j] = input[j]` for every `j < N`; when
`inputRate = 2 ^ s · outputRate` with `s ≥ 1` (a power-of-two down-sampling
factor, `N < 2 ^ 53`), `output[i] = input[2 ^ s · i]` for every output index
`i`; and for any differing rates `output[i] = input[p]` whenever the
double-precision position `i / ratio_` is exactly the integer `p < N`. -/
theorem resample_aligned (inputRate outputRate channels : Int)
    (hin : 0 < inputRate) (hin2 : inputRate < 2 ^ 31)
    (hout : 0 < outputRate) (hout2 : outputRate < 2 ^ 31) (input : List Int)
    (hrange : ∀ x ∈ input, -32768 ≤ x ∧ x ≤ 32767) :
    (∀ k : ℕ, outputRate = k * inputRate → 2 ≤ k → input.length * k < 2 ^ 53 →
      ∀ j : ℕ, j < input.length →
        (resample (new inputRate outputRate channels) input)[k * j]? = input[j]?) ∧
    (∀ s : ℕ, inputRate = 2 ^ s * outputRate → 1 ≤ s → input.length < 2 ^ 53 →
      ∀ i : ℕ, i < (resample (new inputRate outputRate channels) input).length →
        (resample (new inputRate outputRate channels) input)[i]? = input[2 ^ s * i]?) ∧
    (inputRate ≠ outputRate →
      ∀ i p : ℕ, i < (resample (new inputRate outputRate channels) input).length →
        fdiv (ofSize i) (new inputRate outputRate channels).ratio_ = (p : ℚ) →
        p < input.length → p < 2 ^ 53 →
        (resample (new inputRate outputRate channels) input)[i]? = input[p]?) := by
  refine ⟨?_, ?_, ?_⟩
  · intro k hk hk2 hN j hj
    have hne : inputRate ≠ outputRate := by
      intro h
      rw [← h] at hk
      have h1 : (1 : ℤ) * inputRate = k * inputRate := by simpa using hk
      have h2 : (1 : ℤ) = k := mul_right_cancel₀ (ne_of_gt hin) h1
      omega
    have hms : outputRate * 2 ^ 0 = (k : ℤ) * inputRate := by simpa using hk
    have hk53 : k < 2 ^ 53 :=
      lt_of_le_of_lt (Nat.le_mul_of_pos_left k (by omega)) hN
    have hr := ratio_of_dyadic channels hin hin2 hout hout2 hms hk53
    have hr2 : (new inputRate outputRate channels).ratio_ = (k : ℚ) := by simpa using hr
    have hframes := outputFrames_of_dyadic input.length hr (by norm_num) hN (by omega)
    have hkj : k * j < input.length * k := by
      rw [Nat.mul_comm k j]
      exact Nat.mul_lt_mul_of_pos_right hj (by omega)
    have hkj53 : k * j < 2 ^ 53 := lt_trans hkj hN
    have hj53 : j < 2 ^ 53 :=
      lt_of_le_of_lt (Nat.le_mul_of_pos_left j (by omega)) hkj53
    have hidx : fdiv (ofSize (k * j)) (new inputRate outputRate channels).ratio_ = (j : ℚ) := by
      have hkq : (k : ℚ) ≠ 0 := by exact_mod_cast (by omega : k ≠ 0)
      unfold fdiv
      rw [ofSize_exact hkj53, hr2]
      push_cast
      rw [mul_div_cancel_left₀ _ hkq]
      exact rnd_natCast j hj53
    rw [resample_of_ne hne, hframes, Nat.pow_zero, Nat.div_one, getElem?_map_range hkj,
      outputSample_of_exact _ _ _ j hidx hj53 hrange, List.getElem?_eq_getElem hj,
      List.getD_eq_getElem _ _ hj]
  · intro s hs hs1 hN i hi
    have h2s : (2 : ℤ) ≤ 2 ^ s := by
      calc (2 : ℤ) = 2 ^ 1 := by norm_num
        _ ≤ 2 ^ s := pow_le_pow_right₀ (by norm_num) hs1
    have hne : inputRate ≠ outputRate := by
      intro h
      rw [h] at hs
      nlinarith
    have hms : outputRate * 2 ^ s = ((1 : ℕ) : ℤ) * inputRate := by
      rw [hs]
      push_cast
      ring
    have hr := ratio_of_dyadic channels hin hin2 hout hout2 hms (by norm_num)
    obtain ⟨hs74, _⟩ := dyadic_exponent_bound hin hin2 hout hms (by norm_num)
    have hframes := outputFrames_of_dyadic input.length hr hs74 (by omega) (by omega)
    rw [Nat.mul_one] at hframes
    rw [resample_of_ne hne, List.length_map, List.length_range, hframes] at hi
    have hpos : 0 < 2 ^ s := by positivity
    have hlt : 2 ^ s * i < input.length := by
      have h1 : (i + 1) * 2 ^ s ≤ input.length := (Nat.le_div_iff_mul_le hpos).mp hi
      have h2 : 2 ^ s * i < (i + 1) * 2 ^ s := by
        rw [Nat.mul_comm]
        exact Nat.mul_lt_mul_of_pos_right (Nat.lt_succ_self i) hpos
      omega
    have hi53 : i < 2 ^ 53 := by
      have : i ≤ 2 ^ s * i := Nat.le_mul_of_pos_left i hpos
      omega
    have hidx : fdiv (ofSize i) (new inputRate outputRate channels).ratio_ =
        ((2 ^ s * i : ℕ) : ℚ) := by
      unfold fdiv
      rw [ofSize_exact hi53, hr]
      have e : (i : ℚ) / (((1 : ℕ) : ℚ) * 2 ^ (-(s : ℤ))) = ((2 ^ s * i : ℕ) : ℚ) := by
        rw [zpow_neg, zpow_natCast]
        push_cast
        field_simp
        ring
      rw [e]
      exact rnd_natCast _ (by omega)
    have hi2 : i < input.length / 2 ^ s := hi
    rw [resample_of_ne hne, hframes, getElem?_map_range hi2,
      outputSample_of_exact _ _ _ (2 ^ s * i) hidx (by omega) hrange,
      List.getElem?_eq_getElem hlt, List.getD_eq_getElem _ _ hlt]
  · intro hne i p hi hidx hp hp53
    rw [resample_of_ne hne, List.length_map, List.length_range] at hi
    rw [resample_of_ne hne, getElem?_map_range hi,
      outputSample_of_exact _ _ _ p hidx hp53 hrange,
      List.getElem?_eq_getElem hp, List.getD_eq_getElem _ _ hp]

/-- Instance of the amended C10: up-sampling by 3 and down-sampling by 2. -/
theorem resample_aligned_witness :
    (resample (new 16000 48000 1) [10, -20])[3 * 1]? = [10, -20][1]? ∧
    (resample (new 32000 16000 1) [10, -20, 30, 40])[1]? = [10, -20, 30, 40][2 ^ 1 * 1]? :=
  ⟨(resample_aligned 16000 48000 1 (by decide) (by decide) (by decide) (by decide)
      [10, -20] (by decide)).1 3 (by decide) (by decide) (by decide) 1 (by decide),
    (resample_aligned 32000 16000 1 (by decide) (by decide) (by decide) (by decide)
      [10, -20, 30, 40] (by decide)).2.1 1 (by decide) (by decide) (by decide) 1 (by decide!)⟩

end ResamplerProperties

/-! ## Pipeline handlers and loops -/

namespace AudioPipeline

theorem stores_append (l1 l2 : List Effect) : stores (l1 ++ l2) = stores l1 ++ stores l2 := by
  induction l1 with
  | nil => rfl
  | cons e es ih => cases e <;> simp [stores, ih]

theorem rawReads_append (who : Consumer) (l1 l2 : List Effect) :
    rawReads who (l1 ++ l2) = rawReads who l1 + rawReads who l2 := by
  induction l1 with
  | nil => simp [rawReads]
  | cons e es ih => cases e <;> simp [rawReads, ih, Nat.add_assoc]

theorem wakeCallbacks_append (l1 l2 : List Effect) :
    wakeCallbacks (l1 ++ l2) = wakeCallbacks l1 + wakeCallbacks l2 := by
  induction l1 with
  | nil => simp [wakeCallbacks]
  | cons e es ih => cases e <;> simp [wakeCallbacks, ih, Nat.add_assoc]

theorem followsCycle_append (s : PipelineState) (l1 l2 : List PipelineState) :
    followsCycle s (l1 ++ l2) = (followsCycle s l1 && followsCycle (lastState s l1) l2) := by
  induction l1 generalizing s with
  | nil => simp [followsCycle, lastState]
  | cons t ts ih => simp [followsCycle, lastState, ih, Bool.and_assoc]

theorem lastState_append (s : PipelineState) (l1 l2 : List PipelineState) :
    lastState s (l1 ++ l2) = lastState (lastState s l1) l2 := by
  induction l1 generalizing s with
  | nil => rfl
  | cons t ts ih => simp [lastState, ih]

/-- The effects of `handleWakeWord`, in order. -/
theorem handleWakeWord_log (p : AudioPipeline) (now : Int) :
    (p.handleWakeWord now).log =
      p.log ++ (if p.wakeWordCallback_ then [Effect.wakeWordCallback] else []) ++
        [Effect.stateStore PipelineState.LISTENING, Effect.sttClear, Effect.vadReset] := by
  cases h : p.wakeWordCallback_ <;>
    simp [handleWakeWord, runSteps, handleWakeWordSteps, setState, h]

/-- The effects of `handleSpeechEnd`, in order. -/
theorem handleSpeechEnd_log (p : AudioPipeline) (now : Int) :
    (p.handleSpeechEnd now).log =
      p.log ++ (if p.speechCallback_ then [Effect.speechCallback "Simulated transcript"] else [])
        ++ [Effect.stateStore PipelineState.THINKING, Effect.stateStore PipelineState.SPEAKING]
        ++ (if p.ttsCallback_ then
              [Effect.ttsCallback ("I heard: " ++ "Simulated transcript")] else [])
        ++ [Effect.stateStore PipelineState.IDLE] := by
  cases h1 : p.speechCallback_ <;> cases h2 : p.ttsCallback_ <;>
    simp [handleSpeechEnd, runSteps, handleSpeechEndSteps, setState, h1, h2]

theorem handleWakeWord_state (p : AudioPipeline) (now : Int) :
    (p.handleWakeWord now).state_ = PipelineState.LISTENING := by
  cases h : p.wakeWordCallback_ <;>
    simp [handleWakeWord, runSteps, handleWakeWordSteps, setState, h]

theorem handleSpeechEnd_state (p : AudioPipeline) (now : Int) :
    (p.handleSpeechEnd now).state_ = PipelineState.IDLE := by
  cases h1 : p.speechCallback_ <;> cases h2 : p.ttsCallback_ <;>
    simp [handleSpeechEnd, runSteps, handleSpeechEndSteps, setState, h1, h2]

theorem handleWakeWord_stores (p : AudioPipeline) (now : Int) :
    stores (p.handleWakeWord now).log = stores p.log ++ [PipelineState.LISTENING] := by
  rw [handleWakeWord_log]
  cases p.wakeWordCallback_ <;> simp [stores_append, stores]

theorem handleSpeechEnd_stores (p : AudioPipeline) (now : Int) :
    stores (p.handleSpeechEnd now).log =
      stores p.log ++ [PipelineState.THINKING, PipelineState.SPEAKING, PipelineState.IDLE] := by
  rw [handleSpeechEnd_log]
  cases p.speechCallback_ <;> cases p.ttsCallback_ <;> simp [stores_append, stores]

/-- What an iteration of the wake-word loop does: nothing, or one read of 512
samples from the raw buffer in state `IDLE`, followed by `handleWakeWord` on a
detection. -/
theorem wakeWordIterationWith_cases (detected : Bool) (p : AudioPipeline) (now : Int) :
    wakeWordIterationWith detected p now = p ∨
    (p.state_ = PipelineState.IDLE ∧ 512 ≤ p.rawAudioBuffer_.available ∧
      wakeWordIterationWith detected p now =
        if detected then p.wakeRead.handleWakeWord now else p.wakeRead) := by
  unfold wakeWordIterationWith getState
  by_cases hs : p.state_ = PipelineState.IDLE
  · by_cases ha : p.rawAudioBuffer_.available ≥ 512
    · right
      refine ⟨hs, ha, ?_⟩
      simp only [hs, ha, if_true]
    · left
      simp only [hs, ha, if_true, if_false]
  · left
    simp only [hs, if_false]

/-- What an iteration of the recognition loop does: nothing, or one read of
4096 samples from the raw buffer in state `LISTENING`, followed by
`handleSpeechEnd` when the detector reports no voice. -/
theorem speechRecognitionIteration_cases (p : AudioPipeline) (now : Int) :
    p.speechRecognitionIteration now = p ∨
    (p.state_ = PipelineState.LISTENING ∧ 4096 ≤ p.rawAudioBuffer_.available ∧
      ∃ v : VoiceActivityDetector,
        p.speechRecognitionIteration now = { p.recognitionRead with vad_ := v } ∨
        p.speechRecognitionIteration now =
          AudioPipeline.handleSpeechEnd { p.recognitionRead with vad_ := v } now) := by
  unfold speechRecognitionIteration getState
  by_cases hs : p.state_ = PipelineState.LISTENING
  · by_cases ha : p.rawAudioBuffer_.available ≥ 4096
    · right
      refine ⟨hs, ha, (p.recognitionRead.vad_.processFrame
        (p.recognitionRead.sttResampler_.resample p.recognitionRead.sttFrame)).2, ?_⟩
      simp only [hs, ha, if_true]
      cases (p.recognitionRead.vad_.processFrame
        (p.recognitionRead.sttResampler_.resample p.recognitionRead.sttFrame)).1
      · right; rfl
      · left; rfl
    · left
      simp only [hs, ha, if_true, if_false]
  · left
    simp only [hs, if_false]

theorem wakeRead_stores (p : AudioPipeline) : stores p.wakeRead.log = stores p.log := by
  simp [wakeRead, stores_append, stores]

theorem recognitionRead_stores (p : AudioPipeline) (v : VoiceActivityDetector) :
    stores ({ p.recognitionRead with vad_ := v } : AudioPipeline).log = stores p.log := by
  simp [recognitionRead, stores_append, stores]

theorem step_gated (p : AudioPipeline) (st : LoopStep) (h : Gated p) : Gated (p.step st) := by
  cases st with
  | capture => exact ⟨h.cycle, h.last, h.rest, h.noError⟩
  | wakeWord detected now =>
    show Gated (wakeWordIterationWith detected p now)
    rcases wakeWordIterationWith_cases detected p now with e | ⟨hs, _, e⟩
    · rw [e]; exact h
    · have hst := wakeRead_stores p
      have h1 : p.wakeRead.state_ = p.state_ := rfl
      have g1 : Gated p.wakeRead := ⟨by rw [hst]; exact h.cycle, by rw [hst, h1]; exact h.last,
        by rw [h1]; exact h.rest, by rw [hst]; exact h.noError⟩
      rw [e]
      cases detected
      · exact g1
      · simp only [if_true]
        refine ⟨?_, ?_, Or.inr (handleWakeWord_state _ now), ?_⟩
        · rw [handleWakeWord_stores, followsCycle_append, g1.cycle, g1.last, h1, hs]
          rfl
        · rw [handleWakeWord_stores, lastState_append, handleWakeWord_state]
          rfl
        · rw [handleWakeWord_stores]
          simp [g1.noError]
  | recognition now =>
    show Gated (p.speechRecognitionIteration now)
    rcases speechRecognitionIteration_cases p now with e | ⟨hs, _, v, e⟩
    · rw [e]; exact h
    · have hst := recognitionRead_stores p v
      have h1 : ({ p.recognitionRead with vad_ := v } : AudioPipeline).state_ = p.state_ := rfl
      have g1 : Gated { p.recognitionRead with vad_ := v } :=
        ⟨by rw [hst]; exact h.cycle, by rw [hst, h1]; exact h.last,
          by rw [h1]; exact h.rest, by rw [hst]; exact h.noError⟩
      rcases e with e | e
      · rw [e]; exact g1
      · rw [e]
        refine ⟨?_, ?_, Or.inl (handleSpeechEnd_state _ now), ?_⟩
        · rw [handleSpeechEnd_stores, followsCycle_append, g1.cycle, g1.last, h1, hs]
          rfl
        · rw [handleSpeechEnd_stores, lastState_append, handleSpeechEnd_state]
          rfl
        · rw [handleSpeechEnd_stores]
          simp [g1.noError]

theorem stepMany_gated (steps : List LoopStep) :
    ∀ p : AudioPipeline, Gated p → Gated (p.stepMany steps) := by
  induction steps with
  | nil => intro p h; exact h
  | cons st sts ih =>
    intro p h
    exact ih (p.step st) (step_gated p st h)

theorem traceSteps_getLast (steps : List (AudioPipeline → AudioPipeline)) :
    ∀ p : AudioPipeline, (traceSteps steps p).getLast? = some (runSteps steps p) := by
  induction steps with
  | nil => intro p; rfl
  | cons f fs ih =>
    intro p
    have h := ih (f p)
    cases hfs : traceSteps fs (f p) with
    | nil => rw [hfs] at h; simp at h
    | cons q qs =>
      rw [hfs] at h
      show (p :: traceSteps fs (f p)).getLast? = _
      rw [hfs, List.getLast?_cons_cons, h]
      rfl

theorem rawReads_wakeRead (who : Consumer) (p : AudioPipeline) :
    rawReads who p.wakeRead.log =
      rawReads who p.log + if Consumer.wakeWord = who then 1 else 0 := by
  simp [wakeRead, rawReads_append, rawReads]

theorem rawReads_recognitionRead (who : Consumer) (p : AudioPipeline)
    (v : VoiceActivityDetector) :
    rawReads who ({ p.recognitionRead with vad_ := v } : AudioPipeline).log =
      rawReads who p.log + if Consumer.recognition = who then 1 else 0 := by
  simp [recognitionRead, rawReads_append, rawReads]

theorem rawReads_handleWakeWord (who : Consumer) (p : AudioPipeline) (now : Int) :
    rawReads who (p.handleWakeWord now).log = rawReads who p.log := by
  rw [handleWakeWord_log]
  cases p.wakeWordCallback_ <;> simp [rawReads_append, rawReads]

theorem rawReads_handleSpeechEnd (who : Consumer) (p : AudioPipeline) (now : Int) :
    rawReads who (p.handleSpeechEnd now).log = rawReads who p.log := by
  rw [handleSpeechEnd_log]
  cases p.speechCallback_ <;> cases p.ttsCallback_ <;> simp [rawReads_append, rawReads]

/-- Reads of the raw buffer made by one iteration of the wake-word loop. -/
theorem rawReads_wakeWordIteration (who : Consumer) (detected : Bool) (p : AudioPipeline)
    (now : Int) :
    rawReads who (wakeWordIterationWith detected p now).log =
      rawReads who p.log +
        if p.getState = PipelineState.IDLE ∧ 512 ≤ p.rawAudioBuffer_.available ∧
          Consumer.wakeWord = who then 1 else 0 := by
  unfold wakeWordIterationWith
  by_cases hs : p.getState = PipelineState.IDLE
  · by_cases ha : p.rawAudioBuffer_.available ≥ 512
    · simp only [hs, ha, if_true, true_and]
      cases detected
      · exact rawReads_wakeRead who p
      · simp only [if_true]
        rw [rawReads_handleWakeWord, rawReads_wakeRead]
    · have ha2 : ¬ 512 ≤ p.rawAudioBuffer_.available := ha
      simp [hs, ha, ha2]
  · simp [hs]

/-- Reads of the raw buffer made by one iteration of the recognition loop. -/
theorem rawReads_speechRecognitionIteration (who : Consumer) (p : AudioPipeline)
    (now : Int) :
    rawReads who (p.speechRecognitionIteration now).log =
      rawReads who p.log +
        if p.getState = PipelineState.LISTENING ∧ 4096 ≤ p.rawAudioBuffer_.available ∧
          Consumer.recognition = who then 1 else 0 := by
  unfold speechRecognitionIteration
  by_cases hs : p.getState = PipelineState.LISTENING
  · by_cases ha : p.rawAudioBuffer_.available ≥ 4096
    · simp only [hs, ha, if_true, true_and]
      cases (p.recognitionRead.vad_.processFrame
        (p.recognitionRead.sttResampler_.resample p.recognitionRead.sttFrame)).1
      · simp only [Bool.not_false, if_true]
        rw [rawReads_handleSpeechEnd, rawReads_recognitionRead]
      · simp only [Bool.not_true, Bool.false_eq_true, if_false]
        exact rawReads_recognitionRead who p _
    · have ha2 : ¬ 4096 ≤ p.rawAudioBuffer_.available := ha
      simp [hs, ha, ha2]
  · simp [hs]

end AudioPipeline

/-! ## Pipeline: the properties -/

section PipelineProperties

open AudioPipeline

/-- C16. Started in `IDLE` with an empty log, whatever loop iterations are
run (capture, wake-word with any detector answer, recognition), the states
stored by the handlers form a path along the cycle
IDLE → LISTENING → THINKING → SPEAKING → IDLE that ends in the current state,
and `ERROR` is never stored. `handleWakeWord` stores exactly `LISTENING`;
`handleSpeechEnd` stores `THINKING`, `SPEAKING`, `IDLE` in that order;
`handleTTSComplete` stores `IDLE`; the loops run the first only in `IDLE` and
the second only in `LISTENING`. -/
theorem handlers_follow_cycle (p0 : AudioPipeline) (steps : List LoopStep)
    (hidle : p0.state_ = PipelineState.IDLE) (hlog : p0.log = [])
    (p : AudioPipeline) (now : Int) (detected : Bool) :
    followsCycle PipelineState.IDLE (stores (p0.stepMany steps).log) = true ∧
    lastState PipelineState.IDLE (stores (p0.stepMany steps).log) = (p0.stepMany steps).state_ ∧
    PipelineState.ERROR ∉ stores (p0.stepMany steps).log ∧
    stores (p.handleWakeWord now).log = stores p.log ++ [PipelineState.LISTENING] ∧
    stores (p.handleSpeechEnd now).log =
      stores p.log ++ [PipelineState.THINKING, PipelineState.SPEAKING, PipelineState.IDLE] ∧
    stores p.handleTTSComplete.log = stores p.log ++ [PipelineState.IDLE] ∧
    (stores (wakeWordIterationWith detected p now).log ≠ stores p.log →
      p.state_ = PipelineState.IDLE) ∧
    (stores (p.speechRecognitionIteration now).log ≠ stores p.log →
      p.state_ = PipelineState.LISTENING) := by
  have g0 : Gated p0 := ⟨by rw [hlog]; rfl, by rw [hlog, hidle]; rfl, Or.inl hidle,
    by rw [hlog]; simp [stores]⟩
  have g := stepMany_gated steps p0 g0
  refine ⟨g.cycle, g.last, g.noError, handleWakeWord_stores p now, handleSpeechEnd_stores p now,
    ?_, ?_, ?_⟩
  · simp [handleTTSComplete, setState, stores_append, stores]
  · intro hne
    rcases wakeWordIterationWith_cases detected p now with e | ⟨hs, _, _⟩
    · rw [e] at hne; exact absurd rfl hne
    · exact hs
  · intro hne
    rcases speechRecognitionIteration_cases p now with e | ⟨hs, _, _⟩
    · rw [e] at hne; exact absurd rfl hne
    · exact hs

/-- Instance of C16: a detection on the demo pipeline stores `LISTENING`. -/
theorem handlers_follow_cycle_witness :
    followsCycle PipelineState.IDLE
      (stores (demo.stepMany [LoopStep.capture, LoopStep.wakeWord true 5]).log) = true ∧
    stores (demo.handleWakeWord 5).log = stores demo.log ++ [PipelineState.LISTENING] :=
  have h := handlers_follow_cycle demo [LoopStep.capture, LoopStep.wakeWord true 5]
    (by rfl) (by rfl) demo 5 true
  ⟨h.1, h.2.2.2.1⟩

/-- C17 fails on the code: `handleWakeWord` stores `LISTENING` first and
clears the STT buffer afterwards. Its effects are, in order, the optional
callback, the store of `LISTENING`, the clear, the detector reset; and among
the states between its statements there is one whose state is `LISTENING`
while the STT buffer is still what it was before the call (for the demo
pipeline: two samples available). -/
theorem handleWakeWord_listening_before_clear (p : AudioPipeline) (now : Int) :
    (p.handleWakeWord now).log =
      p.log ++ (if p.wakeWordCallback_ then [Effect.wakeWordCallback] else []) ++
        [Effect.stateStore PipelineState.LISTENING, Effect.sttClear, Effect.vadReset] ∧
    (traceSteps (handleWakeWordSteps now) p).getLast? = some (p.handleWakeWord now) ∧
    (∃ q ∈ traceSteps (handleWakeWordSteps now) p,
      q.state_ = PipelineState.LISTENING ∧ q.sttBuffer_ = p.sttBuffer_ ∧
        Effect.sttClear ∉ q.log.drop p.log.length) ∧
    (∃ q ∈ traceSteps (handleWakeWordSteps 0) demo,
      q.state_ = PipelineState.LISTENING ∧ q.sttBuffer_.available = 2) := by
  refine ⟨handleWakeWord_log p now, traceSteps_getLast _ p, ?_, ?_⟩
  · refine ⟨runSteps ((handleWakeWordSteps now).take 4) p, ?_, ?_, ?_, ?_⟩
    · simp [traceSteps, handleWakeWordSteps, runSteps]
    · cases h : p.wakeWordCallback_ <;> simp [handleWakeWordSteps, runSteps, setState, h]
    · cases h : p.wakeWordCallback_ <;> simp [handleWakeWordSteps, runSteps, setState, h]
    · cases h : p.wakeWordCallback_ <;> simp [handleWakeWordSteps, runSteps, setState, h]
  · refine ⟨runSteps ((handleWakeWordSteps 0).take 4) demo, ?_, ?_, ?_⟩
    · simp [traceSteps, handleWakeWordSteps, runSteps]
    · rfl
    · decide

theorem demo_stt_reachable : AudioRingBuffer.Reachable 30 demo.sttBuffer_ := by
  show AudioRingBuffer.Reachable 30 ((AudioRingBuffer.new 30).write [1, 2]).2
  exact AudioRingBuffer.Reachable.write [1, 2] AudioRingBuffer.Reachable.init

/-- C18. Postcondition of `handleWakeWord`, for every prior pipeline state
(the STT buffer being one built by `AudioRingBuffer(C)`): the state is
`LISTENING`, the STT buffer is empty, `wakeToStartMs` is `0` and no other
metrics field has changed, and the wake-word callback has been invoked exactly
once if one is set (and not at all otherwise). -/
theorem handleWakeWord_postcondition (p : AudioPipeline) (now : Int) (C : Nat)
    (hC : C < 2 ^ 63) (hstt : AudioRingBuffer.Reachable C p.sttBuffer_) :
    (p.handleWakeWord now).getState = PipelineState.LISTENING ∧
    (p.handleWakeWord now).sttBuffer_.available = 0 ∧
    (p.handleWakeWord now).getMetrics.wakeToStartMs = 0 ∧
    (p.handleWakeWord now).getMetrics = { p.metrics_ with wakeToStartMs := 0 } ∧
    wakeCallbacks (p.handleWakeWord now).log =
      wakeCallbacks p.log + (if p.wakeWordCallback_ then 1 else 0) := by
  have hinv := AudioRingBuffer.reachable_inv hC hstt
  have hclr := AudioRingBuffer.clear_inv hinv
  have hav : p.sttBuffer_.clear.available = 0 := by
    rw [AudioRingBuffer.available_eq hC hclr]
    simp [AudioRingBuffer.clear]
  refine ⟨handleWakeWord_state p now, ?_, ?_, ?_, ?_⟩
  · cases h : p.wakeWordCallback_ <;>
      simpa [handleWakeWord, runSteps, handleWakeWordSteps, setState, h] using hav
  · cases h : p.wakeWordCallback_ <;>
      simp [handleWakeWord, runSteps, handleWakeWordSteps, setState, getMetrics, h]
  · cases h : p.wakeWordCallback_ <;>
      simp [handleWakeWord, runSteps, handleWakeWordSteps, setState, getMetrics, h]
  · rw [handleWakeWord_log]
    cases p.wakeWordCallback_ <;> simp [wakeCallbacks_append, wakeCallbacks]

/-- Instance of C18 on the demo pipeline, whose STT buffer holds two samples
and whose callback is set. -/
theorem handleWakeWord_postcondition_witness :
    (demo.handleWakeWord 0).sttBuffer_.available = 0 ∧
    wakeCallbacks (demo.handleWakeWord 0).log =
      wakeCallbacks demo.log + (if demo.wakeWordCallback_ then 1 else 0) :=
  have h := handleWakeWord_postcondition demo 0 30 (by decide) demo_stt_reachable
  ⟨h.2.1, h.2.2.2.2⟩

/-- C19. After `handleWakeWord` returns, the detector's voice-active latch is
`false` and its silent-frame counter is `0`, whatever they were before; its
configuration is untouched. -/
theorem handleWakeWord_resets_vad (p : AudioPipeline) (now : Int) :
    (p.handleWakeWord now).vad_.voiceDetected_ = false ∧
    (p.handleWakeWord now).vad_.silentFrames_ = 0 ∧
    (p.handleWakeWord now).vad_.threshold_ = p.vad_.threshold_ ∧
    (p.handleWakeWord now).vad_.silenceTimeoutMs_ = p.vad_.silenceTimeoutMs_ ∧
    (p.handleWakeWord now).vad_.sampleRate_ = p.vad_.sampleRate_ := by
  cases h : p.wakeWordCallback_ <;>
    simp [handleWakeWord, runSteps, handleWakeWordSteps, setState,
      VoiceActivityDetector.reset, h]

/-- C20. Consumer gating is disjoint. An iteration of the wake-word loop
leaves the pipeline untouched unless `getState()` is `IDLE`, and an iteration
of the recognition loop unless it is `LISTENING`; each makes one read of the
raw buffer exactly when its gate holds and enough samples are available, and
none on behalf of the other; so for no pipeline state do both read, and in
`THINKING`, `SPEAKING` and `ERROR` neither reads. -/
theorem consumer_gating_disjoint (p : AudioPipeline) (detected : Bool) (now1 now2 : Int) :
    (p.getState ≠ PipelineState.IDLE → wakeWordIterationWith detected p now1 = p) ∧
    (p.getState ≠ PipelineState.LISTENING → p.speechRecognitionIteration now2 = p) ∧
    rawReads Consumer.wakeWord (wakeWordIterationWith detected p now1).log =
      rawReads Consumer.wakeWord p.log +
        (if p.getState = PipelineState.IDLE ∧ 512 ≤ p.rawAudioBuffer_.available
          then 1 else 0) ∧
    rawReads Consumer.recognition (p.speechRecognitionIteration now2).log =
      rawReads Consumer.recognition p.log +
        (if p.getState = PipelineState.LISTENING ∧ 4096 ≤ p.rawAudioBuffer_.available
          then 1 else 0) ∧
    rawReads Consumer.recognition (wakeWordIterationWith detected p now1).log =
      rawReads Consumer.recognition p.log ∧
    rawReads Consumer.wakeWord (p.speechRecognitionIteration now2).log =
      rawReads Consumer.wakeWord p.log ∧
    ¬ (rawReads Consumer.wakeWord (wakeWordIterationWith detected p now1).log ≠
          rawReads Consumer.wakeWord p.log ∧
        rawReads Consumer.recognition (p.speechRecognitionIteration now2).log ≠
          rawReads Consumer.recognition p.log) ∧
    (p.getState = PipelineState.THINKING ∨ p.getState = PipelineState.SPEAKING ∨
        p.getState = PipelineState.ERROR →
      wakeWordIterationWith detected p now1 = p ∧ p.speechRecognitionIteration now2 = p) := by
  have hw : p.getState ≠ PipelineState.IDLE → wakeWordIterationWith detected p now1 = p := by
    intro h
    unfold wakeWordIterationWith
    rw [if_neg h]
  have hr : p.getState ≠ PipelineState.LISTENING → p.speechRecognitionIteration now2 = p := by
    intro h
    unfold speechRecognitionIteration
    rw [if_neg h]
  refine ⟨hw, hr, ?_, ?_, ?_, ?_, ?_, ?_⟩
  · rw [rawReads_wakeWordIteration]
    simp
  · rw [rawReads_speechRecognitionIteration]
    simp
  · rw [rawReads_wakeWordIteration]
    simp
  · rw [rawReads_speechRecognitionIteration]
    simp
  · rintro ⟨h1, h2⟩
    by_cases hs : p.getState = PipelineState.IDLE
    · apply h2
      rw [hr (by rw [hs]; decide)]
    · apply h1
      rw [hw hs]
  · intro h
    constructor
    · apply hw
      rcases h with h | h | h <;> rw [h] <;> decide
    · apply hr
      rcases h with h | h | h <;> rw [h] <;> decide

/-- Instance of C20: in `THINKING` neither loop touches the pipeline. -/
theorem consumer_gating_disjoint_witness :
    wakeWordIterationWith true (demo.setState PipelineState.THINKING) 1 =
        demo.setState PipelineState.THINKING ∧
      (demo.setState PipelineState.THINKING).speechRecognitionIteration 2 =
        demo.setState PipelineState.THINKING :=
  (consumer_gating_disjoint (demo.setState PipelineState.THINKING) true 1 2).2.2.2.2.2.2.2
    (Or.inl rfl)

end PipelineProperties

/-! ## Double-precision arithmetic: monotonicity and the square root -/

theorem binExp_lt {q : ℚ} (hq : q ≠ 0) : |q| < (2 : ℚ) ^ (binExp q + 1) := by
  have hn : 0 < q.num.natAbs := Int.natAbs_pos.mpr (Rat.num_ne_zero.mpr hq)
  have hd : 0 < q.den := q.den_pos
  obtain ⟨_, a⟩ := ilog2_spec hn
  obtain ⟨b, _⟩ := ilog2_spec hd
  have habs : |q| = (q.num.natAbs : ℚ) / (q.den : ℚ) := by
    conv_lhs => rw [← Rat.num_div_den q]
    rw [abs_div, Nat.abs_cast, Nat.cast_natAbs, Int.cast_abs]
  unfold binExp
  simp only
  split
  · have ha : (q.num.natAbs : ℚ) < (2 : ℚ) ^ (ilog2 q.num.natAbs + 1) := by exact_mod_cast a
    have hb : ((2 : ℚ) ^ ilog2 q.den) ≤ (q.den : ℚ) := by exact_mod_cast b
    have hdq : (0 : ℚ) < (q.den : ℚ) := by exact_mod_cast hd
    rw [habs, div_lt_iff₀ hdq]
    have e : (2 : ℚ) ^ ((ilog2 q.num.natAbs : ℤ) - (ilog2 q.den : ℤ) + 1) =
        2 ^ (ilog2 q.num.natAbs + 1) / 2 ^ ilog2 q.den := by
      rw [show ((ilog2 q.num.natAbs : ℤ) - (ilog2 q.den : ℤ) + 1) =
        ((ilog2 q.num.natAbs + 1 : ℕ) : ℤ) - ((ilog2 q.den : ℕ) : ℤ) by push_cast; ring]
      rw [zpow_sub₀ (by norm_num), zpow_natCast, zpow_natCast]
    rw [e]
    have hp : (0 : ℚ) < 2 ^ ilog2 q.den := by positivity
    calc (q.num.natAbs : ℚ) < 2 ^ (ilog2 q.num.natAbs + 1) := ha
      _ = 2 ^ (ilog2 q.num.natAbs + 1) / 2 ^ ilog2 q.den * 2 ^ ilog2 q.den := by field_simp
      _ ≤ 2 ^ (ilog2 q.num.natAbs + 1) / 2 ^ ilog2 q.den * (q.den : ℚ) := by
          apply mul_le_mul_of_nonneg_left hb
          positivity
  · next h =>
    rw [sub_add_cancel]
    exact lt_of_not_le h

theorem roundEven_le_of_le {x : ℚ} {z : ℤ} (h : x ≤ z) : roundEven x ≤ z := by
  have h1 : ⌊x⌋ ≤ z := by
    have := Int.floor_le_floor h
    simpa using this
  unfold roundEven
  have key : ¬ (x - ⌊x⌋ < 1 / 2) → ⌊x⌋ + 1 ≤ z := by
    intro hn
    by_contra hlt
    have hz : z = ⌊x⌋ := by omega
    have : (⌊x⌋ : ℚ) ≤ x := Int.floor_le x
    rw [hz] at h
    have : x - ⌊x⌋ ≤ 0 := by linarith
    apply hn
    linarith
  split
  · exact h1
  · next hn =>
    split
    · exact key hn
    · split
      · exact h1
      · exact key hn

/-- Rounding does not cross a binary64 number from below: if `x` is at most the
binary64 number `k * 2 ^ t`, so is its rounding. -/
theorem rnd_le_of_le_exact {x : ℚ} (k t : ℤ) (hk : |k| < 2 ^ 53) (ht : -1074 ≤ t)
    (hx0 : 0 ≤ x) (hx : x ≤ (k : ℚ) * 2 ^ t) : rnd x ≤ (k : ℚ) * 2 ^ t := by
  rcases eq_or_lt_of_le hx0 with h0 | hpos
  · rw [← h0, AudioResampler.rnd_zero]
    rw [← h0] at hx
    exact hx
  have hq : x ≠ 0 := ne_of_gt hpos
  have h2 : (0 : ℚ) < 2 ^ t := by positivity
  have hkpos : (0 : ℚ) < k := by
    by_contra hk0
    have : (k : ℚ) * 2 ^ t ≤ 0 := mul_nonpos_of_nonpos_of_nonneg (not_lt.mp hk0) h2.le
    linarith
  have hb := binExp_le hq
  rw [abs_of_pos hpos] at hb
  have hlt : x < 2 ^ (53 + t) := by
    rw [zpow_add₀ (by norm_num)]
    have hk2 : (k : ℚ) < 2 ^ (53 : ℤ) := by
      have : k < 2 ^ 53 := lt_of_le_of_lt (le_abs_self k) hk
      exact_mod_cast this
    calc x ≤ (k : ℚ) * 2 ^ t := hx
      _ < 2 ^ (53 : ℤ) * 2 ^ t := mul_lt_mul_of_pos_right hk2 h2
  have hexp : binExp x < 53 + t :=
    (zpow_lt_zpow_iff_right₀ (by norm_num : (1 : ℚ) < 2)).mp (lt_of_le_of_lt hb hlt)
  unfold rnd
  rw [if_neg hq]
  set e := max (binExp x) (-1022) with he
  have hle : e - 52 ≤ t := by
    have : e ≤ 52 + t := by
      rw [he]
      apply max_le <;> omega
    omega
  obtain ⟨j, hj⟩ := Int.eq_ofNat_of_zero_le (by omega : 0 ≤ t - (e - 52))
  have ht2 : t = (j : ℤ) + (e - 52) := by omega
  have hu : (0 : ℚ) < 2 ^ (e - 52) := by positivity
  have hbound : (k : ℚ) * 2 ^ t = ((k * 2 ^ j : ℤ) : ℚ) * 2 ^ (e - 52) := by
    rw [ht2, zpow_add₀ (by norm_num), zpow_natCast]
    push_cast
    ring
  rw [hbound]
  apply mul_le_mul_of_nonneg_right _ hu.le
  have hdiv : x / 2 ^ (e - 52) ≤ ((k * 2 ^ j : ℤ) : ℚ) := by
    rw [div_le_iff₀ hu, ← hbound]
    exact hx
  exact_mod_cast roundEven_le_of_le hdiv

theorem isqrtAux_spec (b : Nat) : ∀ n acc : Nat, acc * acc ≤ n → n < (acc + 2 ^ b) * (acc + 2 ^ b) →
    isqrtAux b n acc * isqrtAux b n acc ≤ n ∧
      n < (isqrtAux b n acc + 1) * (isqrtAux b n acc + 1) := by
  induction b with
  | zero =>
    intro n acc h1 h2
    exact ⟨h1, by simpa using h2⟩
  | succ b ih =>
    intro n acc h1 h2
    unfold isqrtAux
    split
    · next h =>
      apply ih _ _ h
      have : acc + 2 ^ b + 2 ^ b = acc + 2 ^ (b + 1) := by rw [pow_succ]; omega
      rw [this]
      exact h2
    · next h =>
      exact ih _ _ h1 (Nat.lt_of_not_le h)

theorem isqrt_spec (n : Nat) : isqrt n * isqrt n ≤ n ∧ n < (isqrt n + 1) * (isqrt n + 1) := by
  unfold isqrt
  apply isqrtAux_spec
  · exact Nat.zero_le n
  · rw [Nat.zero_add, ← pow_two, ← pow_mul]
    rcases Nat.eq_zero_or_pos n with h0 | hpos
    · rw [h0]; positivity
    · obtain ⟨_, h⟩ := ilog2_spec hpos
      refine lt_of_lt_of_le h (Nat.pow_le_pow_right (by norm_num) ?_)
      omega

/-- The unit in the last place that `fsqrt` uses for the root of `x`. -/
theorem fsqrt_cases {x : ℚ} (hx : 0 < x) :
    ∃ m : ℕ,
      (m : ℚ) ^ 2 ≤ x / (2 ^ (max (binExp x / 2) (-1022) - 52) *
        2 ^ (max (binExp x / 2) (-1022) - 52)) ∧
      x / (2 ^ (max (binExp x / 2) (-1022) - 52) *
        2 ^ (max (binExp x / 2) (-1022) - 52)) < ((m : ℚ) + 1) ^ 2 ∧
      ((fsqrt x = m * 2 ^ (max (binExp x / 2) (-1022) - 52) ∧
          x / (2 ^ (max (binExp x / 2) (-1022) - 52) *
            2 ^ (max (binExp x / 2) (-1022) - 52)) ≤ ((m : ℚ) + 1 / 2) ^ 2) ∨
        (fsqrt x = ((m : ℚ) + 1) * 2 ^ (max (binExp x / 2) (-1022) - 52) ∧
          ((m : ℚ) + 1 / 2) ^ 2 ≤ x / (2 ^ (max (binExp x / 2) (-1022) - 52) *
            2 ^ (max (binExp x / 2) (-1022) - 52)))) := by
  generalize hu : (2 : ℚ) ^ (max (binExp x / 2) (-1022) - 52) = u
  have hupos : 0 < u := by rw [← hu]; positivity
  have hY : 0 ≤ x / (u * u) := by positivity
  obtain ⟨s1, s2⟩ := isqrt_spec ⌊x / (u * u)⌋₊
  refine ⟨isqrt ⌊x / (u * u)⌋₊, ?_, ?_, ?_⟩
  · have h1 : ((isqrt ⌊x / (u * u)⌋₊ * isqrt ⌊x / (u * u)⌋₊ : ℕ) : ℚ) ≤
        (⌊x / (u * u)⌋₊ : ℚ) := by exact_mod_cast s1
    have h2 : (⌊x / (u * u)⌋₊ : ℚ) ≤ x / (u * u) := Nat.floor_le hY
    push_cast at h1
    rw [pow_two]
    linarith
  · have h1 : ((⌊x / (u * u)⌋₊ + 1 : ℕ) : ℚ) ≤
        (((isqrt ⌊x / (u * u)⌋₊ + 1) * (isqrt ⌊x / (u * u)⌋₊ + 1) : ℕ) : ℚ) := by
      exact_mod_cast s2
    have h2 : x / (u * u) < (⌊x / (u * u)⌋₊ : ℚ) + 1 := Nat.lt_floor_add_one _
    push_cast at h1
    rw [pow_two]
    linarith
  · unfold fsqrt
    rw [if_neg (not_le.mpr hx)]
    simp only [hu]
    split
    · next h => exact Or.inl ⟨rfl, h.le⟩
    · next h =>
      split
      · next h2 => exact Or.inr ⟨rfl, h2.le⟩
      · next h2 =>
        split
        · exact Or.inl ⟨rfl, not_lt.mp h2⟩
        · exact Or.inr ⟨rfl, not_lt.mp h⟩

theorem fsqrt_nonneg (x : ℚ) : 0 ≤ fsqrt x := by
  rcases le_or_lt x 0 with h | h
  · unfold fsqrt
    rw [if_pos h]
  · obtain ⟨m, _, _, hc⟩ := fsqrt_cases h
    rcases hc with ⟨e, _⟩ | ⟨e, _⟩ <;> rw [e] <;> positivity

/-- The rounded square root does not cross a binary64 number from below: if
`x ≤ b²` for the non-negative binary64 number `b = k * 2 ^ t`, then
`fsqrt x ≤ b`. -/
theorem fsqrt_le_of_le_sq {x : ℚ} (k : ℕ) (t : ℤ) (hk : k < 2 ^ 53) (ht : -1074 ≤ t)
    (hx : x ≤ ((k : ℚ) * 2 ^ t) ^ 2) : fsqrt x ≤ (k : ℚ) * 2 ^ t := by
  rcases le_or_lt x 0 with h0 | hpos
  · unfold fsqrt
    rw [if_pos h0]
    positivity
  have hq : x ≠ 0 := ne_of_gt hpos
  have h2t : (0 : ℚ) < 2 ^ t := by positivity
  have hb := binExp_le hq
  rw [abs_of_pos hpos] at hb
  -- the exponent of the root is at most `52 + t`
  have hkq : (k : ℚ) < 2 ^ (53 : ℤ) := by exact_mod_cast hk
  have hlt : x < (2 ^ (53 + t)) ^ 2 := by
    have h1 : (k : ℚ) * 2 ^ t < 2 ^ (53 + t) := by
      rw [zpow_add₀ (by norm_num)]
      exact mul_lt_mul_of_pos_right hkq h2t
    have h0 : (0 : ℚ) ≤ (k : ℚ) * 2 ^ t := by positivity
    calc x ≤ ((k : ℚ) * 2 ^ t) ^ 2 := hx
      _ < (2 ^ (53 + t)) ^ 2 := pow_lt_pow_left₀ h1 h0 (by norm_num)
  have hexp : binExp x < 2 * (53 + t) := by
    have h3 : (2 : ℚ) ^ binExp x < 2 ^ (2 * (53 + t)) := by
      rw [show (2 * (53 + t)) = (53 + t) + (53 + t) by ring, zpow_add₀ (by norm_num), ← pow_two]
      exact lt_of_le_of_lt hb hlt
    exact (zpow_lt_zpow_iff_right₀ (by norm_num : (1 : ℚ) < 2)).mp h3
  have hle : max (binExp x / 2) (-1022) - 52 ≤ t := by
    have : max (binExp x / 2) (-1022) ≤ 52 + t := by
      apply max_le <;> omega
    omega
  obtain ⟨m, hm1, hm2, hc⟩ := fsqrt_cases hpos
  revert hm1 hm2 hc
  generalize max (binExp x / 2) (-1022) - 52 = e at hle ⊢
  intro hm1 hm2 hc
  obtain ⟨j, hj⟩ := Int.eq_ofNat_of_zero_le (by omega : 0 ≤ t - e)
  have ht2 : t = (j : ℤ) + e := by omega
  have hu : (0 : ℚ) < 2 ^ e := by positivity
  have hbound : (k : ℚ) * 2 ^ t = ((k * 2 ^ j : ℕ) : ℚ) * 2 ^ e := by
    rw [ht2, zpow_add₀ (by norm_num), zpow_natCast]
    push_cast
    ring
  have hY : x / (2 ^ e * 2 ^ e) ≤ ((k * 2 ^ j : ℕ) : ℚ) ^ 2 := by
    rw [div_le_iff₀ (by positivity)]
    calc x ≤ ((k : ℚ) * 2 ^ t) ^ 2 := hx
      _ = ((k * 2 ^ j : ℕ) : ℚ) ^ 2 * (2 ^ e * 2 ^ e) := by rw [hbound]; ring
  have hmz : (m : ℚ) ≤ ((k * 2 ^ j : ℕ) : ℚ) := by
    have : (m : ℚ) ^ 2 ≤ ((k * 2 ^ j : ℕ) : ℚ) ^ 2 := le_trans hm1 hY
    exact le_of_sq_le_sq this (by positivity)
  rw [hbound]
  rcases hc with ⟨e1, _⟩ | ⟨e1, h3⟩
  · rw [e1]
    exact mul_le_mul_of_nonneg_right hmz hu.le
  · rw [e1]
    apply mul_le_mul_of_nonneg_right _ hu.le
    have hlt2 : m < k * 2 ^ j := by
      by_contra hge
      have hmz2 : ((k * 2 ^ j : ℕ) : ℚ) ≤ (m : ℚ) := by exact_mod_cast not_lt.mp hge
      have heq : (m : ℚ) = ((k * 2 ^ j : ℕ) : ℚ) := le_antisymm hmz hmz2
      rw [← heq] at hY
      have : ((m : ℚ) + 1 / 2) ^ 2 ≤ (m : ℚ) ^ 2 := le_trans h3 hY
      have hm0 : (0 : ℚ) ≤ m := by positivity
      nlinarith
    have : m + 1 ≤ k * 2 ^ j := hlt2
    exact_mod_cast this


/-- Relative error of the rounded square root in the normal range: the
argument is at most the square of the result enlarged by `2 ^ -53`. -/
theorem fsqrt_lower {x : ℚ} (hx : (2 : ℚ) ^ (-1022 : ℤ) ≤ x) :
    x ≤ (fsqrt x * (1 + 2 ^ (-53 : ℤ))) ^ 2 := by
  have hpos : 0 < x := lt_of_lt_of_le (by positivity) hx
  have hq : x ≠ 0 := ne_of_gt hpos
  have hb := binExp_le hq
  have hb2 := binExp_lt hq
  rw [abs_of_pos hpos] at hb hb2
  have hexp : -1022 < binExp x + 1 :=
    (zpow_lt_zpow_iff_right₀ (by norm_num : (1 : ℚ) < 2)).mp (lt_of_le_of_lt hx hb2)
  have hmax : max (binExp x / 2) (-1022) = binExp x / 2 := by
    apply max_eq_left
    omega
  obtain ⟨m, hm1, hm2, hc⟩ := fsqrt_cases hpos
  rw [hmax] at hm1 hm2 hc
  have h2e : (2 : ℚ) ^ (2 * (binExp x / 2)) ≤ x := by
    refine le_trans ?_ hb
    exact zpow_le_zpow_right₀ (by norm_num) (by omega)
  revert hm1 hm2 hc h2e
  generalize binExp x / 2 = e
  intro hm1 hm2 hc h2e
  have hu : (0 : ℚ) < 2 ^ (e - 52) := by positivity
  have huu : (2 : ℚ) ^ (e - 52) * 2 ^ (e - 52) * 2 ^ (104 : ℤ) = 2 ^ (2 * e) := by
    rw [← zpow_add₀ (by norm_num), ← zpow_add₀ (by norm_num)]
    congr 1
    ring
  have hY : (2 : ℚ) ^ (104 : ℤ) ≤ x / (2 ^ (e - 52) * 2 ^ (e - 52)) := by
    rw [le_div_iff₀ (by positivity)]
    calc (2 : ℚ) ^ (104 : ℤ) * (2 ^ (e - 52) * 2 ^ (e - 52))
        = 2 ^ (e - 52) * 2 ^ (e - 52) * 2 ^ (104 : ℤ) := by ring
      _ = 2 ^ (2 * e) := huu
      _ ≤ x := h2e
  have hm52 : (2 : ℚ) ^ (52 : ℤ) ≤ m := by
    have h1 : (2 : ℚ) ^ (104 : ℤ) < ((m : ℚ) + 1) ^ 2 := lt_of_le_of_lt hY hm2
    have h2 : ((2 : ℚ) ^ (52 : ℤ)) ^ 2 = 2 ^ (104 : ℤ) := by norm_num
    rw [← h2] at h1
    have h3 : (2 : ℚ) ^ (52 : ℤ) < (m : ℚ) + 1 :=
      lt_of_pow_lt_pow_left₀ 2 (by positivity) h1
    have h4 : ((4503599627370496 : ℕ) : ℚ) < ((m + 1 : ℕ) : ℚ) := by
      push_cast
      norm_num at h3
      linarith
    have h5 : (4503599627370496 : ℕ) < m + 1 := by exact_mod_cast h4
    have h6 : (4503599627370496 : ℕ) ≤ m := by omega
    norm_num
    exact h6
  have hxY : x = x / (2 ^ (e - 52) * 2 ^ (e - 52)) * (2 ^ (e - 52) * 2 ^ (e - 52)) := by
    field_simp
  have hd : (2 : ℚ) ^ (-53 : ℤ) * 2 ^ (52 : ℤ) = 1 / 2 := by norm_num
  have hd0 : (0 : ℚ) ≤ 2 ^ (-53 : ℤ) := by positivity
  generalize (2 : ℚ) ^ (e - 52) = u at hu hm1 hm2 hc hxY hY
  generalize (2 : ℚ) ^ (-53 : ℤ) = d at hd hd0 ⊢
  generalize (2 : ℚ) ^ (52 : ℤ) = b at hm52 hd
  generalize x / (u * u) = Y at hm1 hm2 hc hxY hY
  have hm0 : (0 : ℚ) ≤ m := by positivity
  -- half a unit is at most `d` times the significand
  have hhalf : (1 : ℚ) / 2 ≤ d * m := by
    rw [← hd]
    exact mul_le_mul_of_nonneg_left hm52 hd0
  rcases hc with ⟨e1, h3⟩ | ⟨e1, _⟩
  · rw [e1]
    have h4 : Y ≤ ((m : ℚ) * (1 + d)) ^ 2 := by
      refine le_trans h3 ?_
      apply pow_le_pow_left₀ (by positivity)
      linarith
    calc x = Y * (u * u) := hxY
      _ ≤ ((m : ℚ) * (1 + d)) ^ 2 * (u * u) :=
          mul_le_mul_of_nonneg_right h4 (by positivity)
      _ = ((m : ℚ) * u * (1 + d)) ^ 2 := by ring
  · rw [e1]
    have h4 : Y ≤ (((m : ℚ) + 1) * (1 + d)) ^ 2 := by
      refine le_trans hm2.le ?_
      apply pow_le_pow_left₀ (by positivity)
      have : 0 ≤ ((m : ℚ) + 1) * d := by positivity
      linarith
    calc x = Y * (u * u) := hxY
      _ ≤ (((m : ℚ) + 1) * (1 + d)) ^ 2 * (u * u) :=
          mul_le_mul_of_nonneg_right h4 (by positivity)
      _ = (((m : ℚ) + 1) * u * (1 + d)) ^ 2 := by ring

/-! ## Voice activity detector: the energy test -/

namespace VoiceActivityDetector

theorem sqSum_cons (x : Int) (xs : List Int) : sqSum (x :: xs) = x * x + sqSum xs := by
  simp [sqSum]

theorem sqSum_nonneg (frame : List Int) : 0 ≤ sqSum frame := by
  induction frame with
  | nil => simp [sqSum]
  | cons x xs ih =>
    rw [sqSum_cons]
    have := mul_self_nonneg x
    omega

theorem sq_le_of_int16 {x : Int} (h : -32768 ≤ x ∧ x ≤ 32767) : x * x ≤ 2 ^ 30 := by
  obtain ⟨h1, h2⟩ := h
  nlinarith

theorem sqSum_le {frame : List Int} (h : Int16Frame frame) :
    sqSum frame ≤ frame.length * 2 ^ 30 := by
  induction frame with
  | nil => simp [sqSum]
  | cons x xs ih =>
    have hx := sq_le_of_int16 (h x (List.mem_cons_self x xs))
    have hxs := ih (fun y hy => h y (List.mem_cons_of_mem x hy))
    rw [sqSum_cons, List.length_cons]
    push_cast
    linarith

/-- One round of the energy loop is exact while the sum stays below `2 ^ 23`. -/
theorem energy_step {a x : Int} (ha : 0 ≤ a) (hx : -32768 ≤ x ∧ x ≤ 32767)
    (hsum : a + x * x < 2 ^ 53) :
    fadd ((a : ℚ) * 2 ^ (-30 : ℤ)) (fmul (fdiv (ofInt x) 32768) (fdiv (ofInt x) 32768)) =
      ((a + x * x : ℤ) : ℚ) * 2 ^ (-30 : ℤ) := by
  have hxx := sq_le_of_int16 hx
  have hxx0 := mul_self_nonneg x
  have e1 : ofInt x = (x : ℚ) :=
    AudioResampler.ofInt_exact (by rw [abs_lt]; constructor <;> omega)
  have e2 : fdiv (ofInt x) 32768 = (x : ℚ) * 2 ^ (-15 : ℤ) := by
    unfold fdiv
    rw [e1]
    have : (x : ℚ) / 32768 = (x : ℚ) * 2 ^ (-15 : ℤ) := by norm_num; ring
    rw [this]
    exact rnd_exact x (-15) (by rw [abs_lt]; constructor <;> omega) (by norm_num)
  have e3 : fmul ((x : ℚ) * 2 ^ (-15 : ℤ)) ((x : ℚ) * 2 ^ (-15 : ℤ)) =
      ((x * x : ℤ) : ℚ) * 2 ^ (-30 : ℤ) := by
    unfold fmul
    have : (x : ℚ) * 2 ^ (-15 : ℤ) * ((x : ℚ) * 2 ^ (-15 : ℤ)) =
        ((x * x : ℤ) : ℚ) * 2 ^ (-30 : ℤ) := by
      push_cast
      have h : (2 : ℚ) ^ (-30 : ℤ) = 2 ^ (-15 : ℤ) * 2 ^ (-15 : ℤ) := by norm_num
      rw [h]
      ring
    rw [this]
    exact rnd_exact (x * x) (-30) (by rw [abs_of_nonneg hxx0]; omega) (by norm_num)
  rw [e2, e3]
  unfold fadd
  have : (a : ℚ) * 2 ^ (-30 : ℤ) + ((x * x : ℤ) : ℚ) * 2 ^ (-30 : ℤ) =
      ((a + x * x : ℤ) : ℚ) * 2 ^ (-30 : ℤ) := by
    push_cast
    ring
  rw [this]
  exact rnd_exact (a + x * x) (-30) (by rw [abs_of_nonneg (by omega)]; omega) (by norm_num)

theorem energy_foldl (frame : List Int) : ∀ a : Int, 0 ≤ a → Int16Frame frame →
    a + frame.length * 2 ^ 30 < 2 ^ 53 →
    frame.foldl
      (fun sum x => fadd sum (fmul (fdiv (ofInt x) 32768) (fdiv (ofInt x) 32768)))
      ((a : ℚ) * 2 ^ (-30 : ℤ)) = ((a + sqSum frame : ℤ) : ℚ) * 2 ^ (-30 : ℤ) := by
  induction frame with
  | nil =>
    intro a _ _ _
    simp [sqSum]
  | cons x xs ih =>
    intro a ha h hlen
    have hx := h x (List.mem_cons_self x xs)
    have hxx := sq_le_of_int16 hx
    have hxx0 := mul_self_nonneg x
    rw [List.length_cons] at hlen
    push_cast at hlen
    have hl0 : (0 : ℤ) ≤ (xs.length : ℤ) * 2 ^ 30 := by positivity
    rw [List.foldl_cons, energy_step ha hx (by omega),
      ih (a + x * x) (by omega) (fun y hy => h y (List.mem_cons_of_mem x hy)) (by omega),
      sqSum_cons, add_assoc]

/-- The energy loop computes the sum of the squared samples exactly (16-bit
samples, fewer than `2 ^ 23` of them). -/
theorem energy_exact {frame : List Int} (h : Int16Frame frame) (hlen : frame.length < 2 ^ 23) :
    energy frame = (sqSum frame : ℚ) * 2 ^ (-30 : ℤ) := by
  have h0 := energy_foldl frame 0 (le_refl 0) h (by
    have : (frame.length : ℤ) < 2 ^ 23 := by exact_mod_cast hlen
    omega)
  unfold energy
  simp only [Int.cast_zero, zero_mul, zero_add] at h0
  exact h0

theorem meanSquare_eq (frame : List Int) :
    meanSquare frame = (sqSum frame : ℚ) * 2 ^ (-30 : ℤ) / frame.length := by
  unfold meanSquare
  congr 1
  induction frame with
  | nil => simp [sqSum]
  | cons x xs ih =>
    rw [List.map_cons, List.sum_cons, ih, sqSum_cons]
    push_cast
    have : (2 : ℚ) ^ (-30 : ℤ) = 1 / 32768 ^ 2 := by norm_num
    rw [this]
    ring

/-- The value of `sum / frameSize`: the exact mean square, rounded once. -/
theorem mean_eq_rnd {frame : List Int} (h : Int16Frame frame) (hlen : frame.length < 2 ^ 23) :
    fdiv (energy frame) (ofSize frame.length) = rnd (meanSquare frame) := by
  unfold fdiv
  rw [energy_exact h hlen, AudioResampler.ofSize_exact (by omega), meanSquare_eq]

end VoiceActivityDetector


namespace VoiceActivityDetector

theorem meanSquare_nonneg (frame : List Int) : 0 ≤ meanSquare frame := by
  rw [meanSquare_eq]
  have := sqSum_nonneg frame
  have h : (0 : ℚ) ≤ (sqSum frame : ℚ) := by exact_mod_cast this
  positivity

theorem rms_eq {frame : List Int} (h : Int16Frame frame) (hlen : frame.length < 2 ^ 23) :
    rms frame = fsqrt (rnd (meanSquare frame)) := by
  unfold rms
  rw [mean_eq_rnd h hlen]

/-- A frame whose exact RMS is not above the `float` threshold is not voiced
for the code either: both roundings are monotone and the square of the
threshold is a binary64 number. -/
theorem voiced_false_of_not_rmsAbove {v : VoiceActivityDetector} {frame : List Int}
    (hthr : IsFloat32 v.threshold_) (h16 : Int16Frame frame) (hlen : frame.length < 2 ^ 23)
    (h : ¬ RmsAbove frame v.threshold_) : v.voiced frame = false := by
  unfold voiced
  split
  · rfl
  · next hne =>
    have hfr : frame ≠ [] := by
      intro h0
      exact hne (by rw [h0]; rfl)
    unfold RmsAbove at h
    have h1 : ¬ (v.threshold_ < 0 ∨ v.threshold_ ^ 2 < meanSquare frame) :=
      fun hh => h ⟨hfr, hh⟩
    push_neg at h1
    obtain ⟨ht0, hms⟩ := h1
    obtain ⟨k, e, hk, he, hke⟩ := hthr
    have h2 : (0 : ℚ) < 2 ^ e := by positivity
    have hk0 : 0 ≤ k := by
      by_contra hneg
      push_neg at hneg
      have : (k : ℚ) < 0 := by exact_mod_cast hneg
      have : (k : ℚ) * 2 ^ e < 0 := mul_neg_of_neg_of_pos this h2
      linarith
    lift k to ℕ using hk0
    rw [abs_of_nonneg (by positivity)] at hk
    have hkn : k < 2 ^ 24 := by exact_mod_cast hk
    have hsq : v.threshold_ ^ 2 = ((k * k : ℕ) : ℤ) * (2 : ℚ) ^ (2 * e) := by
      rw [hke, mul_pow, two_mul, zpow_add₀ (by norm_num : (2 : ℚ) ≠ 0)]
      push_cast
      ring
    have hkk : ((k * k : ℕ) : ℤ) < 2 ^ 53 := by
      have : k * k < 2 ^ 53 := by nlinarith
      exact_mod_cast this
    have hr := rnd_le_of_le_exact (x := meanSquare frame) ((k * k : ℕ) : ℤ) (2 * e)
      (by rw [abs_of_nonneg (by positivity)]; exact hkk) (by omega) (meanSquare_nonneg frame)
      (by rw [← hsq]; exact hms)
    have hs := fsqrt_le_of_le_sq (x := rnd (meanSquare frame)) k e (by omega) (by omega)
      (by
        have : ((k : ℚ) * 2 ^ e) ^ 2 = ((k * k : ℕ) : ℤ) * (2 : ℚ) ^ (2 * e) := by
          rw [← hsq, hke]
          push_cast
          ring
        rw [this]
        exact hr)
    rw [rms_eq h16 hlen, hke]
    simp only [decide_eq_false_iff_not, not_lt]
    simpa using hs

theorem margin_fact :
    ((1 : ℚ) + 2 ^ (-53 : ℤ)) ^ 2 ≤ (1 + 2 ^ (-52 : ℤ)) ^ 2 * (1 - 2 ^ (-53 : ℤ)) := by
  norm_num

/-- A frame whose exact RMS exceeds the threshold by the relative margin
`2 ^ -52` is voiced for the code. -/
theorem voiced_of_margin {v : VoiceActivityDetector} {frame : List Int}
    (h16 : Int16Frame frame) (hlen : frame.length < 2 ^ 23)
    (h : RmsAbove frame (v.threshold_ * (1 + 2 ^ (-52 : ℤ)))) : v.voiced frame = true := by
  obtain ⟨hfr, hcase⟩ := h
  have hne : frame.length ≠ 0 := by
    intro h0
    exact hfr (List.length_eq_zero.mp h0)
  unfold voiced
  rw [if_neg hne, rms_eq h16 hlen]
  simp only [decide_eq_true_eq]
  have he0 : (0 : ℚ) < 1 + 2 ^ (-52 : ℤ) := by positivity
  rcases lt_or_le v.threshold_ 0 with hneg | hpos
  · exact lt_of_lt_of_le hneg (fsqrt_nonneg _)
  · have hsq : (v.threshold_ * (1 + 2 ^ (-52 : ℤ))) ^ 2 < meanSquare frame := by
      rcases hcase with hc | hc
      · exfalso
        have : 0 ≤ v.threshold_ * (1 + 2 ^ (-52 : ℤ)) := mul_nonneg hpos he0.le
        linarith
      · exact hc
    have hms0 : 0 < meanSquare frame := lt_of_le_of_lt (sq_nonneg _) hsq
    -- the mean square is at least `2 ^ -53`
    have hS : 1 ≤ sqSum frame := by
      by_contra hlt
      have h0 : sqSum frame = 0 := by
        have := sqSum_nonneg frame
        omega
      rw [meanSquare_eq, h0] at hms0
      simp at hms0
    have hlenq : (frame.length : ℚ) < 2 ^ 23 := by exact_mod_cast hlen
    have hlen0 : (0 : ℚ) < frame.length := by
      have : 0 < frame.length := Nat.pos_of_ne_zero hne
      exact_mod_cast this
    have hmsl : (2 : ℚ) ^ (-53 : ℤ) ≤ meanSquare frame := by
      rw [meanSquare_eq, le_div_iff₀ hlen0]
      have hSq : (1 : ℚ) ≤ (sqSum frame : ℚ) := by exact_mod_cast hS
      have h30 : (0 : ℚ) < 2 ^ (-30 : ℤ) := by positivity
      have e1 : (2 : ℚ) ^ (-53 : ℤ) * 2 ^ 23 = 2 ^ (-30 : ℤ) := by norm_num
      have e2 : (0 : ℚ) < 2 ^ (-53 : ℤ) := by positivity
      nlinarith
    have hb := (rnd_between (q := meanSquare frame)
      (le_trans (by norm_num) hmsl)).1
    have hxl : (2 : ℚ) ^ (-1022 : ℤ) ≤ rnd (meanSquare frame) := by
      have : (2 : ℚ) ^ (-53 : ℤ) * (1 - 2 ^ (-53 : ℤ)) ≤
          meanSquare frame * (1 - 2 ^ (-53 : ℤ)) :=
        mul_le_mul_of_nonneg_right hmsl (by norm_num)
      have h3 : (2 : ℚ) ^ (-1022 : ℤ) ≤ 2 ^ (-53 : ℤ) * (1 - 2 ^ (-53 : ℤ)) := by norm_num
      linarith
    have hlow := fsqrt_lower hxl
    by_contra hcon
    push_neg at hcon
    have hf0 := fsqrt_nonneg (rnd (meanSquare frame))
    have hmf := margin_fact
    have hd1 : (0 : ℚ) < 1 - 2 ^ (-53 : ℤ) := by norm_num
    have hd2 : (0 : ℚ) < 1 + 2 ^ (-53 : ℤ) := by positivity
    have h4 : (fsqrt (rnd (meanSquare frame)) * (1 + 2 ^ (-53 : ℤ))) ^ 2 ≤
        (v.threshold_ * (1 + 2 ^ (-53 : ℤ))) ^ 2 := by
      apply pow_le_pow_left₀ (mul_nonneg hf0 hd2.le)
      exact mul_le_mul_of_nonneg_right hcon hd2.le
    have h5 : (v.threshold_ * (1 + 2 ^ (-53 : ℤ))) ^ 2 ≤
        (v.threshold_ * (1 + 2 ^ (-52 : ℤ))) ^ 2 * (1 - 2 ^ (-53 : ℤ)) := by
      rw [mul_pow, mul_pow, mul_assoc]
      exact mul_le_mul_of_nonneg_left hmf (sq_nonneg _)
    have h6 : (v.threshold_ * (1 + 2 ^ (-52 : ℤ))) ^ 2 * (1 - 2 ^ (-53 : ℤ)) <
        meanSquare frame * (1 - 2 ^ (-53 : ℤ)) :=
      mul_lt_mul_of_pos_right hsq hd1
    linarith

theorem processFrame_of_voiced {v : VoiceActivityDetector} {frame : List Int}
    (h : v.voiced frame = true) :
    v.processFrame frame = (true, { v with silentFrames_ := 0, voiceDetected_ := true }) := by
  unfold processFrame
  rw [if_pos h]

theorem processFrame_of_not_voiced {v : VoiceActivityDetector} {frame : List Int}
    (h : v.voiced frame = false) :
    v.processFrame frame =
      if timedOut { v with silentFrames_ := v.silentFrames_ + 1 } frame.length then
        (false, { v with silentFrames_ := 0, voiceDetected_ := false })
      else (v.voiceDetected_, { v with silentFrames_ := v.silentFrames_ + 1 }) := by
  unfold processFrame
  rw [h]
  simp

end VoiceActivityDetector


section DetectorProperties

open VoiceActivityDetector

/-- C12 (as stated, refuted): the frame `edgeFrame` has an exact normalized
RMS strictly above the threshold of `edgeDetector`, yet `processFrame` takes
the silent branch: it returns false, counts one silent frame and leaves the
latch false. The double-precision quotient and square root round the RMS down
onto the threshold. -/
theorem vad_voiced_step_counterexample :
    IsFloat32 edgeDetector.threshold_ ∧ Int16Frame edgeFrame ∧
      RmsAbove edgeFrame edgeDetector.threshold_ ∧
      edgeDetector.processFrame edgeFrame =
        (false, { edgeDetector with silentFrames_ := 1 }) := by
  refine ⟨⟨10997897, -24, by norm_num, by norm_num, ?_⟩, by decide, by decide!, by decide!⟩
  norm_num [edgeDetector, VoiceActivityDetector.new, VoiceActivityDetector.setThreshold]

/-- C12 (amended): for every detector state, `processFrame` on a frame of
fewer than `2 ^ 23` 16-bit samples whose exact normalized RMS is strictly
greater than the threshold times `1 + 2 ^ -52` returns true, sets the
silent-frame counter to 0 and sets the latch to true. -/
theorem vad_voiced_step (v : VoiceActivityDetector) (frame : List Int)
    (h16 : Int16Frame frame) (hlen : frame.length < 2 ^ 23)
    (h : RmsAbove frame (v.threshold_ * (1 + 2 ^ (-52 : ℤ)))) :
    v.processFrame frame = (true, { v with silentFrames_ := 0, voiceDetected_ := true }) :=
  processFrame_of_voiced (voiced_of_margin h16 hlen h)

/-- C12 witness: a frame of two full-scale samples on a detector in the middle
of a silence. -/
theorem vad_voiced_step_witness :
    Int16Frame [32767, -32768] ∧
      RmsAbove [32767, -32768]
        ((VoiceActivityDetector.mk 16000 2 (10737418 / 2 ^ 30) 2000 5 false).threshold_ *
          (1 + 2 ^ (-52 : ℤ))) ∧
      (VoiceActivityDetector.mk 16000 2 (10737418 / 2 ^ 30) 2000 5 false).processFrame
          [32767, -32768] =
        (true, VoiceActivityDetector.mk 16000 2 (10737418 / 2 ^ 30) 2000 0 true) :=
  ⟨by decide, by decide!,
    vad_voiced_step (VoiceActivityDetector.mk 16000 2 (10737418 / 2 ^ 30) 2000 5 false)
      [32767, -32768] (by decide) (by norm_num) (by decide!)⟩

end DetectorProperties


/-! ## Voice activity detector: the silence timeout -/

theorem roundEven_nonneg {x : ℚ} (h : 0 ≤ x) : 0 ≤ roundEven x := by
  have h1 : 0 ≤ ⌊x⌋ := Int.floor_nonneg.mpr h
  unfold roundEven
  split
  · exact h1
  · split
    · omega
    · split <;> omega

theorem rnd_nonneg {x : ℚ} (h : 0 ≤ x) : 0 ≤ rnd x := by
  unfold rnd
  split
  · exact le_refl 0
  · have h2 : (0 : ℚ) < 2 ^ (max (binExp x) (-1022) - 52) := by positivity
    have h3 := roundEven_nonneg (div_nonneg h h2.le)
    have h4 : (0 : ℚ) ≤ (roundEven (x / 2 ^ (max (binExp x) (-1022) - 52)) : ℚ) := by
      exact_mod_cast h3
    exact mul_nonneg h4 h2.le

theorem timeout_fact_up :
    (1 : ℚ) ≤ (1 + 2 ^ (-51 : ℤ)) * ((1 - 2 ^ (-53 : ℤ)) * (1 - 2 ^ (-53 : ℤ))) := by
  norm_num

theorem timeout_fact_down :
    (1 - 2 ^ (-51 : ℤ)) * ((1 + 2 ^ (-53 : ℤ)) * (1 + 2 ^ (-53 : ℤ))) < (1 : ℚ) := by
  norm_num

/-- Two roundings of a positive quotient times `1000` stay within the
relative error `(1 ± 2 ^ -53)²`. -/
theorem duration_between {d sr : ℚ} (hd : 1 ≤ d) (hsr : 0 < sr) (hsr2 : sr < 2 ^ 31) :
    d / sr * 1000 * ((1 - 2 ^ (-53 : ℤ)) * (1 - 2 ^ (-53 : ℤ))) ≤ fmul (fdiv d sr) 1000 ∧
      fmul (fdiv d sr) 1000 ≤ d / sr * 1000 * ((1 + 2 ^ (-53 : ℤ)) * (1 + 2 ^ (-53 : ℤ))) := by
  have hq : (2 : ℚ) ^ (-31 : ℤ) ≤ d / sr := by
    rw [le_div_iff₀ hsr]
    have : (2 : ℚ) ^ (-31 : ℤ) * sr ≤ 2 ^ (-31 : ℤ) * 2 ^ 31 :=
      mul_le_mul_of_nonneg_left hsr2.le (by positivity)
    have e : (2 : ℚ) ^ (-31 : ℤ) * 2 ^ 31 = 1 := by norm_num
    linarith
  have hq0 : (0 : ℚ) < d / sr := lt_of_lt_of_le (by positivity) hq
  obtain ⟨a1, a2⟩ := rnd_between (q := d / sr) (le_trans (by norm_num) hq)
  have hm : (0 : ℚ) < 1 - 2 ^ (-53 : ℤ) := by norm_num
  have hp : (0 : ℚ) < 1 + 2 ^ (-53 : ℤ) := by positivity
  have hq1 : (2 : ℚ) ^ (-1022 : ℤ) ≤ rnd (d / sr) * 1000 := by
    have h1 : (2 : ℚ) ^ (-31 : ℤ) * (1 - 2 ^ (-53 : ℤ)) ≤ d / sr * (1 - 2 ^ (-53 : ℤ)) :=
      mul_le_mul_of_nonneg_right hq hm.le
    have h2 : (2 : ℚ) ^ (-1022 : ℤ) ≤ 2 ^ (-31 : ℤ) * (1 - 2 ^ (-53 : ℤ)) * 1000 := by
      norm_num
    have h3 : (2 : ℚ) ^ (-31 : ℤ) * (1 - 2 ^ (-53 : ℤ)) * 1000 ≤ rnd (d / sr) * 1000 :=
      mul_le_mul_of_nonneg_right (le_trans h1 a1) (by norm_num)
    linarith
  obtain ⟨b1, b2⟩ := rnd_between (q := rnd (d / sr) * 1000) hq1
  unfold fmul fdiv
  constructor
  · have h1 : d / sr * (1 - 2 ^ (-53 : ℤ)) * 1000 * (1 - 2 ^ (-53 : ℤ)) ≤
        rnd (d / sr) * 1000 * (1 - 2 ^ (-53 : ℤ)) :=
      mul_le_mul_of_nonneg_right (mul_le_mul_of_nonneg_right a1 (by norm_num)) hm.le
    calc d / sr * 1000 * ((1 - 2 ^ (-53 : ℤ)) * (1 - 2 ^ (-53 : ℤ)))
        = d / sr * (1 - 2 ^ (-53 : ℤ)) * 1000 * (1 - 2 ^ (-53 : ℤ)) := by ring
      _ ≤ rnd (d / sr) * 1000 * (1 - 2 ^ (-53 : ℤ)) := h1
      _ ≤ rnd (rnd (d / sr) * 1000) := b1
  · have h1 : rnd (d / sr) * 1000 * (1 + 2 ^ (-53 : ℤ)) ≤
        d / sr * (1 + 2 ^ (-53 : ℤ)) * 1000 * (1 + 2 ^ (-53 : ℤ)) :=
      mul_le_mul_of_nonneg_right (mul_le_mul_of_nonneg_right a2 (by norm_num)) hp.le
    calc rnd (rnd (d / sr) * 1000) ≤ rnd (d / sr) * 1000 * (1 + 2 ^ (-53 : ℤ)) := b2
      _ ≤ d / sr * (1 + 2 ^ (-53 : ℤ)) * 1000 * (1 + 2 ^ (-53 : ℤ)) := h1
      _ = d / sr * 1000 * ((1 + 2 ^ (-53 : ℤ)) * (1 + 2 ^ (-53 : ℤ))) := by ring

namespace VoiceActivityDetector

/-- The double-precision test `silenceDuration >= silenceTimeoutMs_` decides
the integer comparison of `s · frameSize · 1000` with
`silenceTimeoutMs · sampleRate`, except at equality, where its value is that of
`roundTrips`. -/
theorem timedOut_eq_expired {v : VoiceActivityDetector} {fs : Nat}
    (hsr : 0 < v.sampleRate_) (hsr2 : v.sampleRate_ < 2 ^ 31)
    (hs : 0 ≤ v.silentFrames_) (hd : v.silentFrames_ * fs < 2 ^ 53)
    (hT0 : -(2 ^ 31) ≤ v.silenceTimeoutMs_)
    (hT : v.silenceTimeoutMs_ * v.sampleRate_ ≤ 2 ^ 51) :
    v.timedOut fs = v.expired fs v.silentFrames_ := by
  obtain ⟨sr, fz, thr, T, s, latch⟩ := v
  simp only at hsr hsr2 hs hd hT0 hT
  lift s to ℕ using hs
  have hdn : s * fs < 2 ^ 53 := by exact_mod_cast hd
  have hsz : szMul (intToSize (s : ℤ)) fs = s * fs := by
    rcases Nat.eq_zero_or_pos fs with h0 | hpos
    · subst h0
      simp [szMul]
    · have hs64 : s < 2 ^ 64 := by
        have : s ≤ s * fs := Nat.le_mul_of_pos_right s hpos
        omega
      unfold szMul intToSize SIZE_MOD
      have h1 : ((s : ℤ) % (2 ^ 64 : ℤ)).toNat = s := by
        rw [Int.emod_eq_of_lt (by positivity) (by exact_mod_cast hs64)]
        simp
      rw [h1]
      exact Nat.mod_eq_of_lt (by omega)
  have hsrq : (0 : ℚ) < (sr : ℚ) := by exact_mod_cast hsr
  have hsrq2 : (sr : ℚ) < 2 ^ 31 := by exact_mod_cast hsr2
  have hTle : T ≤ 2 ^ 51 := by
    rcases le_or_lt T 0 with h | h
    · omega
    · nlinarith
  have eT : ofInt T = (T : ℚ) :=
    AudioResampler.ofInt_exact (by rw [abs_lt]; constructor <;> omega)
  have eS : ofInt sr = (sr : ℚ) :=
    AudioResampler.ofInt_exact (by rw [abs_lt]; constructor <;> omega)
  have eD : ofSize (s * fs) = ((s * fs : ℕ) : ℚ) := AudioResampler.ofSize_exact hdn
  unfold timedOut expired silenceDuration
  simp only
  rw [if_neg (ne_of_gt hsr), hsz, eT, eS, eD]
  have hTq : (T : ℚ) * sr ≤ 2 ^ 51 := by exact_mod_cast hT
  rcases lt_trichotomy (T * sr) ((s : ℤ) * fs * 1000) with hlt | heq | hgt
  · -- the silence is longer than the timeout
    have hexp : decide (T * sr < (s : ℤ) * fs * 1000) = true := decide_eq_true hlt
    rw [hexp, Bool.true_or, decide_eq_true_eq]
    rcases le_or_lt T 0 with hneg | hpos
    · have h0 : (0 : ℚ) ≤ fmul (fdiv ((s * fs : ℕ) : ℚ) sr) 1000 := by
        unfold fmul fdiv
        exact rnd_nonneg (mul_nonneg (rnd_nonneg (div_nonneg (by positivity) hsrq.le))
          (by norm_num))
      have : (T : ℚ) ≤ 0 := by exact_mod_cast hneg
      linarith
    · have hTpos : (0 : ℚ) < (T : ℚ) := by exact_mod_cast hpos
      have hd1 : 1 ≤ s * fs := by
        by_contra h0
        have h00 : s * fs = 0 := by omega
        have : (s : ℤ) * fs = 0 := by exact_mod_cast h00
        rw [this] at hlt
        nlinarith
      have hd1q : (1 : ℚ) ≤ ((s * fs : ℕ) : ℚ) := by exact_mod_cast hd1
      obtain ⟨lo, _⟩ := duration_between hd1q hsrq hsrq2
      have hA : (T : ℚ) + 1 / sr ≤ ((s * fs : ℕ) : ℚ) / sr * 1000 := by
        have h1 : T * sr + 1 ≤ (s : ℤ) * fs * 1000 := by omega
        have h2 : (T : ℚ) * sr + 1 ≤ ((s * fs : ℕ) : ℚ) * 1000 := by
          push_cast
          exact_mod_cast h1
        rw [div_mul_eq_mul_div, le_div_iff₀ hsrq, add_mul, one_div, inv_mul_cancel₀ (ne_of_gt hsrq)]
        exact h2
      have hgap : (T : ℚ) * 2 ^ (-51 : ℤ) ≤ 1 / sr := by
        rw [le_div_iff₀ hsrq]
        have e : (T : ℚ) * 2 ^ (-51 : ℤ) * sr = (T * sr) * 2 ^ (-51 : ℤ) := by ring
        rw [e]
        have : (T : ℚ) * sr * 2 ^ (-51 : ℤ) ≤ 2 ^ 51 * 2 ^ (-51 : ℤ) :=
          mul_le_mul_of_nonneg_right hTq (by positivity)
        have e2 : (2 : ℚ) ^ 51 * 2 ^ (-51 : ℤ) = 1 := by norm_num
        linarith
      have hc : (0 : ℚ) ≤ (1 - 2 ^ (-53 : ℤ)) * (1 - 2 ^ (-53 : ℤ)) := by norm_num
      have h3 : (T : ℚ) * (1 + 2 ^ (-51 : ℤ)) * ((1 - 2 ^ (-53 : ℤ)) * (1 - 2 ^ (-53 : ℤ))) ≤
          ((s * fs : ℕ) : ℚ) / sr * 1000 * ((1 - 2 ^ (-53 : ℤ)) * (1 - 2 ^ (-53 : ℤ))) :=
        mul_le_mul_of_nonneg_right (by linarith) hc
      have h4 : (T : ℚ) ≤
          (T : ℚ) * (1 + 2 ^ (-51 : ℤ)) * ((1 - 2 ^ (-53 : ℤ)) * (1 - 2 ^ (-53 : ℤ))) := by
        have := mul_le_mul_of_nonneg_left timeout_fact_up hTpos.le
        rw [mul_one, ← mul_assoc] at this
        exact this
      linarith
  · -- the silence is exactly as long as the timeout
    have hn1 : decide (T * sr < (s : ℤ) * fs * 1000) = false :=
      decide_eq_false (by omega)
    have hn2 : decide ((s : ℤ) * fs * 1000 = T * sr) = true := decide_eq_true heq.symm
    rw [hn1, hn2, Bool.false_or, Bool.true_and]
    have hq : ((s * fs : ℕ) : ℚ) / sr = (T : ℚ) / 1000 := by
      rw [div_eq_div_iff (ne_of_gt hsrq) (by norm_num)]
      have h := congrArg (Int.cast : ℤ → ℚ) heq
      push_cast at h
      push_cast
      linarith
    unfold roundTrips fmul fdiv
    rw [hq]
  · -- the silence is shorter than the timeout
    have hn1 : decide (T * sr < (s : ℤ) * fs * 1000) = false :=
      decide_eq_false (by omega)
    have hn2 : decide ((s : ℤ) * fs * 1000 = T * sr) = false :=
      decide_eq_false (by omega)
    rw [hn1, hn2, Bool.false_or, Bool.false_and, decide_eq_false_iff_not, not_le]
    have hTpos1 : 0 < T := by
      by_contra hle
      have h1 : T * sr ≤ 0 := by nlinarith
      have h2 : (0 : ℤ) ≤ (s : ℤ) * fs * 1000 := by positivity
      omega
    have hTpos : (0 : ℚ) < (T : ℚ) := by exact_mod_cast hTpos1
    rcases Nat.eq_zero_or_pos (s * fs) with h0 | hd1
    · rw [h0]
      unfold fmul fdiv
      simp only [Nat.cast_zero, zero_div, AudioResampler.rnd_zero, zero_mul]
      exact hTpos
    · have hd1q : (1 : ℚ) ≤ ((s * fs : ℕ) : ℚ) := by exact_mod_cast hd1
      obtain ⟨_, hi⟩ := duration_between hd1q hsrq hsrq2
      have hA : ((s * fs : ℕ) : ℚ) / sr * 1000 ≤ (T : ℚ) - 1 / sr := by
        have h1 : (s : ℤ) * fs * 1000 + 1 ≤ T * sr := by omega
        have h2 : ((s * fs : ℕ) : ℚ) * 1000 + 1 ≤ (T : ℚ) * sr := by
          push_cast
          exact_mod_cast h1
        rw [div_mul_eq_mul_div, div_le_iff₀ hsrq, sub_mul, one_div,
          inv_mul_cancel₀ (ne_of_gt hsrq)]
        linarith
      have hgap : (T : ℚ) * 2 ^ (-51 : ℤ) ≤ 1 / sr := by
        rw [le_div_iff₀ hsrq]
        have e : (T : ℚ) * 2 ^ (-51 : ℤ) * sr = (T * sr) * 2 ^ (-51 : ℤ) := by ring
        rw [e]
        have : (T : ℚ) * sr * 2 ^ (-51 : ℤ) ≤ 2 ^ 51 * 2 ^ (-51 : ℤ) :=
          mul_le_mul_of_nonneg_right hTq (by positivity)
        have e2 : (2 : ℚ) ^ 51 * 2 ^ (-51 : ℤ) = 1 := by norm_num
        linarith
      have hc : (0 : ℚ) ≤ (1 + 2 ^ (-53 : ℤ)) * (1 + 2 ^ (-53 : ℤ)) := by positivity
      have h3 : ((s * fs : ℕ) : ℚ) / sr * 1000 * ((1 + 2 ^ (-53 : ℤ)) * (1 + 2 ^ (-53 : ℤ))) ≤
          (T : ℚ) * (1 - 2 ^ (-51 : ℤ)) * ((1 + 2 ^ (-53 : ℤ)) * (1 + 2 ^ (-53 : ℤ))) :=
        mul_le_mul_of_nonneg_right (by linarith) hc
      have h4 : (T : ℚ) * (1 - 2 ^ (-51 : ℤ)) * ((1 + 2 ^ (-53 : ℤ)) * (1 + 2 ^ (-53 : ℤ))) <
          (T : ℚ) := by
        have := mul_lt_mul_of_pos_left timeout_fact_down hTpos
        rw [mul_one, ← mul_assoc] at this
        exact this
      linarith

end VoiceActivityDetector


section SilenceProperties

open VoiceActivityDetector

/-- C13 (as stated, refuted): on `lateDetector` a frame of 480 zero samples
does not exceed the threshold and brings the counter to `s = 67`, for which
`s · frameSize · 1000 / sampleRate = 2010 ≥ silenceTimeoutMs`; yet
`processFrame` returns the latch (true), keeps the latch and keeps the counter
at 67. In double precision `32160 / 16000 * 1000` is below 2010. -/
theorem vad_silent_step_counterexample :
    ¬ RmsAbove (List.replicate 480 0) lateDetector.threshold_ ∧
      (lateDetector.silenceTimeoutMs_ : ℚ) ≤
        ((lateDetector.silentFrames_ + 1 : ℤ) : ℚ) * 480 * 1000 / lateDetector.sampleRate_ ∧
      lateDetector.processFrame (List.replicate 480 0) =
        (true, { lateDetector with silentFrames_ := 67 }) := by
  refine ⟨by decide!, by decide!, by decide!⟩

/-- C13 (amended): `processFrame` on a frame (fewer than `2 ^ 23` 16-bit
samples, `float` threshold) whose exact RMS does not exceed the threshold
increments the counter to `s`. If `s · frameSize · 1000` is greater than
`silenceTimeoutMs · sampleRate`, or equal to it while the timeout survives the
round trip `T / 1000.0 * 1000.0 >= T`, it sets the latch to false, resets the
counter to 0 and returns false; otherwise it leaves the latch unchanged,
keeps the counter at `s` and returns the latch. -/
theorem vad_silent_step (v : VoiceActivityDetector) (frame : List Int)
    (hthr : IsFloat32 v.threshold_) (h16 : Int16Frame frame) (hlen : frame.length < 2 ^ 23)
    (hsr : 0 < v.sampleRate_) (hsr2 : v.sampleRate_ < 2 ^ 31)
    (hs : 0 ≤ v.silentFrames_) (hd : (v.silentFrames_ + 1) * frame.length < 2 ^ 53)
    (hT0 : -(2 ^ 31) ≤ v.silenceTimeoutMs_)
    (hT : v.silenceTimeoutMs_ * v.sampleRate_ ≤ 2 ^ 51)
    (h : ¬ RmsAbove frame v.threshold_) :
    v.processFrame frame =
      if v.silenceTimeoutMs_ * v.sampleRate_ < (v.silentFrames_ + 1) * frame.length * 1000 ∨
          ((v.silentFrames_ + 1) * frame.length * 1000 = v.silenceTimeoutMs_ * v.sampleRate_ ∧
            roundTrips v.silenceTimeoutMs_ = true) then
        (false, { v with silentFrames_ := 0, voiceDetected_ := false })
      else (v.voiceDetected_, { v with silentFrames_ := v.silentFrames_ + 1 }) := by
  rw [processFrame_of_not_voiced (voiced_false_of_not_rmsAbove hthr h16 hlen h),
    timedOut_eq_expired (v := { v with silentFrames_ := v.silentFrames_ + 1 })
      hsr hsr2 (by simp only; omega) hd hT0 hT]
  unfold expired
  simp only [Bool.or_eq_true, Bool.and_eq_true, decide_eq_true_eq]

/-- C13 witness: the default timeout of 2000 ms at 16 kHz with frames of 480
samples; the 67th silent frame ends the utterance. -/
theorem vad_silent_step_witness :
    ¬ RmsAbove (List.replicate 480 0) (lateDetector.setSilenceTimeout 2000).threshold_ ∧
      (lateDetector.setSilenceTimeout 2000).processFrame (List.replicate 480 0) =
        (false, { lateDetector.setSilenceTimeout 2000 with
          silentFrames_ := 0, voiceDetected_ := false }) :=
  ⟨by decide!,
    (vad_silent_step (lateDetector.setSilenceTimeout 2000) (List.replicate 480 0)
      ⟨10737418, -30, by norm_num, by norm_num, by
        norm_num [lateDetector, VoiceActivityDetector.setSilenceTimeout]⟩
      (by decide!) (by decide!) (by decide) (by decide) (by decide) (by decide!) (by decide)
      (by decide) (by decide!)).trans (by decide!)⟩

end SilenceProperties


/-! ## Voice activity detector: runs of frames -/

namespace VoiceActivityDetector

theorem voiced_congr {v w : VoiceActivityDetector} (h : v.threshold_ = w.threshold_)
    (frame : List Int) : v.voiced frame = w.voiced frame := by
  unfold voiced
  rw [h]

/-- The flag returned by `processFrame` is the latch after the call. -/
theorem flag_eq_latch (v : VoiceActivityDetector) (frame : List Int) :
    (v.processFrame frame).1 = (v.processFrame frame).2.voiceDetected_ := by
  rcases Bool.eq_false_or_eq_true (v.voiced frame) with h | h
  · rw [processFrame_of_voiced h]
  · rw [processFrame_of_not_voiced h]
    split <;> rfl

theorem feed_nil (v : VoiceActivityDetector) : feed v [] = ([], v) := rfl

theorem feed_cons (v : VoiceActivityDetector) (f : List Int) (rest : List (List Int)) :
    feed v (f :: rest) =
      ((v.processFrame f).1 :: (feed (v.processFrame f).2 rest).1,
        (feed (v.processFrame f).2 rest).2) := rfl

theorem feed_length (frames : List (List Int)) : ∀ v : VoiceActivityDetector,
    (feed v frames).1.length = frames.length := by
  induction frames with
  | nil => intro v; rfl
  | cons f rest ih =>
    intro v
    rw [feed_cons, List.length_cons, List.length_cons, ih]

/-- Once the latch is false, frames that are not voiced return false and
leave it false. -/
theorem feed_latch_false (frames : List (List Int)) : ∀ v : VoiceActivityDetector,
    v.voiceDetected_ = false → (∀ f ∈ frames, v.voiced f = false) →
    (∀ b ∈ (feed v frames).1, b = false) ∧ (feed v frames).2.voiceDetected_ = false := by
  induction frames with
  | nil =>
    intro v hl _
    exact ⟨by simp [feed_nil], hl⟩
  | cons f rest ih =>
    intro v hl hq
    have hf := hq f (List.mem_cons_self f rest)
    rw [feed_cons, processFrame_of_not_voiced hf]
    split
    · have := ih { v with silentFrames_ := 0, voiceDetected_ := false } rfl
        (fun g hg => by
          show v.voiced g = false
          exact hq g (List.mem_cons_of_mem f hg))
      refine ⟨?_, this.2⟩
      intro b hb
      rcases List.mem_cons.mp hb with h | h
      · exact h
      · exact this.1 b h
    · have := ih { v with silentFrames_ := v.silentFrames_ + 1 } hl
        (fun g hg => by
          show v.voiced g = false
          exact hq g (List.mem_cons_of_mem f hg))
      refine ⟨?_, this.2⟩
      intro b hb
      rcases List.mem_cons.mp hb with h | h
      · rw [h]; exact hl
      · exact this.1 b h

theorem expired_mono {v : VoiceActivityDetector} {fs : Nat} (hfs : 0 < fs) {a b : Int}
    (hab : a ≤ b) (h : v.expired fs a = true) : v.expired fs b = true := by
  unfold expired at h ⊢
  simp only [Bool.or_eq_true, Bool.and_eq_true, decide_eq_true_eq] at h ⊢
  have hfz : (0 : ℤ) < (fs : ℤ) := by exact_mod_cast hfs
  rcases eq_or_lt_of_le hab with he | hlt
  · rw [← he]
    exact h
  · left
    have h1 : a * fs * 1000 < b * fs * 1000 := by nlinarith
    rcases h with h | ⟨h, _⟩
    · omega
    · omega

theorem expired_zero {v : VoiceActivityDetector} {fs : Nat}
    (hsr : 0 < v.sampleRate_) (hT : 0 < v.silenceTimeoutMs_) : v.expired fs 0 = false := by
  unfold expired
  have : 0 < v.silenceTimeoutMs_ * v.sampleRate_ := mul_pos hT hsr
  simp only [zero_mul, Bool.or_eq_false_iff, Bool.and_eq_false_imp, decide_eq_false_iff_not,
    decide_eq_true_eq]
  constructor
  · omega
  · intro h
    omega

/-- Flags of a run of silent frames that starts with the latch set and the
counter at `c`: the `j`-th frame returns true exactly when `c + 1 + j` frames
of silence have not expired. -/
theorem feed_silent_run {fs : Nat} (hfs : 0 < fs) (silents : List (List Int)) :
    ∀ w : VoiceActivityDetector,
      0 < w.sampleRate_ → w.sampleRate_ < 2 ^ 31 → 0 < w.silenceTimeoutMs_ →
      w.silenceTimeoutMs_ * w.sampleRate_ ≤ 2 ^ 51 → 0 ≤ w.silentFrames_ →
      (w.silentFrames_ + silents.length) * fs < 2 ^ 53 → w.voiceDetected_ = true →
      w.expired fs w.silentFrames_ = false →
      (∀ f ∈ silents, f.length = fs ∧ w.voiced f = false) →
      (feed w silents).1 =
          (List.range silents.length).map
            (fun (j : ℕ) => !w.expired fs (w.silentFrames_ + 1 + (j : ℤ))) ∧
        (feed w silents).2.voiceDetected_ = !w.expired fs (w.silentFrames_ + silents.length) := by
  induction silents with
  | nil =>
    intro w _ _ _ _ _ _ hl he _
    simp [feed_nil, hl, he]
  | cons f rest ih =>
    intro w hsr hsr2 hT hTsr hc hlen hl he hq
    obtain ⟨hflen, hf⟩ := hq f (List.mem_cons_self f rest)
    have hfz : (0 : ℤ) < (fs : ℤ) := by exact_mod_cast hfs
    rw [List.length_cons] at hlen ⊢
    push_cast at hlen ⊢
    have hrest0 : (0 : ℤ) ≤ (rest.length : ℤ) := by positivity
    have hto : timedOut { w with silentFrames_ := w.silentFrames_ + 1 } f.length =
        w.expired fs (w.silentFrames_ + 1) := by
      rw [hflen]
      exact timedOut_eq_expired (v := { w with silentFrames_ := w.silentFrames_ + 1 })
        hsr hsr2 (by simp only; omega) (by simp only; nlinarith) (by simp only; omega) hTsr
    rw [feed_cons, processFrame_of_not_voiced hf, hto, List.range_succ_eq_map, List.map_cons,
      List.map_map]
    cases hexp : w.expired fs (w.silentFrames_ + 1)
    · -- not expired: the counter advances and the latch stays set
      simp only [Bool.false_eq_true, if_false]
      have := ih { w with silentFrames_ := w.silentFrames_ + 1 } hsr hsr2 hT hTsr
        (by simp only; omega) (by simp only; nlinarith) hl hexp
        (fun g hg => by
          show g.length = fs ∧ w.voiced g = false
          exact hq g (List.mem_cons_of_mem f hg))
      obtain ⟨h1, h2⟩ := this
      rw [h1, h2, hl]
      refine ⟨?_, ?_⟩
      · congr 1
        · simp [hexp]
        · apply List.map_congr_left
          intro j _
          simp only [Function.comp, Nat.succ_eq_add_one]
          push_cast
          show (!expired w fs (w.silentFrames_ + 1 + 1 + j)) =
            !expired w fs (w.silentFrames_ + 1 + (j + 1))
          rw [add_assoc (w.silentFrames_ + 1) 1 (j : ℤ), add_comm (1 : ℤ) (j : ℤ)]
      · show (!expired w fs (w.silentFrames_ + 1 + rest.length)) =
          !expired w fs (w.silentFrames_ + (rest.length + 1))
        rw [add_assoc w.silentFrames_ 1 (rest.length : ℤ), add_comm (1 : ℤ) (rest.length : ℤ)]
    · -- expired: the latch is cleared and stays cleared
      simp only [if_true]
      have := feed_latch_false rest { w with silentFrames_ := 0, voiceDetected_ := false } rfl
        (fun g hg => by
          show w.voiced g = false
          exact (hq g (List.mem_cons_of_mem f hg)).2)
      obtain ⟨h1, h2⟩ := this
      have hlen2 := feed_length rest { w with silentFrames_ := 0, voiceDetected_ := false }
      have hmono : ∀ j : ℕ, w.expired fs (w.silentFrames_ + 1 + j) = true := fun j =>
        expired_mono hfs (by omega) hexp
      refine ⟨?_, ?_⟩
      · have e1 : (feed { w with silentFrames_ := 0, voiceDetected_ := false } rest).1 =
            List.replicate rest.length false :=
          List.eq_replicate_iff.mpr ⟨hlen2, h1⟩
        have e2 : List.map ((fun j : ℕ => !w.expired fs (w.silentFrames_ + 1 + j)) ∘ Nat.succ)
            (List.range rest.length) = List.replicate rest.length false := by
          apply List.eq_replicate_iff.mpr
          refine ⟨by simp, ?_⟩
          intro b hb
          obtain ⟨j, _, hj⟩ := List.mem_map.mp hb
          rw [← hj]
          simp only [Function.comp]
          rw [hmono]
          rfl
        rw [e1, e2]
        simp [hexp]
      · rw [h2]
        have := hmono rest.length
        have e : w.silentFrames_ + ((rest.length : ℤ) + 1) =
            w.silentFrames_ + 1 + (rest.length : ℤ) := by ring
        rw [e, this]
        rfl

/-- A list of flags `!e 1, …, !e n` for a monotone test `e` is a block of
trues followed by a block of falses. -/
theorem flags_block (e : ℕ → Bool) (hmono : ∀ a b, a ≤ b → e a = true → e b = true) (n : ℕ) :
    ∃ m, m ≤ n ∧
      (List.range n).map (fun j => !e (j + 1)) =
        List.replicate m true ++ List.replicate (n - m) false ∧
      ∀ k, 1 ≤ k → k ≤ n → (k ≤ m ↔ e k = false) := by
  induction n with
  | zero =>
    exact ⟨0, le_refl 0, by simp, fun k h1 h2 => by omega⟩
  | succ n ih =>
    obtain ⟨m, hm, hl, hk⟩ := ih
    rw [List.range_succ, List.map_append, hl]
    cases hen : e (n + 1)
    · -- nothing has expired yet
      have hall : ∀ k, k ≤ n + 1 → e k = false := by
        intro k hkn
        cases hek : e k
        · rfl
        · have := hmono k (n + 1) hkn hek
          rw [hen] at this
          exact absurd this (by simp)
      have hmn : m = n := by
        rcases Nat.eq_zero_or_pos n with h0 | hpos
        · omega
        · have := (hk n hpos (le_refl n)).mpr (hall n (by omega))
          omega
      subst hmn
      refine ⟨m + 1, le_refl _, ?_, fun k _ hk2 => ⟨fun _ => hall k hk2, fun _ => hk2⟩⟩
      simp [hen]
      exact (List.replicate_add _ 1 _).symm
    · refine ⟨m, by omega, ?_, ?_⟩
      · have : n + 1 - m = (n - m) + 1 := by omega
        rw [this]
        simp [hen]
        exact (List.replicate_add _ 1 _).symm
      · intro k h1 h2
        rcases Nat.lt_or_ge k (n + 1) with hlt | hge
        · exact hk k h1 (by omega)
        · have hkn : k = n + 1 := by omega
          subst hkn
          rw [hen]
          constructor
          · intro h
            omega
          · intro h
            exact absurd h (by simp)

theorem neverAbove_take (n : ℕ) : ∀ (ops : List Op) (t : ℚ),
    NeverAbove t ops → NeverAbove t (ops.take n) := by
  induction n with
  | zero =>
    intro ops t _
    simp [NeverAbove]
  | succ n ih =>
    intro ops t h
    cases ops with
    | nil => simp [NeverAbove]
    | cons op rest =>
      cases op with
      | frame samples =>
        rw [List.take_succ_cons]
        exact ⟨h.1, ih rest t h.2⟩
      | setThreshold t2 =>
        rw [List.take_succ_cons]
        exact ⟨h.1, ih rest t2 h.2⟩
      | setSilenceTimeout ms =>
        rw [List.take_succ_cons]
        exact ih rest t h

/-- With the latch false, calls none of whose frames is above the threshold
return false and leave the latch false. -/
theorem runOps_never_above (ops : List Op) : ∀ v : VoiceActivityDetector,
    v.voiceDetected_ = false → IsFloat32 v.threshold_ → NeverAbove v.threshold_ ops →
    (∀ b ∈ (runOps v ops).1, b = false) ∧ (runOps v ops).2.voiceDetected_ = false := by
  induction ops with
  | nil =>
    intro v hl _ _
    exact ⟨by simp [runOps], hl⟩
  | cons op rest ih =>
    intro v hl hthr h
    cases op with
    | frame samples =>
      obtain ⟨⟨h16, hlen, hna⟩, hrest⟩ := h
      have hf := voiced_false_of_not_rmsAbove hthr h16 hlen hna
      have hp := processFrame_of_not_voiced hf
      have hstep : (v.processFrame samples).1 = false ∧
          (v.processFrame samples).2.voiceDetected_ = false ∧
          (v.processFrame samples).2.threshold_ = v.threshold_ := by
        rw [hp]
        split
        · exact ⟨rfl, rfl, rfl⟩
        · exact ⟨hl, hl, rfl⟩
      obtain ⟨s1, s2, s3⟩ := hstep
      have := ih (v.processFrame samples).2 s2 (by rw [s3]; exact hthr)
        (by rw [s3]; exact hrest)
      show (∀ b ∈ (v.processFrame samples).1 :: (runOps (v.processFrame samples).2 rest).1,
        b = false) ∧ (runOps (v.processFrame samples).2 rest).2.voiceDetected_ = false
      refine ⟨?_, this.2⟩
      intro b hb
      rcases List.mem_cons.mp hb with h | h
      · rw [h]; exact s1
      · exact this.1 b h
    | setThreshold t =>
      exact ih (v.setThreshold t) hl h.1 h.2
    | setSilenceTimeout ms =>
      exact ih (v.setSilenceTimeout ms) hl hthr h

end VoiceActivityDetector


section RunProperties

open VoiceActivityDetector

/-- C14 (as stated, refuted): at 16 kHz with frames of 480 samples and a
timeout of 2010 ms, the first `k` with `k · fs · 1000 ≥ T · sampleRate` is 67,
yet after one loud frame `processFrame` returns true on each of the first 67
silent frames and false only on the 68th. -/
theorem vad_hysteresis_run_counterexample :
    RmsAbove (List.replicate 480 1000) ((new 16000 480).setSilenceTimeout 2010).threshold_ ∧
      ¬ RmsAbove (List.replicate 480 0) ((new 16000 480).setSilenceTimeout 2010).threshold_ ∧
      (66 * 480 * 1000 < ((new 16000 480).setSilenceTimeout 2010).silenceTimeoutMs_ * 16000 ∧
        ((new 16000 480).setSilenceTimeout 2010).silenceTimeoutMs_ * 16000 ≤ 67 * 480 * 1000) ∧
      (feed ((new 16000 480).setSilenceTimeout 2010)
          (List.replicate 480 1000 :: List.replicate 68 (List.replicate 480 0))).1 =
        List.replicate 68 true ++ [false] := by
  refine ⟨by decide!, by decide!, by decide, by decide!⟩

/-- C14 (amended): for `sampleRate > 0`, timeout `T > 0` and frame size
`fs > 0`, after one frame whose exact RMS exceeds the threshold by the margin
`2 ^ -52` followed by `n` frames of `fs` samples whose exact RMS does not
exceed the threshold, the returned flags are `m + 1` trues followed by `n - m`
falses, and the latch at the end is set exactly when `m = n`. The number `m`
of silent frames that return true contains every `k` with
`k · fs · 1000 < T · sampleRate`, no `k` with `k · fs · 1000 > T · sampleRate`,
and the `k` with `k · fs · 1000 = T · sampleRate` exactly when the timeout
does not survive the round trip `T / 1000.0 * 1000.0 >= T`. -/
theorem vad_hysteresis_run (v : VoiceActivityDetector) (loud : List Int)
    (silents : List (List Int)) (fs : Nat)
    (hthr : IsFloat32 v.threshold_)
    (hsr : 0 < v.sampleRate_) (hsr2 : v.sampleRate_ < 2 ^ 31)
    (hT : 0 < v.silenceTimeoutMs_) (hTsr : v.silenceTimeoutMs_ * v.sampleRate_ ≤ 2 ^ 51)
    (hfs : 0 < fs) (hfs2 : fs < 2 ^ 23) (hn : silents.length * fs < 2 ^ 53)
    (hloud : Int16Frame loud ∧ loud.length < 2 ^ 23 ∧
      RmsAbove loud (v.threshold_ * (1 + 2 ^ (-52 : ℤ))))
    (hsil : ∀ f ∈ silents, f.length = fs ∧ Int16Frame f ∧ ¬ RmsAbove f v.threshold_) :
    ∃ m, m ≤ silents.length ∧
      (feed v (loud :: silents)).1 =
        List.replicate (m + 1) true ++ List.replicate (silents.length - m) false ∧
      (feed v (loud :: silents)).2.voiceDetected_ = decide (m = silents.length) ∧
      (∀ k : ℕ, 1 ≤ k → k ≤ silents.length →
        (k : ℤ) * fs * 1000 < v.silenceTimeoutMs_ * v.sampleRate_ → k ≤ m) ∧
      (∀ k : ℕ, k ≤ silents.length →
        v.silenceTimeoutMs_ * v.sampleRate_ < (k : ℤ) * fs * 1000 → m < k) ∧
      (∀ k : ℕ, k ≤ silents.length →
        (k : ℤ) * fs * 1000 = v.silenceTimeoutMs_ * v.sampleRate_ →
        (k ≤ m ↔ roundTrips v.silenceTimeoutMs_ = false)) := by
  obtain ⟨hl16, hllen, hlabove⟩ := hloud
  have hTS : 0 < v.silenceTimeoutMs_ * v.sampleRate_ := mul_pos hT hsr
  have hrun := feed_silent_run hfs silents { v with silentFrames_ := 0, voiceDetected_ := true }
    hsr hsr2 hT hTsr (le_refl 0)
    (by
      simp only [zero_add]
      exact_mod_cast hn)
    rfl (expired_zero hsr hT)
    (fun f hf => by
      obtain ⟨h1, h2, h3⟩ := hsil f hf
      refine ⟨h1, ?_⟩
      show v.voiced f = false
      exact voiced_false_of_not_rmsAbove hthr h2 (by omega) h3)
  obtain ⟨hflags, hlatch⟩ := hrun
  obtain ⟨m, hm, hblock, hk⟩ := flags_block (fun k : ℕ => v.expired fs (k : ℤ))
    (fun a b hab h => expired_mono hfs (by exact_mod_cast hab) h) silents.length
  have hmap : (List.range silents.length).map
      (fun (j : ℕ) => !expired { v with silentFrames_ := 0, voiceDetected_ := true } fs
        ((0 : ℤ) + 1 + (j : ℤ))) =
      (List.range silents.length).map (fun j => !(fun k : ℕ => v.expired fs (k : ℤ)) (j + 1)) := by
    apply List.map_congr_left
    intro j _
    show (!v.expired fs ((0 : ℤ) + 1 + (j : ℤ))) = !v.expired fs (((j + 1 : ℕ) : ℤ))
    congr 2
    push_cast
    ring
  have hexp : ∀ k : ℕ, v.expired fs (k : ℤ) = true ↔
      (v.silenceTimeoutMs_ * v.sampleRate_ < (k : ℤ) * fs * 1000 ∨
        ((k : ℤ) * fs * 1000 = v.silenceTimeoutMs_ * v.sampleRate_ ∧
          roundTrips v.silenceTimeoutMs_ = true)) := by
    intro k
    unfold expired
    simp only [Bool.or_eq_true, Bool.and_eq_true, decide_eq_true_eq]
  have hkpos : ∀ k : ℕ, v.silenceTimeoutMs_ * v.sampleRate_ ≤ (k : ℤ) * fs * 1000 → 1 ≤ k := by
    intro k h
    by_contra h0
    have hk0 : k = 0 := by omega
    subst hk0
    simp only [Nat.cast_zero, zero_mul] at h
    omega
  refine ⟨m, hm, ?_, ?_, ?_, ?_, ?_⟩
  · rw [feed_cons, processFrame_of_voiced (voiced_of_margin hl16 hllen hlabove), hflags]
    simp only
    rw [hmap, hblock]
    rfl
  · rw [feed_cons, processFrame_of_voiced (voiced_of_margin hl16 hllen hlabove), hlatch]
    simp only [zero_add]
    show (!v.expired fs (silents.length : ℤ)) = decide (m = silents.length)
    rcases Nat.eq_zero_or_pos silents.length with h0 | hpos
    · have hm0 : m = 0 := by omega
      rw [h0, hm0]
      simp only [Nat.cast_zero]
      rw [expired_zero hsr hT]
      rfl
    · have := hk silents.length hpos (le_refl _)
      cases he : v.expired fs (silents.length : ℤ)
      · have h1 : silents.length ≤ m := this.mpr he
        have h2 : m = silents.length := by omega
        simp [h2]
      · have h1 : ¬ silents.length ≤ m := fun h => by
          have := this.mp h
          rw [he] at this
          exact absurd this (by simp)
        have h2 : m ≠ silents.length := by omega
        simp [h2]
  · intro k h1 h2 hlt
    apply (hk k h1 h2).mpr
    cases he : v.expired fs (k : ℤ)
    · rfl
    · rcases (hexp k).mp he with h | ⟨h, _⟩ <;> omega
  · intro k h2 hgt
    have h1 := hkpos k (by omega)
    have he : v.expired fs (k : ℤ) = true := (hexp k).mpr (Or.inl hgt)
    by_contra hcon
    have := (hk k h1 h2).mp (by omega)
    rw [he] at this
    exact absurd this (by simp)
  · intro k h2 heq
    have h1 := hkpos k (by omega)
    rw [hk k h1 h2]
    cases hr : roundTrips v.silenceTimeoutMs_
    · constructor
      · intro _; rfl
      · intro _
        cases he : v.expired fs (k : ℤ)
        · rfl
        · rcases (hexp k).mp he with h | ⟨_, h⟩
          · omega
          · rw [hr] at h
            exact absurd h (by simp)
    · constructor
      · intro he
        have := (hexp k).mpr (Or.inr ⟨heq, hr⟩)
        rw [he] at this
        exact absurd this (by simp)
      · intro h
        exact absurd h (by simp)

/-- C14 witness: at 8 kHz with frames of 4 samples and a timeout of 1 ms, the
second silent frame reaches the timeout; the flags are true for the loud frame
and the first silent frame, false afterwards. -/
theorem vad_hysteresis_run_witness :
    (feed quickDetector ([20000, 20000, 20000, 20000] :: List.replicate 3 [0, 0, 0, 0])).1 =
      [true, true, false, false] := by
  obtain ⟨m, _, hflags, _, h1, _, h3⟩ :=
    vad_hysteresis_run quickDetector [20000, 20000, 20000, 20000]
      (List.replicate 3 [0, 0, 0, 0]) 4
      ⟨10737418, -30, by norm_num, by norm_num, by
        norm_num [quickDetector, VoiceActivityDetector.new,
          VoiceActivityDetector.setSilenceTimeout]⟩
      (by decide) (by decide) (by decide) (by decide) (by decide) (by decide) (by decide)
      ⟨by decide, by decide, by decide!⟩
      (fun f hf => by
        rw [List.eq_of_mem_replicate hf]
        exact ⟨rfl, by decide, by decide!⟩)
  have ha : 1 ≤ m := h1 1 (le_refl 1) (by decide) (by decide)
  have hb : ¬ 2 ≤ m := fun h => by
    have := (h3 2 (by decide) (by decide)).mp h
    exact absurd this (by decide!)
  have hm : m = 1 := by omega
  rw [hflags, hm]
  rfl

/-- C15: for a freshly constructed detector and every sequence of calls
(frames, `setThreshold`, `setSilenceTimeout`) in which no frame has an exact
RMS strictly above the threshold in force, every `processFrame` call returns
false and the latch is false after every prefix of the sequence. -/
theorem vad_never_active (sampleRate frameSize : Int) (ops : List Op)
    (h : NeverAbove (new sampleRate frameSize).threshold_ ops) :
    (∀ b ∈ (runOps (new sampleRate frameSize) ops).1, b = false) ∧
      ∀ n, (runOps (new sampleRate frameSize) (ops.take n)).2.voiceDetected_ = false := by
  have hthr : IsFloat32 (new sampleRate frameSize).threshold_ :=
    ⟨10737418, -30, by norm_num, by norm_num, by norm_num [VoiceActivityDetector.new]⟩
  refine ⟨(runOps_never_above ops _ rfl hthr h).1, fun n => ?_⟩
  exact (runOps_never_above (ops.take n) _ rfl hthr (neverAbove_take n ops _ h)).2

/-- C15 witness: silence, a quiet frame under a raised threshold, and a frame
after a change of the timeout. -/
theorem vad_never_active_witness :
    NeverAbove (new 16000 2).threshold_
        [Op.frame [0, 0], Op.setThreshold (1 / 2), Op.frame [16000, -16000],
          Op.setSilenceTimeout 0, Op.frame [3]] ∧
      (∀ b ∈ (runOps (new 16000 2)
        [Op.frame [0, 0], Op.setThreshold (1 / 2), Op.frame [16000, -16000],
          Op.setSilenceTimeout 0, Op.frame [3]]).1, b = false) ∧
      ∀ n, (runOps (new 16000 2)
        (List.take n [Op.frame [0, 0], Op.setThreshold (1 / 2), Op.frame [16000, -16000],
          Op.setSilenceTimeout 0, Op.frame [3]])).2.voiceDetected_ = false := by
  have hq : NeverAbove (new 16000 2).threshold_
      [Op.frame [0, 0], Op.setThreshold (1 / 2), Op.frame [16000, -16000],
        Op.setSilenceTimeout 0, Op.frame [3]] :=
    ⟨⟨by decide, by decide, by decide!⟩, ⟨1, -1, by norm_num, by norm_num, by norm_num⟩,
      ⟨by decide, by decide, by decide!⟩, ⟨by decide, by decide, by decide!⟩, trivial⟩
  exact ⟨hq, vad_never_active 16000 2 _ hq⟩

end RunProperties


/-! ## Resampler: interpolation at exact positions -/

namespace AudioResampler

theorem floor_dyadic (k s : ℕ) : ⌊(k : ℚ) * 2 ^ (-(s : ℤ))⌋₊ = k / 2 ^ s := by
  rw [zpow_neg, zpow_natCast, ← div_eq_mul_inv]
  have : (k : ℚ) / 2 ^ s = (k : ℚ) / ((2 ^ s : ℕ) : ℚ) := by push_cast; rfl
  rw [this, Nat.floor_div_eq_div]

theorem int16_mul_bound {a e : ℤ} (ha : -32768 ≤ a ∧ a ≤ 32767) (he : 0 ≤ e) :
    -(32768 * e) ≤ a * e ∧ a * e ≤ 32768 * e := by
  obtain ⟨h1, h2⟩ := ha
  constructor <;> nlinarith

/-- When the double-precision position of output index `i` is the number
`k / 2 ^ s` with at most 36 fractional bits, every operation of the
interpolation is exact and the output sample is the interpolation at that
position. -/
theorem outputSample_of_dyadic (r : AudioResampler) (input : List Int) (i k s : ℕ)
    (hidx : fdiv (ofSize i) r.ratio_ = (k : ℚ) * 2 ^ (-(s : ℤ)))
    (hk : k < 2 ^ 53) (hs : s ≤ 36)
    (hrange : ∀ x ∈ input, -32768 ≤ x ∧ x ≤ 32767) :
    outputSample r input i = specInterpolate input ((k : ℚ) * 2 ^ (-(s : ℤ))) := by
  have hpow : 0 < 2 ^ s := by positivity
  have hq53 : k / 2 ^ s < 2 ^ 53 := lt_of_le_of_lt (Nat.div_le_self k (2 ^ s)) hk
  have hr0 : k % 2 ^ s < 2 ^ s := Nat.mod_lt k hpow
  have h2s : 2 ^ s ≤ 2 ^ 36 := Nat.pow_le_pow_right (by norm_num) hs
  have hP : (0 : ℚ) < 2 ^ (-(s : ℤ)) := by positivity
  have h2P : ((2 ^ s : ℕ) : ℚ) * 2 ^ (-(s : ℤ)) = 1 := by
    push_cast
    rw [zpow_neg, zpow_natCast]
    exact mul_inv_cancel₀ (by positivity)
  have hkq : (k : ℚ) = ((k / 2 ^ s : ℕ) : ℚ) * ((2 ^ s : ℕ) : ℚ) + ((k % 2 ^ s : ℕ) : ℚ) := by
    have := Nat.div_add_mod k (2 ^ s)
    have h2 : ((2 ^ s * (k / 2 ^ s) + k % 2 ^ s : ℕ) : ℚ) = (k : ℚ) := by rw [this]
    rw [← h2]
    push_cast
    ring
  have hfrac : (k : ℚ) * 2 ^ (-(s : ℤ)) - ((k / 2 ^ s : ℕ) : ℚ) =
      (((k % 2 ^ s : ℕ) : ℤ) : ℚ) * 2 ^ (-(s : ℤ)) := by
    rw [Int.cast_natCast]
    linear_combination (2 : ℚ) ^ (-(s : ℤ)) * hkq + ((k / 2 ^ s : ℕ) : ℚ) * h2P
  have hone : (1 : ℚ) - (((k % 2 ^ s : ℕ) : ℤ) : ℚ) * 2 ^ (-(s : ℤ)) =
      (((2 ^ s : ℕ) : ℤ) - ((k % 2 ^ s : ℕ) : ℤ) : ℤ) * 2 ^ (-(s : ℤ)) := by
    rw [Int.cast_sub, Int.cast_natCast, Int.cast_natCast]
    linear_combination -h2P
  have efrac : fsub ((k : ℚ) * 2 ^ (-(s : ℤ))) (ofSize (k / 2 ^ s)) =
      (((k % 2 ^ s : ℕ) : ℤ) : ℚ) * 2 ^ (-(s : ℤ)) := by
    unfold fsub
    rw [ofSize_exact hq53, hfrac]
    exact rnd_exact _ _ (by rw [abs_of_nonneg (by positivity)]; omega) (by omega)
  have eone : fsub 1 ((((k % 2 ^ s : ℕ) : ℤ) : ℚ) * 2 ^ (-(s : ℤ))) =
      (((2 ^ s : ℕ) : ℤ) - ((k % 2 ^ s : ℕ) : ℤ) : ℤ) * 2 ^ (-(s : ℤ)) := by
    unfold fsub
    rw [hone]
    exact rnd_exact _ _ (by rw [abs_lt]; constructor <;> omega) (by omega)
  have hsz : szAdd (k / 2 ^ s) 1 = k / 2 ^ s + 1 := by
    unfold szAdd SIZE_MOD
    exact Nat.mod_eq_of_lt (by omega)
  unfold outputSample specInterpolate
  simp only [hidx, toSize, floor_dyadic, efrac, eone, hsz, hfrac]
  split
  · next hlt =>
    have ha := hrange (input.getD (k / 2 ^ s) 0) (by
      rw [List.getD_eq_getElem _ _ (by omega : k / 2 ^ s < input.length)]
      exact List.getElem_mem _)
    have hb := hrange (input.getD (k / 2 ^ s + 1) 0) (by
      rw [List.getD_eq_getElem _ _ hlt]
      exact List.getElem_mem _)
    generalize input.getD (k / 2 ^ s) 0 = a at ha ⊢
    generalize input.getD (k / 2 ^ s + 1) 0 = b at hb ⊢
    generalize hc : ((k % 2 ^ s : ℕ) : ℤ) = c
    generalize hd : ((2 ^ s : ℕ) : ℤ) = d
    have hc0 : 0 ≤ c := by rw [← hc]; positivity
    have hcd : c < d := by rw [← hc, ← hd]; exact_mod_cast hr0
    have hd36 : d ≤ 2 ^ 36 := by rw [← hd]; exact_mod_cast h2s
    have ea : ofInt a = (a : ℚ) := ofInt_exact (by rw [abs_lt]; constructor <;> omega)
    have eb : ofInt b = (b : ℚ) := ofInt_exact (by rw [abs_lt]; constructor <;> omega)
    obtain ⟨a1, a2⟩ := int16_mul_bound ha (by omega : 0 ≤ d - c)
    obtain ⟨c1, c2⟩ := int16_mul_bound hb hc0
    have b1 : |a * (d - c)| < 2 ^ 53 := by
      rw [abs_lt]
      constructor <;> omega
    have b2 : |b * c| < 2 ^ 53 := by
      rw [abs_lt]
      constructor <;> omega
    have b3 : |a * (d - c) + b * c| < 2 ^ 53 := by
      rw [abs_lt]
      constructor <;> omega
    have m1 : fmul (a : ℚ) (((d - c : ℤ) : ℚ) * 2 ^ (-(s : ℤ))) =
        ((a * (d - c) : ℤ) : ℚ) * 2 ^ (-(s : ℤ)) := by
      unfold fmul
      rw [← mul_assoc, ← Int.cast_mul]
      exact rnd_exact _ _ b1 (by omega)
    have m2 : fmul (b : ℚ) ((c : ℚ) * 2 ^ (-(s : ℤ))) =
        ((b * c : ℤ) : ℚ) * 2 ^ (-(s : ℤ)) := by
      unfold fmul
      rw [← mul_assoc, ← Int.cast_mul]
      exact rnd_exact _ _ b2 (by omega)
    have m3 : fadd (((a * (d - c) : ℤ) : ℚ) * 2 ^ (-(s : ℤ)))
        (((b * c : ℤ) : ℚ) * 2 ^ (-(s : ℤ))) =
        ((a * (d - c) + b * c : ℤ) : ℚ) * 2 ^ (-(s : ℤ)) := by
      unfold fadd
      rw [← add_mul, ← Int.cast_add]
      exact rnd_exact _ _ b3 (by omega)
    rw [ea, eb, m1, m2, m3]
    congr 1
    have hdP : (d : ℚ) * 2 ^ (-(s : ℤ)) = 1 := by
      rw [← hd]
      exact_mod_cast h2P
    push_cast
    linear_combination (a : ℚ) * hdP
  · rfl

end AudioResampler

namespace AudioResampler

theorem resample_getElem_of_dyadic {inputRate outputRate channels : Int} {input : List Int}
    (hne : inputRate ≠ outputRate) {i k s : ℕ}
    (hi : i < (resample (new inputRate outputRate channels) input).length)
    (hidx : fdiv (ofSize i) (new inputRate outputRate channels).ratio_ =
      (k : ℚ) * 2 ^ (-(s : ℤ)))
    (hexact : (i : ℚ) * inputRate / outputRate = (k : ℚ) * 2 ^ (-(s : ℤ)))
    (hk : k < 2 ^ 53) (hs : s ≤ 36)
    (hrange : ∀ x ∈ input, -32768 ≤ x ∧ x ≤ 32767) :
    (resample (new inputRate outputRate channels) input)[i]? =
      some (specSample inputRate outputRate input i) := by
  have hne2 : (new inputRate outputRate channels).inputRate_ ≠
      (new inputRate outputRate channels).outputRate_ := hne
  rw [resample_of_ne hne2, List.length_map, List.length_range] at hi
  rw [resample_of_ne hne2, getElem?_map_range hi,
    outputSample_of_dyadic _ _ _ k s hidx hk hs hrange]
  unfold specSample
  rw [hexact]

end AudioResampler

section InterpolationProperties

open AudioResampler

/-- C11 (as stated, refuted): from 44.1 kHz to 16 kHz the third output sample
of the nine input samples below is 77, whereas the formula at the exact
position `p = 2 · 44100 / 16000 = 5.5125` gives `160 · 0.4875 = 78`. The
double-precision position and weights carry rounding errors and the sum falls
just below 78 before the truncation. -/
theorem resample_interpolation_counterexample :
    (resample (new 44100 16000 1) [0, 0, 0, 0, 0, 160, 0, 0, 0])[2]? = some 77 ∧
      specSample 44100 16000 [0, 0, 0, 0, 0, 160, 0, 0, 0] 2 = 78 := by
  constructor <;> decide!

/-- C11 (amended). For positive `int` rates and 16-bit samples, output sample
`i` equals the interpolation of the specification at the exact position
`p = i · inputRate / outputRate` (with the nearest-sample fallback when the
partner is out of range) when `outputRate = 2 ^ s · inputRate`, when
`inputRate = 2 ^ s · outputRate`, and for any differing rates whenever the
double-precision position `i / ratio_` equals `p` and `p` has at most 36
fractional bits. -/
theorem resample_interpolation (inputRate outputRate channels : Int)
    (hin : 0 < inputRate) (hin2 : inputRate < 2 ^ 31)
    (hout : 0 < outputRate) (hout2 : outputRate < 2 ^ 31) (input : List Int)
    (hrange : ∀ x ∈ input, -32768 ≤ x ∧ x ≤ 32767) :
    (∀ s : ℕ, outputRate = 2 ^ s * inputRate → 1 ≤ s → input.length * 2 ^ s < 2 ^ 53 →
      ∀ i : ℕ, i < (resample (new inputRate outputRate channels) input).length →
        (resample (new inputRate outputRate channels) input)[i]? =
          some (specSample inputRate outputRate input i)) ∧
    (∀ s : ℕ, inputRate = 2 ^ s * outputRate → 1 ≤ s → input.length < 2 ^ 53 →
      ∀ i : ℕ, i < (resample (new inputRate outputRate channels) input).length →
        (resample (new inputRate outputRate channels) input)[i]? =
          some (specSample inputRate outputRate input i)) ∧
    (inputRate ≠ outputRate →
      ∀ i k s : ℕ, i < (resample (new inputRate outputRate channels) input).length →
        k < 2 ^ 53 → s ≤ 36 →
        fdiv (ofSize i) (new inputRate outputRate channels).ratio_ =
          (i : ℚ) * inputRate / outputRate →
        (i : ℚ) * inputRate / outputRate = (k : ℚ) * 2 ^ (-(s : ℤ)) →
        (resample (new inputRate outputRate channels) input)[i]? =
          some (specSample inputRate outputRate input i)) := by
  have hiq : (inputRate : ℚ) ≠ 0 := by exact_mod_cast ne_of_gt hin
  have hoq : (outputRate : ℚ) ≠ 0 := by exact_mod_cast ne_of_gt hout
  refine ⟨?_, ?_, ?_⟩
  · intro s hs hs1 hN i hi
    have h2s : (2 : ℤ) ≤ 2 ^ s := by
      calc (2 : ℤ) = 2 ^ 1 := by norm_num
        _ ≤ 2 ^ s := pow_le_pow_right₀ (by norm_num) hs1
    have hne : inputRate ≠ outputRate := by
      intro h
      rw [← h] at hs
      nlinarith
    have hs31 : (2 : ℤ) ^ s < 2 ^ 31 := by
      have : (2 : ℤ) ^ s ≤ 2 ^ s * inputRate := by
        have h0 : (0 : ℤ) < 2 ^ s := by positivity
        nlinarith
      omega
    have hs30 : s < 31 := (pow_lt_pow_iff_right₀ (by norm_num : (1 : ℤ) < 2)).mp hs31
    have hpn : (2 : ℕ) ^ s < 2 ^ 53 :=
      lt_of_lt_of_le (by exact_mod_cast hs31) (by norm_num)
    have hms : outputRate * 2 ^ 0 = ((2 ^ s : ℕ) : ℤ) * inputRate := by
      rw [hs]
      push_cast
      ring
    have hr := ratio_of_dyadic channels hin hin2 hout hout2 hms hpn
    have hr2 : (new inputRate outputRate channels).ratio_ = (2 : ℚ) ^ s := by
      rw [hr]
      push_cast
      simp
    have hframes := outputFrames_of_dyadic input.length hr (by norm_num) hN (by positivity)
    have hi2 := hi
    rw [resample_of_ne hne, List.length_map, List.length_range, hframes, Nat.pow_zero,
      Nat.div_one] at hi2
    have hi53 : i < 2 ^ 53 := lt_trans hi2 hN
    have hpos : (i : ℚ) / 2 ^ s = ((i : ℤ) : ℚ) * 2 ^ (-(s : ℤ)) := by
      rw [zpow_neg, zpow_natCast, Int.cast_natCast, div_eq_mul_inv]
    have hidx : fdiv (ofSize i) (new inputRate outputRate channels).ratio_ =
        (i : ℚ) * 2 ^ (-(s : ℤ)) := by
      unfold fdiv
      rw [ofSize_exact hi53, hr2, hpos, rnd_exact _ _
        (by rw [abs_of_nonneg (by positivity)]; exact_mod_cast hi53) (by omega),
        Int.cast_natCast]
    have hexact : (i : ℚ) * inputRate / outputRate = (i : ℚ) * 2 ^ (-(s : ℤ)) := by
      rw [hs, zpow_neg, zpow_natCast]
      push_cast
      field_simp
      ring
    exact resample_getElem_of_dyadic hne hi hidx hexact hi53 (by omega) hrange
  · intro s hs hs1 hN i hi
    have h2s : (2 : ℤ) ≤ 2 ^ s := by
      calc (2 : ℤ) = 2 ^ 1 := by norm_num
        _ ≤ 2 ^ s := pow_le_pow_right₀ (by norm_num) hs1
    have hne : inputRate ≠ outputRate := by
      intro h
      rw [h] at hs
      nlinarith
    have hms : outputRate * 2 ^ s = ((1 : ℕ) : ℤ) * inputRate := by
      rw [hs]
      push_cast
      ring
    have hr := ratio_of_dyadic channels hin hin2 hout hout2 hms (by norm_num)
    obtain ⟨hs74, _⟩ := dyadic_exponent_bound hin hin2 hout hms (by norm_num)
    have hframes := outputFrames_of_dyadic input.length hr hs74 (by omega) (by omega)
    rw [Nat.mul_one] at hframes
    have hi2 := hi
    rw [resample_of_ne hne, List.length_map, List.length_range, hframes] at hi2
    have hpos : 0 < 2 ^ s := by positivity
    have hlt : 2 ^ s * i < input.length := by
      have h1 : (i + 1) * 2 ^ s ≤ input.length := (Nat.le_div_iff_mul_le hpos).mp hi2
      have h2 : 2 ^ s * i < (i + 1) * 2 ^ s := by
        rw [Nat.mul_comm]
        exact Nat.mul_lt_mul_of_pos_right (Nat.lt_succ_self i) hpos
      omega
    have hi53 : i < 2 ^ 53 := by
      have : i ≤ 2 ^ s * i := Nat.le_mul_of_pos_left i hpos
      omega
    have hidx : fdiv (ofSize i) (new inputRate outputRate channels).ratio_ =
        ((2 ^ s * i : ℕ) : ℚ) * 2 ^ (-((0 : ℕ) : ℤ)) := by
      unfold fdiv
      rw [ofSize_exact hi53, hr]
      have e : (i : ℚ) / (((1 : ℕ) : ℚ) * 2 ^ (-(s : ℤ))) = ((2 ^ s * i : ℕ) : ℚ) := by
        rw [zpow_neg, zpow_natCast]
        push_cast
        field_simp
        ring
      rw [e]
      simp only [Nat.cast_zero, neg_zero, zpow_zero, mul_one]
      exact rnd_natCast _ (by omega)
    have hexact : (i : ℚ) * inputRate / outputRate =
        ((2 ^ s * i : ℕ) : ℚ) * 2 ^ (-((0 : ℕ) : ℤ)) := by
      rw [hs]
      push_cast
      field_simp
      ring
    exact resample_getElem_of_dyadic hne hi hidx hexact (by omega) (by norm_num) hrange
  · intro hne i k s hi hk hs hidx hexact
    exact resample_getElem_of_dyadic hne hi (hidx.trans hexact) hexact hk hs hrange

/-- C11 witness: up-sampling by two interpolates half-way between neighbours
(`(10 − 20) / 2 = −5`) and takes the last sample where it has no partner;
down-sampling by two picks every second sample. -/
theorem resample_interpolation_witness :
    (resample (new 16000 32000 1) [10, -20, 30])[1]? =
        some (specSample 16000 32000 [10, -20, 30] 1) ∧
      specSample 16000 32000 [10, -20, 30] 1 = -5 ∧
      specSample 16000 32000 [10, -20, 30] 5 = 30 ∧
      (resample (new 32000 16000 1) [10, -20, 30, 40])[1]? =
        some (specSample 32000 16000 [10, -20, 30, 40] 1) :=
  ⟨(resample_interpolation 16000 32000 1 (by decide) (by decide) (by decide) (by decide)
      [10, -20, 30] (by decide)).1 1 (by decide) (by decide) (by decide) 1 (by decide!),
    by decide!, by decide!,
    (resample_interpolation 32000 16000 1 (by decide) (by decide) (by decide) (by decide)
      [10, -20, 30, 40] (by decide)).2.1 1 (by decide) (by decide) (by decide) 1 (by decide!)⟩

end InterpolationProperties


/-! ## Ring buffer: slot accesses and ownership -/

namespace AudioRingBuffer

theorem loopSlots_lt {cap : Nat} (hcap : 0 < cap) (n : Nat) :
    ∀ start : Nat, start < cap → ∀ j ∈ loopSlots cap start n, j < cap := by
  induction n with
  | zero =>
    intro start _ j hj
    simp [loopSlots] at hj
  | succ n ih =>
    intro start hs j hj
    rcases List.mem_cons.mp hj with h | h
    · rw [h]; exact hs
    · exact ih _ (Nat.mod_lt _ hcap) j h

/-- The samples copied by the loop of `read` are the slots at the visited
indices. -/
theorem readLoop_eq_map (cap : Nat) (buf : List Int) (n : Nat) :
    ∀ head : Nat,
      (readLoop cap buf head n).1 = (loopSlots cap head n).map (fun j => buf.getD j 0) := by
  induction n with
  | zero => intro head; rfl
  | succ n ih =>
    intro head
    show buf.getD head 0 :: (readLoop cap buf (szAdd head 1 % cap) n).1 = _
    rw [ih]
    rfl

/-- The loop of `write` stores the samples at the visited indices, one after
the other. -/
theorem writeLoop_eq_foldl (cap : Nat) (data : List Int) :
    ∀ (buf : List Int) (tail : Nat),
      (writeLoop cap buf tail data).1 =
        ((loopSlots cap tail data.length).zip data).foldl (fun b jx => b.set jx.1 jx.2) buf := by
  induction data with
  | nil => intro buf tail; rfl
  | cons x xs ih =>
    intro buf tail
    show (writeLoop cap (buf.set tail x) (szAdd tail 1 % cap) xs).1 = _
    rw [ih]
    rfl

/-- A slot that the loop of `write` does not visit keeps its sample. -/
theorem writeLoop_getD_of_not_mem (cap : Nat) (data : List Int) :
    ∀ (buf : List Int) (tail j : Nat), j ∉ loopSlots cap tail data.length →
      (writeLoop cap buf tail data).1.getD j 0 = buf.getD j 0 := by
  induction data with
  | nil => intro buf tail j _; rfl
  | cons x xs ih =>
    intro buf tail j hj
    have h1 : j ≠ tail := fun e => hj (by rw [e]; exact List.mem_cons_self _ _)
    have h2 : j ∉ loopSlots cap (szAdd tail 1 % cap) xs.length :=
      fun e => hj (List.mem_cons_of_mem _ e)
    show (writeLoop cap (buf.set tail x) (szAdd tail 1 % cap) xs).1.getD j 0 = _
    rw [ih _ _ _ h2]
    simp only [List.getD_eq_getElem?_getD]
    rw [List.getElem?_set_ne (fun e => h1 e.symm)]

theorem write_head (rb : AudioRingBuffer) (data : List Int) :
    (rb.write data).2.head_ = rb.head_ := by
  unfold write
  simp only
  split <;> rfl

theorem write_capacity (rb : AudioRingBuffer) (data : List Int) :
    (rb.write data).2.capacity_ = rb.capacity_ := by
  unfold write
  simp only
  split <;> rfl

theorem write_getD_of_not_mem (rb : AudioRingBuffer) (data : List Int) (j : Nat)
    (hj : j ∉ writeAccesses rb data) :
    (rb.write data).2.buffer_.getD j 0 = rb.buffer_.getD j 0 := by
  unfold writeAccesses at hj
  unfold write
  simp only
  split
  · rfl
  · next h =>
    rw [if_neg h] at hj
    exact writeLoop_getD_of_not_mem _ _ _ _ _ hj

end AudioRingBuffer

section RingBufferSafety

open AudioRingBuffer

/-- C27. In every state reachable from `AudioRingBuffer(C)` by `write`, `read`
and `clear`, `head_ < C + 1`, `tail_ < C + 1` and the storage has `C + 1`
slots; every index at which `write` and `read` access `buffer_` is below the
number of slots, and `read` returns the samples found at those indices (the
default of the total lookup is never taken). -/
theorem ring_indices_in_range (C : Nat) (hC : C < 2 ^ 63) (rb : AudioRingBuffer)
    (hr : Reachable C rb) (data : List Int) (count : Nat) :
    rb.head_ < C + 1 ∧ rb.tail_ < C + 1 ∧ rb.buffer_.length = C + 1 ∧
    (∀ j ∈ writeAccesses rb data, j < rb.buffer_.length) ∧
    (∀ j ∈ readAccesses rb count, j < rb.buffer_.length) ∧
    (rb.read count).2.1.map some = (readAccesses rb count).map (fun j => rb.buffer_[j]?) := by
  have h := reachable_inv hC hr
  have hread : ∀ j ∈ readAccesses rb count, j < rb.buffer_.length := by
    intro j hj
    rw [h.len, ← h.cap]
    exact loopSlots_lt (by rw [h.cap]; omega) _ _ (by rw [h.cap]; exact h.head) j hj
  refine ⟨h.head, h.tail, h.len, ?_, hread, ?_⟩
  · intro j hj
    unfold writeAccesses at hj
    split at hj
    · simp at hj
    · rw [h.len, ← h.cap]
      exact loopSlots_lt (by rw [h.cap]; omega) _ _ (by rw [h.cap]; exact h.tail) j hj
  · rw [read_eq]
    show (readLoop rb.capacity_ rb.buffer_ rb.head_ (min count rb.available)).1.map some = _
    rw [readLoop_eq_map, List.map_map]
    apply List.map_congr_left
    intro j hj
    have hlt := hread j hj
    simp only [Function.comp, List.getD_eq_getElem?_getD]
    rw [List.getElem?_eq_getElem hlt]
    rfl

/-- C27 witness: the wrapped capacity-2 buffer; a write of two samples visits
the slots 2 and 0. -/
theorem ring_indices_in_range_witness :
    wrapState.head_ < 3 ∧ wrapState.tail_ < 3 ∧ writeAccesses wrapState [7, 8] = [2, 0] ∧
      ∀ j ∈ writeAccesses wrapState [7, 8], j < wrapState.buffer_.length :=
  have h := ring_indices_in_range 2 (by decide)
    wrapState (Reachable.read 2 (Reachable.write [1, 2] Reachable.init)) [7, 8] 0
  ⟨h.1, h.2.1, by decide, h.2.2.2.1⟩

/-- C30. `write` never modifies `head_` (whether it succeeds or fails), and
`read` never modifies `tail_`, a slot or the capacity; `write` changes no slot
other than those it visits. In a reachable state the samples stored and unread
stay in their slots across a `write`, the contents after a `write` are the old
contents followed by the accepted data, and a `read` made before a `write`
does not change what the `write` appends. (`available()` and `freeSpace()` are
functions of the state and return no state.) -/
theorem ring_ownership (C : Nat) (hC : C < 2 ^ 63) (rb : AudioRingBuffer)
    (hr : Reachable C rb) (data : List Int) (count : Nat) :
    (rb.write data).2.head_ = rb.head_ ∧
    (rb.read count).2.2.tail_ = rb.tail_ ∧
    (rb.read count).2.2.buffer_ = rb.buffer_ ∧
    (rb.read count).2.2.capacity_ = rb.capacity_ ∧
    (∀ j, j ∉ writeAccesses rb data →
      (rb.write data).2.buffer_.getD j 0 = rb.buffer_.getD j 0) ∧
    (∀ i, i < rb.available →
      (rb.write data).2.buffer_.getD ((rb.head_ + i) % rb.capacity_) 0 =
        rb.buffer_.getD ((rb.head_ + i) % rb.capacity_) 0) ∧
    (rb.write data).2.contents =
      (if (rb.write data).1 then rb.contents ++ data else rb.contents) ∧
    ((rb.read count).2.2.write data).2.contents =
      (if ((rb.read count).2.2.write data).1 then rb.contents.drop count ++ data
        else rb.contents.drop count) := by
  have h := reachable_inv hC hr
  have hw := write_contents hC h data
  refine ⟨write_head rb data, rfl, rfl, rfl, write_getD_of_not_mem rb data, ?_, hw, ?_⟩
  · intro i hi
    have hav : rb.available ≤ (rb.write data).2.available := by
      have h1 := contents_length (rb.write data).2
      have h2 := contents_length rb
      rw [hw] at h1
      split at h1
      · rw [List.length_append] at h1
        omega
      · omega
    have e1 : (rb.write data).2.contents[i]? = rb.contents[i]? := by
      rw [hw]
      split
      · rw [List.getElem?_append_left (by rw [contents_length]; exact hi)]
      · rfl
    unfold contents at e1
    rw [List.getElem?_map, List.getElem?_map, List.getElem?_range (by omega),
      List.getElem?_range hi, write_head, write_capacity] at e1
    simpa using e1
  · rw [write_contents hC (read_inv hC h count) data, (read_contents hC h count).2]

/-- C30 witness: a failed and a successful write on a buffer of capacity 2
that holds one sample. -/
theorem ring_ownership_witness :
    (((new 2).write [5]).2.write [6, 7]).2.head_ = ((new 2).write [5]).2.head_ ∧
      (((new 2).write [5]).2.write [6]).2.contents = [5, 6] ∧
      ((((new 2).write [5]).2.read 1).2.2.write [6]).2.contents = [6] := by
  have h := ring_ownership 2 (by decide) ((new 2).write [5]).2
    (Reachable.write [5] Reachable.init)
  exact ⟨(h [6, 7] 0).1, by rw [(h [6] 0).2.2.2.2.2.2.1]; decide,
    by rw [(h [6] 1).2.2.2.2.2.2.2]; decide⟩

end RingBufferSafety


/-! ## Pipeline: capture, silence and the utterance metric -/

namespace AudioPipeline

theorem audioCaptureIteration_of_full {p : AudioPipeline}
    (h : p.rawAudioBuffer_.freeSpace < intToSize p.frameSize_) :
    p.audioCaptureIteration = p := by
  unfold audioCaptureIteration
  rw [AudioRingBuffer.write_fail (by rw [List.length_replicate]; exact h)]

theorem speechRecognitionIteration_of_ne {p : AudioPipeline} (now : Int)
    (h : p.state_ ≠ PipelineState.LISTENING) : p.speechRecognitionIteration now = p := by
  unfold speechRecognitionIteration getState
  rw [if_neg h]

/-- An iteration that the source can make, started in `IDLE`, only reads the
raw buffer on behalf of the wake-word loop or writes to it. -/
theorem step_idle (p : AudioPipeline) (st : LoopStep) (hs : p.state_ = PipelineState.IDLE)
    (hsrc : st.inSource = true) :
    (p.step st).state_ = PipelineState.IDLE ∧ (p.step st).metrics_ = p.metrics_ ∧
    (p.step st).vad_ = p.vad_ ∧ (p.step st).sttBuffer_ = p.sttBuffer_ ∧
    ((p.step st).log = p.log ∨
      ∃ n, (p.step st).log = p.log ++ [Effect.rawRead Consumer.wakeWord n]) := by
  cases st with
  | capture => exact ⟨hs, rfl, rfl, rfl, Or.inl rfl⟩
  | wakeWord detected now =>
    have hd : detected = false := by
      cases detected
      · rfl
      · exact absurd hsrc (by simp [LoopStep.inSource])
    subst hd
    have hstep : p.step (LoopStep.wakeWord false now) = wakeWordIterationWith false p now := rfl
    rw [hstep]
    rcases wakeWordIterationWith_cases false p now with e | ⟨_, _, e⟩
    · rw [e]
      exact ⟨hs, rfl, rfl, rfl, Or.inl rfl⟩
    · rw [e]
      exact ⟨hs, rfl, rfl, rfl, Or.inr ⟨_, rfl⟩⟩
  | recognition now =>
    have hstep : p.step (LoopStep.recognition now) = p.speechRecognitionIteration now := rfl
    rw [hstep, speechRecognitionIteration_of_ne now (by rw [hs]; decide)]
    exact ⟨hs, rfl, rfl, rfl, Or.inl rfl⟩

theorem stepMany_idle (steps : List LoopStep) : ∀ p : AudioPipeline,
    p.state_ = PipelineState.IDLE → (∀ st ∈ steps, st.inSource = true) →
    (p.stepMany steps).state_ = PipelineState.IDLE ∧
    (p.stepMany steps).metrics_ = p.metrics_ ∧
    (p.stepMany steps).vad_ = p.vad_ ∧ (p.stepMany steps).sttBuffer_ = p.sttBuffer_ ∧
    ∃ reads, (p.stepMany steps).log = p.log ++ reads ∧
      ∀ e ∈ reads, ∃ n, e = Effect.rawRead Consumer.wakeWord n := by
  induction steps with
  | nil =>
    intro p hs _
    exact ⟨hs, rfl, rfl, rfl, [], by rw [List.append_nil]; rfl, by simp⟩
  | cons st rest ih =>
    intro p hs hsrc
    obtain ⟨a1, a2, a3, a4, a5⟩ := step_idle p st hs (hsrc st (List.mem_cons_self _ _))
    obtain ⟨b1, b2, b3, b4, reads, b5, b6⟩ :=
      ih (p.step st) a1 (fun s h => hsrc s (List.mem_cons_of_mem _ h))
    have hstep : p.stepMany (st :: rest) = (p.step st).stepMany rest := rfl
    rw [hstep]
    refine ⟨b1, b2.trans a2, b3.trans a3, b4.trans a4, ?_⟩
    rcases a5 with e | ⟨n, e⟩
    · exact ⟨reads, by rw [b5, e], b6⟩
    · refine ⟨Effect.rawRead Consumer.wakeWord n :: reads, by rw [b5, e]; simp, ?_⟩
      intro x hx
      rcases List.mem_cons.mp hx with h | h
      · exact ⟨n, h⟩
      · exact b6 x h

theorem wakeCallbacks_reads (reads : List Effect)
    (h : ∀ e ∈ reads, ∃ n, e = Effect.rawRead Consumer.wakeWord n) :
    wakeCallbacks reads = 0 ∧ stores reads = [] := by
  induction reads with
  | nil => exact ⟨rfl, rfl⟩
  | cons e es ih =>
    obtain ⟨n, hn⟩ := h e (List.mem_cons_self _ _)
    obtain ⟨i1, i2⟩ := ih (fun x hx => h x (List.mem_cons_of_mem _ hx))
    subst hn
    exact ⟨i1, i2⟩

end AudioPipeline

section CaptureAndSilence

open AudioPipeline

/-- C21 (as stated, refuted): on `nearlyFull` the raw buffer has less free
space than one frame; the capture iteration leaves the whole pipeline as it
was, so no quantity kept by the pipeline is incremented. -/
theorem capture_overflow_counterexample :
    nearlyFull.rawAudioBuffer_.freeSpace < intToSize nearlyFull.frameSize_ ∧
      nearlyFull.audioCaptureIteration = nearlyFull ∧
      ∀ counter : AudioPipeline → Int,
        counter nearlyFull.audioCaptureIteration ≠ counter nearlyFull + 1 := by
  have h : nearlyFull.rawAudioBuffer_.freeSpace < intToSize nearlyFull.frameSize_ := by decide!
  refine ⟨h, audioCaptureIteration_of_full h, fun counter => ?_⟩
  rw [audioCaptureIteration_of_full h]
  omega

/-- C21 (amended): an iteration of the capture loop changes nothing but the
raw buffer. When the raw buffer (a ring buffer of capacity `C`) has less free
space than one frame, the frame is dropped and the pipeline is left exactly as
it was: contents, indices, metrics; nothing is counted. When there is room,
the frame of `frameSize_` zero samples is appended to the stored samples. -/
theorem capture_overflow_drops (p : AudioPipeline) (C : Nat) (hC : C < 2 ^ 63)
    (hraw : AudioRingBuffer.Reachable C p.rawAudioBuffer_) :
    p.audioCaptureIteration =
      { p with rawAudioBuffer_ := p.audioCaptureIteration.rawAudioBuffer_ } ∧
    p.audioCaptureIteration.getMetrics = p.getMetrics ∧
    (p.rawAudioBuffer_.freeSpace < intToSize p.frameSize_ → p.audioCaptureIteration = p) ∧
    (intToSize p.frameSize_ ≤ p.rawAudioBuffer_.freeSpace →
      p.audioCaptureIteration.rawAudioBuffer_.contents =
          p.rawAudioBuffer_.contents ++ List.replicate (intToSize p.frameSize_) 0 ∧
        p.audioCaptureIteration.rawAudioBuffer_.head_ = p.rawAudioBuffer_.head_) := by
  refine ⟨rfl, rfl, audioCaptureIteration_of_full, fun hroom => ?_⟩
  have h := AudioRingBuffer.reachable_inv hC hraw
  have hw := AudioRingBuffer.write_contents hC h (List.replicate (intToSize p.frameSize_) 0)
  have hok : (p.rawAudioBuffer_.write (List.replicate (intToSize p.frameSize_) 0)).1 = true := by
    rw [AudioRingBuffer.write_ok (by rw [List.length_replicate]; exact hroom)]
  rw [hok, if_pos rfl] at hw
  exact ⟨hw, AudioRingBuffer.write_head _ _⟩

/-- C21 witness: the first capture iteration on the demo pipeline appends a
frame of four zeros; the eighth finds no room and changes nothing. -/
theorem capture_overflow_drops_witness :
    demo.audioCaptureIteration.rawAudioBuffer_.contents = [0, 0, 0, 0] ∧
      nearlyFull.audioCaptureIteration = nearlyFull :=
  ⟨((capture_overflow_drops demo 30 (by decide) AudioRingBuffer.Reachable.init).2.2.2
      (by decide)).1.trans (by decide),
    (capture_overflow_drops nearlyFull 30 (by decide)
      (by
        show AudioRingBuffer.Reachable 30
          (demo.stepMany (List.replicate 7 LoopStep.capture)).rawAudioBuffer_
        exact AudioRingBuffer.Reachable.write _ (AudioRingBuffer.Reachable.write _
          (AudioRingBuffer.Reachable.write _ (AudioRingBuffer.Reachable.write _
          (AudioRingBuffer.Reachable.write _ (AudioRingBuffer.Reachable.write _
          (AudioRingBuffer.Reachable.write _ AudioRingBuffer.Reachable.init)))))))).2.2.1
      (by decide)⟩

/-- C23. Started in `IDLE`, whatever iterations the loops make (capture,
wake-word, recognition; the wake-word detector being the placeholder of the
source) and whatever samples the raw buffer holds, all-zero frames included:
the state stays `IDLE`, the metrics (and so `falseWakes`) keep their values,
the effects added are reads of the raw buffer by the wake-word loop only, so
`handleWakeWord` is never invoked (no callback, no state store, no clear of
the STT buffer, no detector reset). -/
theorem silence_never_wakes (p : AudioPipeline) (steps : List LoopStep)
    (hidle : p.state_ = PipelineState.IDLE) (hsrc : ∀ st ∈ steps, st.inSource = true) :
    (p.stepMany steps).getState = PipelineState.IDLE ∧
    (p.stepMany steps).getMetrics = p.getMetrics ∧
    (p.stepMany steps).getMetrics.falseWakes = p.getMetrics.falseWakes ∧
    (∃ reads, (p.stepMany steps).log = p.log ++ reads ∧
      ∀ e ∈ reads, ∃ n, e = Effect.rawRead Consumer.wakeWord n) ∧
    wakeCallbacks (p.stepMany steps).log = wakeCallbacks p.log ∧
    stores (p.stepMany steps).log = stores p.log ∧
    (p.stepMany steps).vad_ = p.vad_ ∧ (p.stepMany steps).sttBuffer_ = p.sttBuffer_ := by
  obtain ⟨a1, a2, a3, a4, reads, a5, a6⟩ := stepMany_idle steps p hidle hsrc
  obtain ⟨r1, r2⟩ := wakeCallbacks_reads reads a6
  refine ⟨a1, a2, ?_, ⟨reads, a5, a6⟩, ?_, ?_, a3, a4⟩
  · show (p.stepMany steps).metrics_.falseWakes = p.metrics_.falseWakes
    rw [a2]
  · rw [a5, wakeCallbacks_append, r1, Nat.add_zero]
  · rw [a5, stores_append, r2, List.append_nil]

/-- C23 witness: three seconds of 16 kHz silence (48000 zero samples) in the
raw buffer of a pipeline initialised at 16 kHz, and 94 iterations of the
wake-word loop. -/
theorem silence_never_wakes_witness :
    (AudioPipeline.stepMany
      { init 16000 1 512 with
        rawAudioBuffer_ := ((AudioRingBuffer.new 480000).write (List.replicate 48000 0)).2 }
      (List.replicate 94 (LoopStep.wakeWord false 0))).getState = PipelineState.IDLE ∧
    (AudioPipeline.stepMany
      { init 16000 1 512 with
        rawAudioBuffer_ := ((AudioRingBuffer.new 480000).write (List.replicate 48000 0)).2 }
      (List.replicate 94 (LoopStep.wakeWord false 0))).getMetrics.falseWakes = 0 :=
  have h := silence_never_wakes
    { init 16000 1 512 with
      rawAudioBuffer_ := ((AudioRingBuffer.new 480000).write (List.replicate 48000 0)).2 }
    (List.replicate 94 (LoopStep.wakeWord false 0)) rfl
    (fun st hst => by rw [List.eq_of_mem_replicate hst]; rfl)
  ⟨h.1, h.2.2.1⟩

end CaptureAndSilence

section UtteranceMetric

open AudioPipeline

/-- C26 fails on the code: `handleWakeWord` stores the clock in
`wakeStartTime_`, while `handleSpeechEnd` measures from `speechStartTime_`,
which nothing assigns. After `handleWakeWord` at `t1` and `handleSpeechEnd` at
`t2` the metric is the double `(t2 − speechStartTime_) / 10⁶` with
`speechStartTime_` as it was before the wake word; on an initialised pipeline
(time points at the epoch) with `t1` = 5 s and `t2` = 7 s it is 7000 ms, not
2000 ms. The other metrics fields are left as `handleWakeWord` left them. -/
theorem speech_duration_from_epoch (p : AudioPipeline) (t1 t2 : Int) :
    ((p.handleWakeWord t1).handleSpeechEnd t2).getMetrics.speechDurationMs =
      fdiv (ofInt (t2 - p.speechStartTime_)) 1000000 ∧
    (p.handleWakeWord t1).wakeStartTime_ = t1 ∧
    (p.handleWakeWord t1).speechStartTime_ = p.speechStartTime_ ∧
    ((p.handleWakeWord t1).handleSpeechEnd t2).getMetrics =
      { (p.handleWakeWord t1).getMetrics with
        speechDurationMs := fdiv (ofInt (t2 - p.speechStartTime_)) 1000000 } ∧
    (((init 16000 1 512).handleWakeWord 5000000000).handleSpeechEnd
      7000000000).getMetrics.speechDurationMs = 7000 ∧
    fdiv (ofInt (7000000000 - 5000000000)) 1000000 = 2000 := by
  have key : ∀ q : AudioPipeline,
      ((q.handleWakeWord t1).handleSpeechEnd t2).getMetrics.speechDurationMs =
        fdiv (ofInt (t2 - q.speechStartTime_)) 1000000 ∧
      (q.handleWakeWord t1).wakeStartTime_ = t1 ∧
      (q.handleWakeWord t1).speechStartTime_ = q.speechStartTime_ ∧
      ((q.handleWakeWord t1).handleSpeechEnd t2).getMetrics =
        { (q.handleWakeWord t1).getMetrics with
          speechDurationMs := fdiv (ofInt (t2 - q.speechStartTime_)) 1000000 } := by
    intro q
    cases h1 : q.wakeWordCallback_ <;> cases h2 : q.speechCallback_ <;>
      cases h3 : q.ttsCallback_ <;>
      simp [handleWakeWord, handleSpeechEnd, runSteps, handleWakeWordSteps,
        handleSpeechEndSteps, setState, getMetrics, h1, h2, h3]
  obtain ⟨k1, k2, k3, k4⟩ := key p
  refine ⟨k1, k2, k3, k4, ?_, by decide!⟩
  have := (show ∀ q : AudioPipeline, q.speechStartTime_ = 0 →
      ((q.handleWakeWord 5000000000).handleSpeechEnd 7000000000).getMetrics.speechDurationMs =
        fdiv (ofInt (7000000000 - 0)) 1000000 from fun q hq => by
    cases h1 : q.wakeWordCallback_ <;> cases h2 : q.speechCallback_ <;>
      cases h3 : q.ttsCallback_ <;>
      simp [handleWakeWord, handleSpeechEnd, runSteps, handleWakeWordSteps,
        handleSpeechEndSteps, setState, getMetrics, h1, h2, h3, hq]) (init 16000 1 512) rfl
  rw [this]
  decide!

end UtteranceMetric


/-! ## Pipeline: the recognition loop over an utterance -/

namespace AudioRingBuffer

end AudioRingBuffer

namespace AudioPipeline

theorem handleSpeechEnd_speechCallback (p : AudioPipeline) (now : Int) :
    (p.handleSpeechEnd now).speechCallback_ = p.speechCallback_ := by
  cases h1 : p.speechCallback_ <;> cases h2 : p.ttsCallback_ <;>
    simp [handleSpeechEnd, runSteps, handleSpeechEndSteps, setState, h1, h2]

end AudioPipeline

namespace VoiceActivityDetector

end VoiceActivityDetector

section UtteranceCallback

open AudioPipeline

end UtteranceCallback


/-! ## Double-precision arithmetic: absolute error -/

/-- Absolute error of one rounding of a value bounded by `B`: at most
`B · 2 ^ -53`, subnormal results included. -/
theorem rnd_error_of_le {q B : ℚ} (hq : |q| ≤ B) (hB : (2 : ℚ) ^ (-1022 : ℤ) ≤ B) :
    |rnd q - q| ≤ B * 2 ^ (-53 : ℤ) := by
  have hB0 : (0 : ℚ) ≤ B * 2 ^ (-53 : ℤ) := by
    have : (0 : ℚ) < B := lt_of_lt_of_le (by positivity) hB
    positivity
  by_cases hq0 : q = 0
  · rw [hq0, AudioResampler.rnd_zero, sub_zero, abs_zero]
    exact hB0
  unfold rnd
  rw [if_neg hq0]
  set e := max (binExp q) (-1022) with he
  have hu : (0 : ℚ) < 2 ^ (e - 52) := by positivity
  have hle : (2 : ℚ) ^ e ≤ B := by
    rcases max_choice (binExp q) (-1022) with h | h
    · rw [he, h]; exact le_trans (binExp_le hq0) hq
    · rw [he, h]; exact hB
  have herr := roundEven_error (q / 2 ^ (e - 52))
  have e1 : (roundEven (q / 2 ^ (e - 52)) : ℚ) * 2 ^ (e - 52) - q =
      ((roundEven (q / 2 ^ (e - 52)) : ℚ) - q / 2 ^ (e - 52)) * 2 ^ (e - 52) := by
    field_simp
  rw [e1, abs_mul, abs_of_pos hu]
  have e2 : (2 : ℚ) ^ (e - 52) = 2 ^ e * 2 ^ (-52 : ℤ) := by
    rw [← zpow_add₀ (by norm_num)]
    rfl
  have e3 : (2 : ℚ) ^ (-52 : ℤ) = 2 * 2 ^ (-53 : ℤ) := by norm_num
  calc |(roundEven (q / 2 ^ (e - 52)) : ℚ) - q / 2 ^ (e - 52)| * 2 ^ (e - 52)
      ≤ 1 / 2 * 2 ^ (e - 52) := mul_le_mul_of_nonneg_right herr hu.le
    _ = 2 ^ e * 2 ^ (-53 : ℤ) := by rw [e2, e3]; ring
    _ ≤ B * 2 ^ (-53 : ℤ) := mul_le_mul_of_nonneg_right hle (by positivity)

/-- Rounding keeps a value of `[0, 1]` in `[0, 1]`. -/
theorem rnd_unit {x : ℚ} (h0 : 0 ≤ x) (h1 : x ≤ 1) : 0 ≤ rnd x ∧ rnd x ≤ 1 := by
  refine ⟨rnd_nonneg h0, ?_⟩
  have := rnd_le_of_le_exact (x := x) 1 0 (by norm_num) (by norm_num) h0 (by simpa using h1)
  simpa using this

namespace AudioResampler

/-- The interpolated value computed in double precision from two 16-bit
samples and a weight in `[0, 1]` stays within `2 ^ -35` of the interval
between the samples. -/
theorem interp_between {a b : ℤ} (ha : -32768 ≤ a ∧ a ≤ 32767)
    (hb : -32768 ≤ b ∧ b ≤ 32767) {f : ℚ} (hf0 : 0 ≤ f) (hf1 : f ≤ 1) :
    ((min a b : ℤ) : ℚ) - 2 ^ (-35 : ℤ) ≤ fadd (fmul (ofInt a) (fsub 1 f)) (fmul (ofInt b) f) ∧
      fadd (fmul (ofInt a) (fsub 1 f)) (fmul (ofInt b) f) ≤ ((max a b : ℤ) : ℚ) + 2 ^ (-35 : ℤ) := by
  have ea : ofInt a = (a : ℚ) := ofInt_exact (by rw [abs_lt]; constructor <;> omega)
  have eb : ofInt b = (b : ℚ) := ofInt_exact (by rw [abs_lt]; constructor <;> omega)
  rw [ea, eb]
  generalize hd : (2 : ℚ) ^ (-53 : ℤ) = d
  have hd0 : 0 < d := by rw [← hd]; positivity
  have hd35 : (2 : ℚ) ^ (-35 : ℤ) = 262144 * d := by rw [← hd]; norm_num
  have hdsmall : d ≤ 1 / 2 ^ 53 := by rw [← hd]; norm_num
  have haq : |(a : ℚ)| ≤ 32768 := by
    rw [abs_le]
    constructor
    · have : (-32768 : ℤ) ≤ a := ha.1
      exact_mod_cast this
    · have : a ≤ (32768 : ℤ) := by omega
      exact_mod_cast this
  have hbq : |(b : ℚ)| ≤ 32768 := by
    rw [abs_le]
    constructor
    · have : (-32768 : ℤ) ≤ b := hb.1
      exact_mod_cast this
    · have : b ≤ (32768 : ℤ) := by omega
      exact_mod_cast this
  -- the weight of the first sample
  have hw := rnd_unit (x := 1 - f) (by linarith) (by linarith)
  have hwe := rnd_error_of_le (q := 1 - f) (B := 1)
    (by rw [abs_le]; constructor <;> linarith) (by norm_num)
  rw [one_mul, hd] at hwe
  unfold fsub
  generalize rnd (1 - f) = w at hw hwe
  -- the two products
  have h1 : |(a : ℚ) * w| ≤ 32768 := by
    rw [abs_mul, abs_of_nonneg hw.1]
    calc |(a : ℚ)| * w ≤ 32768 * 1 := mul_le_mul haq hw.2 hw.1 (by norm_num)
      _ = 32768 := by norm_num
  have h2 : |(b : ℚ) * f| ≤ 32768 := by
    rw [abs_mul, abs_of_nonneg hf0]
    calc |(b : ℚ)| * f ≤ 32768 * 1 := mul_le_mul hbq hf1 hf0 (by norm_num)
      _ = 32768 := by norm_num
  have e1 := rnd_error_of_le h1 (by norm_num)
  have e2 := rnd_error_of_le h2 (by norm_num)
  rw [hd] at e1 e2
  unfold fmul
  generalize rnd ((a : ℚ) * w) = t1 at e1
  generalize rnd ((b : ℚ) * f) = t2 at e2
  have h3 : |t1 + t2| ≤ 131072 := by
    rw [abs_le] at e1 e2 h1 h2 ⊢
    constructor <;> nlinarith [e1.1, e1.2, e2.1, e2.2, h1.1, h1.2, h2.1, h2.2]
  have e3 := rnd_error_of_le h3 (by norm_num)
  rw [hd] at e3
  unfold fadd
  generalize rnd (t1 + t2) = v at e3
  -- the exact convex combination lies between the samples
  have hmin : ((min a b : ℤ) : ℚ) ≤ (a : ℚ) * (1 - f) + (b : ℚ) * f := by
    have m1 : ((min a b : ℤ) : ℚ) ≤ (a : ℚ) := by exact_mod_cast min_le_left a b
    have m2 : ((min a b : ℤ) : ℚ) ≤ (b : ℚ) := by exact_mod_cast min_le_right a b
    nlinarith
  have hmax : (a : ℚ) * (1 - f) + (b : ℚ) * f ≤ ((max a b : ℤ) : ℚ) := by
    have m1 : (a : ℚ) ≤ ((max a b : ℤ) : ℚ) := by exact_mod_cast le_max_left a b
    have m2 : (b : ℚ) ≤ ((max a b : ℤ) : ℚ) := by exact_mod_cast le_max_right a b
    nlinarith
  have hwa : |(a : ℚ) * w - (a : ℚ) * (1 - f)| ≤ 32768 * d := by
    rw [← mul_sub, abs_mul]
    exact mul_le_mul haq hwe (abs_nonneg _) (by norm_num)
  rw [hd35]
  rw [abs_le] at e1 e2 e3 hwa
  constructor <;> linarith [e1.1, e1.2, e2.1, e2.2, e3.1, e3.2, hwa.1, hwa.2]

/-- Truncation toward zero of a value within less than one unit of the
interval between two integers. -/
theorem toInt16_between {m M : ℤ} {v e : ℚ} (he : e < 1)
    (h1 : (m : ℚ) - e ≤ v) (h2 : v ≤ (M : ℚ) + e) :
    m - 1 ≤ toInt16 v ∧ toInt16 v ≤ M + 1 ∧ |toInt16 v| ≤ max |m| |M| ∧
      min m 0 ≤ toInt16 v ∧ toInt16 v ≤ max M 0 := by
  unfold toInt16
  split
  · next h0 =>
    have f1 : (⌊v⌋ : ℚ) ≤ v := Int.floor_le v
    have f2 : v < ⌊v⌋ + 1 := Int.lt_floor_add_one v
    have f0 : 0 ≤ ⌊v⌋ := Int.floor_nonneg.mpr h0
    have a1 : m - 1 ≤ ⌊v⌋ := by
      have : ((m - 2 : ℤ) : ℚ) < (⌊v⌋ : ℚ) := by push_cast; linarith
      have := Int.cast_lt.mp this
      omega
    have a2 : ⌊v⌋ ≤ M := by
      have : ((⌊v⌋ : ℤ) : ℚ) < ((M + 1 : ℤ) : ℚ) := by push_cast; linarith
      have := Int.cast_lt.mp this
      omega
    refine ⟨a1, by omega, ?_, le_trans (min_le_right m 0) f0, le_trans a2 (le_max_left M 0)⟩
    rw [abs_of_nonneg f0]
    exact le_trans (le_trans a2 (le_abs_self M)) (le_max_right _ _)
  · next h0 =>
    have hneg : v < 0 := not_le.mp h0
    have c1 : v ≤ (⌈v⌉ : ℚ) := Int.le_ceil v
    have c2 : (⌈v⌉ : ℚ) < v + 1 := Int.ceil_lt_add_one v
    have c0 : ⌈v⌉ ≤ 0 := by
      have : ((⌈v⌉ : ℤ) : ℚ) < ((1 : ℤ) : ℚ) := by push_cast; linarith
      have := Int.cast_lt.mp this
      omega
    have a1 : m ≤ ⌈v⌉ := by
      have : ((m - 1 : ℤ) : ℚ) < (⌈v⌉ : ℚ) := by push_cast; linarith
      have := Int.cast_lt.mp this
      omega
    have a2 : ⌈v⌉ ≤ M + 1 := by
      have : ((⌈v⌉ : ℤ) : ℚ) < ((M + 2 : ℤ) : ℚ) := by push_cast; linarith
      have := Int.cast_lt.mp this
      omega
    refine ⟨by omega, a2, ?_, le_trans (min_le_left m 0) a1, le_trans c0 (le_max_right M 0)⟩
    rw [abs_of_nonpos c0]
    have : -⌈v⌉ ≤ -m := by omega
    exact le_trans (le_trans this (neg_le_abs m)) (le_max_left _ _)

/-- The fraction `inputIndex - index` computed in double precision lies in
`[0, 1]`. -/
theorem fraction_unit {p : ℚ} (hp : 0 ≤ p) (h53 : toSize p < 2 ^ 53) :
    0 ≤ fsub p (ofSize (toSize p)) ∧ fsub p (ofSize (toSize p)) ≤ 1 := by
  rw [ofSize_exact h53]
  unfold fsub toSize
  have h1 : ((⌊p⌋₊ : ℕ) : ℚ) ≤ p := Nat.floor_le hp
  have h2 : p < ((⌊p⌋₊ : ℕ) : ℚ) + 1 := Nat.lt_floor_add_one p
  exact rnd_unit (by linarith) (by linarith)

theorem ratio_between {inputRate outputRate : ℤ} (channels : ℤ)
    (hin : 0 < inputRate) (hin2 : inputRate < 2 ^ 31)
    (hout : 0 < outputRate) (hout2 : outputRate < 2 ^ 31) :
    (2 : ℚ) ^ (-31 : ℤ) ≤ (outputRate : ℚ) / inputRate ∧
      (outputRate : ℚ) / inputRate * (1 - 2 ^ (-53 : ℤ)) ≤
        (new inputRate outputRate channels).ratio_ ∧
      (new inputRate outputRate channels).ratio_ ≤
        (outputRate : ℚ) / inputRate * (1 + 2 ^ (-53 : ℤ)) := by
  have hiq : (0 : ℚ) < inputRate := by exact_mod_cast hin
  have hiq2 : (inputRate : ℚ) < 2 ^ 31 := by exact_mod_cast hin2
  have hoq : (1 : ℚ) ≤ outputRate := by exact_mod_cast hout
  have e1 : ofInt outputRate = outputRate := ofInt_exact (by rw [abs_lt]; constructor <;> omega)
  have e2 : ofInt inputRate = inputRate := ofInt_exact (by rw [abs_lt]; constructor <;> omega)
  have hq : (2 : ℚ) ^ (-31 : ℤ) ≤ (outputRate : ℚ) / inputRate := by
    rw [le_div_iff₀ hiq]
    have : (2 : ℚ) ^ (-31 : ℤ) * inputRate ≤ 2 ^ (-31 : ℤ) * 2 ^ 31 :=
      mul_le_mul_of_nonneg_left hiq2.le (by positivity)
    have e : (2 : ℚ) ^ (-31 : ℤ) * 2 ^ 31 = 1 := by norm_num
    linarith
  have hb := rnd_between (q := (outputRate : ℚ) / inputRate) (le_trans (by norm_num) hq)
  refine ⟨hq, ?_, ?_⟩
  · show _ ≤ fdiv (ofInt outputRate) (ofInt inputRate)
    unfold fdiv
    rw [e1, e2]
    exact hb.1
  · show fdiv (ofInt outputRate) (ofInt inputRate) ≤ _
    unfold fdiv
    rw [e1, e2]
    exact hb.2

theorem index_fact : (2 : ℚ) ^ 51 * (2 * 2 ^ (-53 : ℤ) + 2 ^ (-53 : ℤ) * 2 ^ (-53 : ℤ)) < 1 := by
  norm_num

/-- The source index computed in double precision for an output index below
the double-precision frame count is below the number of input frames. -/
theorem index_lt {inputRate outputRate : ℤ} (channels : ℤ)
    (hin : 0 < inputRate) (hin2 : inputRate < 2 ^ 31)
    (hout : 0 < outputRate) (hout2 : outputRate < 2 ^ 31) {n i : ℕ} (hn : n < 2 ^ 53)
    (hx : (n : ℚ) * outputRate / inputRate ≤ 2 ^ 51)
    (hi : i < toSize (fmul (ofSize n) (new inputRate outputRate channels).ratio_)) :
    toSize (fdiv (ofSize i) (new inputRate outputRate channels).ratio_) < n := by
  obtain ⟨hq, hr1, hr2⟩ := ratio_between channels hin hin2 hout hout2
  rw [mul_div_assoc] at hx
  rw [ofSize_exact hn] at hi
  unfold fmul toSize at hi
  unfold fdiv toSize
  generalize (new inputRate outputRate channels).ratio_ = ρ at hr1 hr2 hi ⊢
  generalize (outputRate : ℚ) / inputRate = q at hq hr1 hr2 hx
  have hK := index_fact
  have h31 : (2 : ℚ) ^ (-32 : ℤ) ≤ 2 ^ (-31 : ℤ) * (1 - 2 ^ (-53 : ℤ)) := by norm_num
  have h52 : (2 : ℚ) ^ 51 * (1 + 2 ^ (-53 : ℤ)) * (1 + 2 ^ (-53 : ℤ)) < 2 ^ 52 := by norm_num
  have h1022 : (2 : ℚ) ^ (-1022 : ℤ) ≤ 2 ^ (-32 : ℤ) := by norm_num
  have h1022b : (2 : ℚ) ^ (-1022 : ℤ) ≤ 1 / 2 ^ 52 := by norm_num
  have hdm : (0 : ℚ) ≤ 1 - 2 ^ (-53 : ℤ) := by norm_num
  have hd1 : (1 : ℚ) + 2 ^ (-53 : ℤ) ≤ 2 := by norm_num
  have hrho : (2 : ℚ) ^ (-32 : ℤ) ≤ ρ := by
    have : (2 : ℚ) ^ (-31 : ℤ) * (1 - 2 ^ (-53 : ℤ)) ≤ q * (1 - 2 ^ (-53 : ℤ)) :=
      mul_le_mul_of_nonneg_right hq hdm
    linarith
  have hrho0 : 0 < ρ := lt_of_lt_of_le (by positivity) hrho
  have hn1 : 1 ≤ n := by
    by_contra h0
    have hn0 : n = 0 := by omega
    rw [hn0] at hi
    simp [rnd_zero] at hi
  have hnq : (1 : ℚ) ≤ n := by exact_mod_cast hn1
  have hq0 : 0 < q := lt_of_lt_of_le (by positivity) hq
  have hxlow : (2 : ℚ) ^ (-1022 : ℤ) ≤ n * ρ := by
    have : ρ ≤ n * ρ := by nlinarith
    linarith
  have hX := (rnd_between hxlow).2
  have hX0 : 0 ≤ rnd ((n : ℚ) * ρ) := rnd_nonneg (by positivity)
  have hi1 : (i : ℚ) + 1 ≤ rnd ((n : ℚ) * ρ) := by
    have h1 : ((⌊rnd ((n : ℚ) * ρ)⌋₊ : ℕ) : ℚ) ≤ rnd ((n : ℚ) * ρ) := Nat.floor_le hX0
    have h2 : ((i + 1 : ℕ) : ℚ) ≤ ((⌊rnd ((n : ℚ) * ρ)⌋₊ : ℕ) : ℚ) := by
      exact_mod_cast hi
    push_cast at h2
    linarith
  generalize rnd ((n : ℚ) * ρ) = X at hX hX0 hi1 hi
  generalize hd : (2 : ℚ) ^ (-53 : ℤ) = d at *
  have hd0 : 0 < d := by rw [← hd]; positivity
  have h1d : 0 < 1 + d := by linarith
  -- the exact product of the frame count and the ratio
  have hA1 : (n : ℚ) * ρ ≤ 2 ^ 51 * (1 + d) := by
    have a1 : (n : ℚ) * ρ ≤ n * (q * (1 + d)) :=
      mul_le_mul_of_nonneg_left hr2 (by positivity)
    have a2 : (n : ℚ) * q * (1 + d) ≤ 2 ^ 51 * (1 + d) :=
      mul_le_mul_of_nonneg_right hx h1d.le
    have a3 : (n : ℚ) * (q * (1 + d)) = n * q * (1 + d) := by ring
    linarith
  have hXA : X ≤ 2 ^ 51 * (1 + d) * (1 + d) := by
    have := mul_le_mul_of_nonneg_right hA1 h1d.le
    linarith
  have hi53 : i < 2 ^ 53 := by
    have : (i : ℚ) < 2 ^ 53 := by
      have e : (2 : ℚ) ^ 52 ≤ 2 ^ 53 := by norm_num
      linarith
    exact_mod_cast this
  rw [ofSize_exact hi53]
  rcases Nat.eq_zero_or_pos i with hi0 | hipos
  · rw [hi0]
    simp only [Nat.cast_zero, zero_div, rnd_zero, Nat.floor_zero]
    omega
  · have hiq : (1 : ℚ) ≤ i := by exact_mod_cast hipos
    have hrho2 : ρ ≤ 2 ^ 52 := by
      have a1 : ρ ≤ (n : ℚ) * ρ := by nlinarith
      have e : (2 : ℚ) ^ 51 * (1 + d) ≤ 2 ^ 52 := by
        have : (2 : ℚ) ^ 51 * (1 + d) ≤ 2 ^ 51 * 2 := mul_le_mul_of_nonneg_left hd1 (by norm_num)
        have e2 : (2 : ℚ) ^ 51 * 2 = 2 ^ 52 := by norm_num
        linarith
      linarith
    have hy : (2 : ℚ) ^ (-1022 : ℤ) ≤ (i : ℚ) / ρ := by
      refine le_trans h1022b ?_
      rw [le_div_iff₀ hrho0]
      have a1 : (1 : ℚ) / 2 ^ 52 * ρ ≤ 1 / 2 ^ 52 * 2 ^ 52 :=
        mul_le_mul_of_nonneg_left hrho2 (by positivity)
      have a2 : (1 : ℚ) / 2 ^ 52 * 2 ^ 52 = 1 := by norm_num
      linarith
    have hp := (rnd_between hy).2
    rw [hd] at hp
    have hp0 : 0 ≤ rnd ((i : ℚ) / ρ) := rnd_nonneg (by positivity)
    have hyr : (i : ℚ) / ρ * ρ = i := div_mul_cancel₀ _ (ne_of_gt hrho0)
    generalize rnd ((i : ℚ) / ρ) = P at hp hp0 ⊢
    rw [Nat.floor_lt hp0]
    apply lt_of_mul_lt_mul_right _ hrho0.le
    have b1 : P * ρ ≤ (i : ℚ) / ρ * (1 + d) * ρ := mul_le_mul_of_nonneg_right hp hrho0.le
    have b2 : (i : ℚ) / ρ * (1 + d) * ρ = (i : ℚ) * (1 + d) := by
      rw [mul_right_comm, hyr]
    have b3 : (i : ℚ) * (1 + d) ≤ ((n : ℚ) * ρ * (1 + d) - 1) * (1 + d) :=
      mul_le_mul_of_nonneg_right (by linarith) h1d.le
    have b4 : ((n : ℚ) * ρ * (1 + d) - 1) * (1 + d) =
        (n : ℚ) * ρ + (n : ℚ) * ρ * (2 * d + d * d) - (1 + d) := by ring
    have b5 : (n : ℚ) * ρ * (2 * d + d * d) ≤ 2 ^ 51 * (1 + d) * (2 * d + d * d) :=
      mul_le_mul_of_nonneg_right hA1 (by positivity)
    have b6 : (1 + d) * (2 ^ 51 * (2 * d + d * d)) < (1 + d) * 1 :=
      mul_lt_mul_of_pos_left hK h1d
    have b7 : (2 : ℚ) ^ 51 * (1 + d) * (2 * d + d * d) = (1 + d) * (2 ^ 51 * (2 * d + d * d)) := by
      ring
    linarith

end AudioResampler


namespace AudioResampler

theorem ratio_nonneg (inputRate outputRate channels : ℤ)
    (hin : 0 < inputRate) (hout : 0 < outputRate) :
    0 ≤ (new inputRate outputRate channels).ratio_ := by
  show 0 ≤ fdiv (ofInt outputRate) (ofInt inputRate)
  unfold fdiv ofInt
  have h1 : (0 : ℚ) ≤ (outputRate : ℚ) := by exact_mod_cast hout.le
  have h2 : (0 : ℚ) ≤ (inputRate : ℚ) := by exact_mod_cast hin.le
  exact rnd_nonneg (div_nonneg (rnd_nonneg h1) (rnd_nonneg h2))

theorem position_nonneg (r : AudioResampler) (hr : 0 ≤ r.ratio_) (i : ℕ) :
    0 ≤ fdiv (ofSize i) r.ratio_ := by
  unfold fdiv ofSize
  exact rnd_nonneg (div_nonneg (rnd_nonneg (Nat.cast_nonneg i)) hr)

theorem sampleReads_lt (r : AudioResampler) (input : List Int) (i : ℕ)
    (h : toSize (fdiv (ofSize i) r.ratio_) < input.length) :
    ∀ j ∈ sampleReads r input i, j < input.length := by
  intro j hj
  unfold sampleReads at hj
  simp only at hj
  split at hj
  · next hlt =>
    simp only [List.mem_cons, List.mem_singleton, List.not_mem_nil, or_false] at hj
    rcases hj with e | e <;> rw [e]
    · exact h
    · exact hlt
  · simp only [List.mem_singleton] at hj
    rw [hj]
    exact h

/-- The output sample depends on the input only through its length and the
samples at the indices of `sampleReads`. -/
theorem outputSample_congr (r : AudioResampler) (input other : List Int) (i : ℕ)
    (hlen : other.length = input.length)
    (h : ∀ j ∈ sampleReads r input i, other.getD j 0 = input.getD j 0) :
    outputSample r other i = outputSample r input i := by
  unfold sampleReads at h
  unfold outputSample
  simp only at h ⊢
  rw [hlen]
  split
  · next hlt =>
    rw [if_pos hlt] at h
    rw [h _ (List.mem_cons_self _ _), h _ (List.mem_cons_of_mem _ (List.mem_singleton_self _))]
  · next hlt =>
    rw [if_neg hlt] at h
    exact h _ (List.mem_singleton_self _)

theorem getD_mem_range {input : List Int} (hrange : ∀ x ∈ input, -32768 ≤ x ∧ x ≤ 32767)
    {j : ℕ} (hj : j < input.length) :
    input.getD j 0 ∈ input ∧ -32768 ≤ input.getD j 0 ∧ input.getD j 0 ≤ 32767 := by
  have hmem : input.getD j 0 ∈ input := by
    rw [List.getD_eq_getElem _ _ hj]
    exact List.getElem_mem hj
  exact ⟨hmem, hrange _ hmem⟩

/-- Bounds of an output sample of the interpolation branch. -/
theorem outputSample_between (r : AudioResampler) (hr : 0 ≤ r.ratio_) (input : List Int)
    (hrange : ∀ x ∈ input, -32768 ≤ x ∧ x ≤ 32767) (i : ℕ)
    (hidx : toSize (fdiv (ofSize i) r.ratio_) + 1 < input.length)
    (hN : input.length < 2 ^ 53) :
    szAdd (toSize (fdiv (ofSize i) r.ratio_)) 1 = toSize (fdiv (ofSize i) r.ratio_) + 1 ∧
    min (input.getD (toSize (fdiv (ofSize i) r.ratio_)) 0)
        (input.getD (toSize (fdiv (ofSize i) r.ratio_) + 1) 0) - 1 ≤ outputSample r input i ∧
    outputSample r input i ≤
      max (input.getD (toSize (fdiv (ofSize i) r.ratio_)) 0)
        (input.getD (toSize (fdiv (ofSize i) r.ratio_) + 1) 0) + 1 ∧
    |outputSample r input i| ≤
      max |input.getD (toSize (fdiv (ofSize i) r.ratio_)) 0|
        |input.getD (toSize (fdiv (ofSize i) r.ratio_) + 1) 0| ∧
    min (min (input.getD (toSize (fdiv (ofSize i) r.ratio_)) 0)
        (input.getD (toSize (fdiv (ofSize i) r.ratio_) + 1) 0)) 0 ≤ outputSample r input i ∧
    outputSample r input i ≤
      max (max (input.getD (toSize (fdiv (ofSize i) r.ratio_)) 0)
        (input.getD (toSize (fdiv (ofSize i) r.ratio_) + 1) 0)) 0 := by
  have hsz : szAdd (toSize (fdiv (ofSize i) r.ratio_)) 1 =
      toSize (fdiv (ofSize i) r.ratio_) + 1 := by
    unfold szAdd SIZE_MOD
    exact Nat.mod_eq_of_lt (by omega)
  obtain ⟨_, ha⟩ := getD_mem_range hrange (by omega : toSize (fdiv (ofSize i) r.ratio_) < input.length)
  obtain ⟨_, hb⟩ := getD_mem_range hrange hidx
  obtain ⟨f0, f1⟩ := fraction_unit (position_nonneg r hr i) (by omega)
  have hv := interp_between ha hb f0 f1
  have hout : outputSample r input i =
      toInt16 (fadd (fmul (ofInt (input.getD (toSize (fdiv (ofSize i) r.ratio_)) 0))
          (fsub 1 (fsub (fdiv (ofSize i) r.ratio_)
            (ofSize (toSize (fdiv (ofSize i) r.ratio_))))))
        (fmul (ofInt (input.getD (toSize (fdiv (ofSize i) r.ratio_) + 1) 0))
          (fsub (fdiv (ofSize i) r.ratio_) (ofSize (toSize (fdiv (ofSize i) r.ratio_)))))) := by
    unfold outputSample
    simp only
    rw [hsz, if_pos hidx]
  rw [hout]
  obtain ⟨b1, b2, b3, b4, b5⟩ := toInt16_between (by norm_num) hv.1 hv.2
  refine ⟨hsz, b1, b2, ?_, b4, b5⟩
  rcases le_total (input.getD (toSize (fdiv (ofSize i) r.ratio_)) 0)
    (input.getD (toSize (fdiv (ofSize i) r.ratio_) + 1) 0) with h | h
  · rw [min_eq_left h, max_eq_right h] at b3
    exact b3
  · rw [min_eq_right h, max_eq_left h, max_comm] at b3
    exact b3

end AudioResampler

section ResamplerSafety

open AudioResampler

/-- C28. For positive `int` rates with `inputRate ≠ outputRate`, an input of
`N < 2 ^ 53` frames with `N · outputRate / inputRate ≤ 2 ^ 51` and every
output index `i` of `resample`: the source index computed by the code is below
`N`; the reads of the loop body (`input[index]`, and `input[index + 1]` only
when `index + 1 < N`) are inside the `N` input samples, and the output sample
depends on no other sample. In exact arithmetic too, `k < floor(N · outputRate
/ inputRate)` gives `floor(k · inputRate / outputRate) < N`. -/
theorem resample_reads_in_range (inputRate outputRate channels : Int)
    (hin : 0 < inputRate) (hin2 : inputRate < 2 ^ 31)
    (hout : 0 < outputRate) (hout2 : outputRate < 2 ^ 31) (hne : inputRate ≠ outputRate)
    (input : List Int) (hN : input.length < 2 ^ 53)
    (hx : (input.length : ℚ) * outputRate / inputRate ≤ 2 ^ 51) (i : ℕ)
    (hi : i < (resample (new inputRate outputRate channels) input).length) :
    toSize (fdiv (ofSize i) (new inputRate outputRate channels).ratio_) < input.length ∧
    (∀ j ∈ sampleReads (new inputRate outputRate channels) input i, j < input.length) ∧
    (∀ other : List Int, other.length = input.length →
      (∀ j ∈ sampleReads (new inputRate outputRate channels) input i, other[j]? = input[j]?) →
      outputSample (new inputRate outputRate channels) other i =
        outputSample (new inputRate outputRate channels) input i) ∧
    (∀ k : ℕ, (k : ℤ) < ⌊(input.length : ℚ) * outputRate / inputRate⌋ →
      ⌊(k : ℚ) * inputRate / outputRate⌋ < (input.length : ℤ)) := by
  have hne2 : (new inputRate outputRate channels).inputRate_ ≠
      (new inputRate outputRate channels).outputRate_ := hne
  rw [resample_of_ne hne2, List.length_map, List.length_range] at hi
  have hidx := index_lt channels hin hin2 hout hout2 hN hx hi
  refine ⟨hidx, sampleReads_lt _ _ _ hidx, ?_, ?_⟩
  · intro other hlen h
    apply outputSample_congr _ _ _ _ hlen
    intro j hj
    simp only [List.getD_eq_getElem?_getD]
    rw [h j hj]
  · intro k hk
    have hiq : (0 : ℚ) < inputRate := by exact_mod_cast hin
    have hoq : (0 : ℚ) < outputRate := by exact_mod_cast hout
    have h1 : ((k + 1 : ℤ) : ℚ) ≤ (input.length : ℚ) * outputRate / inputRate := by
      have : k + 1 ≤ ⌊(input.length : ℚ) * outputRate / inputRate⌋ := by omega
      exact Int.le_floor.mp this
    rw [le_div_iff₀ hiq] at h1
    push_cast at h1
    rw [Int.floor_lt, div_lt_iff₀ hoq]
    push_cast
    nlinarith

/-- C28 witness: 44.1 kHz to 16 kHz on nine frames; output index 2 reads the
input at 5 and 6. -/
theorem resample_reads_in_range_witness :
    sampleReads (new 44100 16000 1) [0, 0, 0, 0, 0, 160, 0, 0, 0] 2 = [5, 6] ∧
      ∀ j ∈ sampleReads (new 44100 16000 1) [0, 0, 0, 0, 0, 160, 0, 0, 0] 2,
        j < ([0, 0, 0, 0, 0, 160, 0, 0, 0] : List Int).length :=
  ⟨by decide!,
    (resample_reads_in_range 44100 16000 1 (by decide) (by decide) (by decide) (by decide)
      (by decide) [0, 0, 0, 0, 0, 160, 0, 0, 0] (by decide) (by norm_num) 2 (by decide!)).2.1⟩

/-- C29 (as stated, refuted): from 8 kHz to 44.1 kHz the second output sample
of the input `-30, -30` is interpolated between the two samples and is `-29`,
which is above both. The double-precision sum
`-30 · (1 − f) + -30 · f` falls just short of `-30` in magnitude and the
conversion truncates it toward zero. -/
theorem interpolation_bounded_counterexample :
    (resample (new 8000 44100 1) [-30, -30])[1]? = some (-29) ∧
      sampleReads (new 8000 44100 1) [-30, -30] 1 = [0, 1] ∧
      ¬ ((-29 : Int) ≤ max (-30) (-30)) := by
  refine ⟨by decide!, by decide!, by decide⟩

/-- C29 (amended). For positive `int` rates with `inputRate ≠ outputRate`,
16-bit samples, `N < 2 ^ 53` frames with `N · outputRate / inputRate ≤ 2 ^ 51`
and every output index `i`: on the interpolation branch the output sample lies
between `min(a, b) − 1` and `max(a, b) + 1` for `a = input[index]`,
`b = input[index + 1]`, also between `min(a, b, 0)` and `max(a, b, 0)`, and
its magnitude is at most `max(|a|, |b|)`; on both branches the output sample is
inside the signed 16-bit range and its magnitude is at most that of some
input sample. -/
theorem interpolation_bounded (inputRate outputRate channels : Int)
    (hin : 0 < inputRate) (hin2 : inputRate < 2 ^ 31)
    (hout : 0 < outputRate) (hout2 : outputRate < 2 ^ 31) (hne : inputRate ≠ outputRate)
    (input : List Int) (hrange : ∀ x ∈ input, -32768 ≤ x ∧ x ≤ 32767)
    (hN : input.length < 2 ^ 53)
    (hx : (input.length : ℚ) * outputRate / inputRate ≤ 2 ^ 51) (i : ℕ)
    (hi : i < (resample (new inputRate outputRate channels) input).length) :
    (resample (new inputRate outputRate channels) input)[i]? =
      some (outputSample (new inputRate outputRate channels) input i) ∧
    (toSize (fdiv (ofSize i) (new inputRate outputRate channels).ratio_) + 1 < input.length →
      min (input.getD (toSize (fdiv (ofSize i) (new inputRate outputRate channels).ratio_)) 0)
          (input.getD (toSize (fdiv (ofSize i) (new inputRate outputRate channels).ratio_) + 1)
            0) - 1 ≤ outputSample (new inputRate outputRate channels) input i ∧
        outputSample (new inputRate outputRate channels) input i ≤
          max (input.getD (toSize (fdiv (ofSize i) (new inputRate outputRate channels).ratio_)) 0)
            (input.getD (toSize (fdiv (ofSize i) (new inputRate outputRate channels).ratio_) + 1)
              0) + 1 ∧
        |outputSample (new inputRate outputRate channels) input i| ≤
          max |input.getD (toSize (fdiv (ofSize i) (new inputRate outputRate channels).ratio_)) 0|
            |input.getD (toSize (fdiv (ofSize i) (new inputRate outputRate channels).ratio_) + 1)
              0| ∧
        min (min (input.getD (toSize (fdiv (ofSize i) (new inputRate outputRate channels).ratio_))
              0)
            (input.getD (toSize (fdiv (ofSize i) (new inputRate outputRate channels).ratio_) + 1)
              0)) 0 ≤ outputSample (new inputRate outputRate channels) input i ∧
        outputSample (new inputRate outputRate channels) input i ≤
          max (max (input.getD (toSize (fdiv (ofSize i) (new inputRate outputRate channels).ratio_))
              0)
            (input.getD (toSize (fdiv (ofSize i) (new inputRate outputRate channels).ratio_) + 1)
              0)) 0) ∧
    (-32768 ≤ outputSample (new inputRate outputRate channels) input i ∧
      outputSample (new inputRate outputRate channels) input i ≤ 32767) ∧
    ∃ y ∈ input, |outputSample (new inputRate outputRate channels) input i| ≤ |y| := by
  have hne2 : (new inputRate outputRate channels).inputRate_ ≠
      (new inputRate outputRate channels).outputRate_ := hne
  have hi2 := hi
  rw [resample_of_ne hne2, List.length_map, List.length_range] at hi2
  have hidx := index_lt channels hin hin2 hout hout2 hN hx hi2
  have hr := ratio_nonneg inputRate outputRate channels hin hout
  have hget : (resample (new inputRate outputRate channels) input)[i]? =
      some (outputSample (new inputRate outputRate channels) input i) := by
    rw [resample_of_ne hne2, getElem?_map_range hi2]
  generalize hp : toSize (fdiv (ofSize i) (new inputRate outputRate channels).ratio_) = idx
    at hidx ⊢
  by_cases hb : idx + 1 < input.length
  · have hbw := outputSample_between _ hr input hrange i (by rw [hp]; exact hb) hN
    rw [hp] at hbw
    obtain ⟨_, b1, b2, b3, b4, b5⟩ := hbw
    obtain ⟨ma, ha⟩ := getD_mem_range hrange hidx
    obtain ⟨mb, hbb⟩ := getD_mem_range hrange hb
    refine ⟨hget, fun _ => ⟨b1, b2, b3, b4, b5⟩, ⟨?_, ?_⟩, ?_⟩
    · have : -32768 ≤ min (min (input.getD idx 0) (input.getD (idx + 1) 0)) 0 := by
        simp only [le_min_iff]
        omega
      omega
    · have : max (max (input.getD idx 0) (input.getD (idx + 1) 0)) 0 ≤ 32767 := by
        simp only [max_le_iff]
        omega
      omega
    · rcases le_total |input.getD idx 0| |input.getD (idx + 1) 0| with h | h
      · exact ⟨_, mb, by rw [max_eq_right h] at b3; exact b3⟩
      · exact ⟨_, ma, by rw [max_eq_left h] at b3; exact b3⟩
  · have hout : outputSample (new inputRate outputRate channels) input i =
        input.getD idx 0 := by
      have hsz : szAdd idx 1 = idx + 1 := by
        unfold szAdd SIZE_MOD
        exact Nat.mod_eq_of_lt (by omega)
      unfold outputSample
      simp only
      rw [hp, hsz, if_neg hb]
    obtain ⟨ma, ha⟩ := getD_mem_range hrange hidx
    rw [hout]
    exact ⟨hout ▸ hget, fun h => absurd h hb, ha, _, ma, le_refl _⟩

/-- C29 witness: 44.1 kHz to 16 kHz; output index 2 interpolates between
`input[5] = 160` and `input[6] = 0` and lies between 0 and 160. -/
theorem interpolation_bounded_witness :
    (resample (new 44100 16000 1) [0, 0, 0, 0, 0, 160, 0, 0, 0])[2]? = some 77 ∧
      -32768 ≤ outputSample (new 44100 16000 1) [0, 0, 0, 0, 0, 160, 0, 0, 0] 2 ∧
      outputSample (new 44100 16000 1) [0, 0, 0, 0, 0, 160, 0, 0, 0] 2 ≤ 32767 ∧
      0 ≤ outputSample (new 44100 16000 1) [0, 0, 0, 0, 0, 160, 0, 0, 0] 2 ∧
      outputSample (new 44100 16000 1) [0, 0, 0, 0, 0, 160, 0, 0, 0] 2 ≤ 160 :=
  have h := interpolation_bounded 44100 16000 1 (by decide) (by decide) (by decide) (by decide)
    (by decide) [0, 0, 0, 0, 0, 160, 0, 0, 0] (by decide) (by decide) (by norm_num) 2
    (by decide!)
  have hb := h.2.1 (by decide!)
  ⟨h.1.trans (by decide!), h.2.2.1.1, h.2.2.1.2, le_trans (by decide!) hb.2.2.2.1,
    le_trans hb.2.2.2.2 (by decide!)⟩

end ResamplerSafety



/-! ## ConfigManager: storing and reading back -/

namespace Json

theorem find_store (key : String) (v : Json) (members : List (String × Json)) :
    find key (store key v members) = some v := by
  induction members with
  | nil => simp [store, find]
  | cons kw rest ih =>
    obtain ⟨k, w⟩ := kw
    by_cases h : k = key
    · simp [store, find, h]
    · simp [store, find, h, ih]

theorem store_find {key : String} {v : Json} {members : List (String × Json)}
    (h : find key members = some v) : store key v members = members := by
  induction members with
  | nil => simp [find] at h
  | cons kw rest ih =>
    obtain ⟨k, w⟩ := kw
    by_cases hk : k = key
    · simp [find, hk] at h
      simp [store, hk, h]
    · simp [find, hk] at h
      simp [store, hk, ih h]

theorem contains_put (j : Json) (key : String) (v : Json) : (j.put key v).contains key = true := by
  cases j <;> simp [put, contains, find, find_store]

theorem member_put (j : Json) (key : String) (v : Json) : (j.put key v).member key = v := by
  cases j <;> simp [put, member, find, find_store]

theorem put_member {j : Json} {key : String} (h : j.contains key = true) :
    j.put key (j.member key) = j := by
  cases j <;> simp [contains] at h
  next members =>
    obtain ⟨v, hv⟩ := Option.isSome_iff_exists.mp h
    simp [put, member, hv, store_find hv]

theorem indexable_of_contains {j : Json} {key : String} (h : j.contains key = true) :
    j.indexable = true := by
  cases j <;> simp [contains] at h
  rfl

theorem toInt32_of_int {v : Int} (h1 : -2 ^ 31 ≤ v) (h2 : v < 2 ^ 31) : toInt32 v = v := by
  unfold toInt32
  omega

end Json

namespace ConfigManager

theorem setPath_ok (value : Json) : ∀ (keys : List String) (j : Json),
    keys ≠ [] → (setPath j keys value).2 = settable j keys
  | [], j, h => absurd rfl h
  | [k], j, _ => by
    cases h : j.indexable <;> simp [setPath, settable, h]
  | k :: k2 :: rest, j, _ => by
    cases hc : j.contains k
    · cases hi : j.indexable
      · simp [setPath, settable, hc, hi]
      · have ih := setPath_ok value (k2 :: rest) (Json.object []) (List.cons_ne_nil _ _)
        have hs : settable (Json.object []) (k2 :: rest) = true := by
          cases rest <;> simp [settable, Json.indexable, Json.contains, Json.find]
        simp [setPath, settable, hc, hi, Json.member_put, ih, hs]
    · have ih := setPath_ok value (k2 :: rest) (j.member k) (List.cons_ne_nil _ _)
      simp [setPath, settable, hc, ih]

theorem setPath_unchanged (value : Json) : ∀ (keys : List String) (j : Json),
    settable j keys = false → (setPath j keys value).1 = j
  | [], j, _ => rfl
  | [k], j, h => by
    simp only [settable] at h
    simp [setPath, h]
  | k :: k2 :: rest, j, h => by
    cases hc : j.contains k
    · simp only [settable, hc, Bool.false_eq_true, if_false] at h
      simp [setPath, hc, h]
    · simp only [settable, hc, if_true] at h
      have ih := setPath_unchanged value (k2 :: rest) (j.member k) h
      simp [setPath, hc, ih, Json.put_member hc]

theorem walk_setPath (value : Json) : ∀ (keys : List String) (j : Json),
    keys ≠ [] → settable j keys = true → walk (setPath j keys value).1 keys = some value
  | [], j, hk, _ => absurd rfl hk
  | [k], j, _, h => by
    simp only [settable] at h
    simp [setPath, h, walk, Json.contains_put, Json.member_put]
  | k :: k2 :: rest, j, _, h => by
    cases hc : j.contains k
    · simp only [settable, hc] at h
      have hs : settable (Json.object []) (k2 :: rest) = true := by
        cases rest <;> simp [settable, Json.indexable, Json.contains, Json.find]
      have ih := walk_setPath value (k2 :: rest) (Json.object []) (List.cons_ne_nil _ _) hs
      simp only [Bool.false_eq_true, if_false] at h
      simp only [setPath, hc, h, Bool.not_false, Bool.not_true, Bool.and_false, if_true,
        Bool.false_eq_true, if_false, Json.member_put]
      rw [walk, Json.contains_put, Json.member_put]
      exact ih
    · simp only [settable, hc, if_true] at h
      have ih := walk_setPath value (k2 :: rest) (j.member k) (List.cons_ne_nil _ _) h
      simp only [setPath, hc, Bool.not_true, Bool.false_and, Bool.false_eq_true, if_false]
      rw [walk, Json.contains_put, Json.member_put]
      exact ih

theorem splitKeyLoop_ne_nil : ∀ (cs : List Char) (keys : List String) (current : List Char),
    ((splitKeyLoop cs keys current).1 ≠ [] ∨ (splitKeyLoop cs keys current).2 ≠ []) ↔
      (keys ≠ [] ∨ current ≠ [] ∨ ∃ c ∈ cs, c ≠ '.')
  | [], keys, current => by simp [splitKeyLoop]
  | c :: cs, keys, current => by
    unfold splitKeyLoop
    by_cases hc : c = '.'
    · by_cases hcur : current ≠ []
      · rw [if_pos hc, if_pos hcur, splitKeyLoop_ne_nil]
        simp [hc, hcur]
      · rw [if_pos hc, if_neg hcur, splitKeyLoop_ne_nil]
        simp [hc]
    · rw [if_neg hc, splitKeyLoop_ne_nil]
      simp [hc]

/-- The key has a segment exactly when one of its characters is not a dot. -/
theorem splitKey_ne_nil (key : String) :
    splitKey key ≠ [] ↔ ∃ c ∈ key.toList, c ≠ '.' := by
  have h := splitKeyLoop_ne_nil key.toList [] []
  simp only [ne_eq, not_true_eq_false, false_or] at h
  rw [← h]
  unfold splitKey
  generalize splitKeyLoop key.toList [] [] = r
  obtain ⟨a, b⟩ := r
  by_cases h2 : b = []
  · simp [h2]
  · simp [h2]

end ConfigManager

section ConfigRoundTrip

open ConfigManager

/-- C25 (as stated, refuted). On a freshly constructed manager, which has
loaded no file, `setInt("a", 1)` stores the value (the walk of the getter
finds it) and `getInt("a", 0)` returns the default `0`. On the loaded
`sample`, whose member `name` is a string, `setInt("name.size", 6)` stores
nothing and `getInt("name.size", 0)` returns `0`. -/
theorem config_round_trip_counterexample :
    (new.setInt "a" 1).getInt "a" 0 = 0 ∧
      walk (new.setInt "a" 1).config_ (splitKey "a") = some (Json.numberInteger 1) ∧
      splitKey "a" = ["a"] ∧
      (sample.setInt "name.size" 6).getInt "name.size" 0 = 0 ∧
      splitKey "name.size" = ["name", "size"] ∧
      sample.loaded_ = true :=
  ⟨by decide, rfl, by decide, by decide, by decide, rfl⟩

/-- C25 (amended). For every key with at least one non-empty segment, every
`int` value `v` and every default `d`: on a manager that has loaded a file
and whose configuration has an object or `null` wherever `setValue` indexes
with a key, `getInt(key, d)` after `setInt(key, v)` returns `v`, and
`setInt` leaves `loaded_` as it was. On a manager that has not loaded a file
`getInt` returns the default whatever has been set; where `setValue` meets
another kind of value (exactly then its assignment does not complete) the
configuration is left unchanged. When `getInt` returns something other than
the default, the manager is loaded, the key is found and the value found
converts to `int` (a number or a boolean). -/
theorem config_round_trip (c : ConfigManager) (key : String) (v d : Int)
    (hkey : splitKey key ≠ []) (hv : -2 ^ 31 ≤ v ∧ v < 2 ^ 31) :
    (c.loaded_ = true → settable c.config_ (splitKey key) = true →
      (c.setInt key v).getInt key d = v) ∧
    (c.setInt key v).loaded_ = c.loaded_ ∧
    (c.loaded_ = false → (c.setInt key v).getInt key d = d) ∧
    (settable c.config_ (splitKey key) = false → c.setInt key v = c) ∧
    (setPath c.config_ (splitKey key) (Json.numberInteger v)).2 =
      settable c.config_ (splitKey key) ∧
    (c.getInt key d ≠ d → c.loaded_ = true ∧
      ∃ j, walk c.config_ (splitKey key) = some j ∧ j.getInt = some (c.getInt key d)) := by
  refine ⟨fun hl hs => ?_, rfl, fun hl => ?_, fun hs => ?_, setPath_ok _ _ _ hkey,
    fun hne => ?_⟩
  · have hw := walk_setPath (Json.numberInteger v) _ _ hkey hs
    unfold getInt
    have hl2 : (c.setInt key v).loaded_ = true := hl
    rw [hl2]
    simp only [Bool.not_true, Bool.false_eq_true, if_false]
    show (match walk (setPath c.config_ (splitKey key) (Json.numberInteger v)).1 (splitKey key)
      with
      | none => d
      | some j =>
        match j.getInt with
        | some n => n
        | none => d) = v
    rw [hw]
    simp only [Json.getInt]
    exact Json.toInt32_of_int hv.1 hv.2
  · unfold getInt
    have hl2 : (c.setInt key v).loaded_ = false := hl
    rw [hl2]
    rfl
  · have hu := setPath_unchanged (Json.numberInteger v) _ _ hs
    show { c with config_ := (setPath c.config_ (splitKey key) (Json.numberInteger v)).1 } = c
    rw [hu]
  · unfold getInt at hne ⊢
    cases hl : c.loaded_
    · simp [hl] at hne
    · simp only [hl, Bool.not_true, Bool.false_eq_true, if_false] at hne ⊢
      refine ⟨trivial, ?_⟩
      cases hw : walk c.config_ (splitKey key) with
      | none => simp [hw] at hne
      | some j =>
        simp only [hw] at hne ⊢
        cases hg : j.getInt with
        | none => simp [hg] at hne
        | some n => exact ⟨j, rfl, by simp [hg]⟩

/-- C25 witness: on the loaded `sample`, `setInt("audio.frame", 512)` followed
by `getInt("audio.frame", 0)` gives 512. -/
theorem config_round_trip_witness :
    splitKey "audio.frame" ≠ [] ∧ sample.loaded_ = true ∧
      settable sample.config_ (splitKey "audio.frame") = true ∧
      (sample.setInt "audio.frame" 512).getInt "audio.frame" 0 = 512 :=
  ⟨by decide, rfl, by decide,
    (config_round_trip sample "audio.frame" 512 0 (by decide) (by decide)).1 rfl (by decide)⟩

end ConfigRoundTrip


/-! ## One producer and one consumer: the stream and the slots -/

theorem accepted_append (a b : List (List Int × Bool)) :
    accepted (a ++ b) = accepted a ++ accepted b := by
  induction a with
  | nil => rfl
  | cons x rest ih =>
    obtain ⟨data, ok⟩ := x
    cases ok <;> simp [accepted, ih]

/-- Two positions of the stream less than the number of slots apart lie in
different slots. -/
theorem slot_ne_of_lt {n a b : Nat} (h1 : a < b) (h2 : b < a + n) : a % n ≠ b % n := by
  intro h
  have hdvd : n ∣ b - a := (Nat.modEq_iff_dvd' (le_of_lt h1)).mp h
  have := Nat.le_of_dvd (by omega) hdvd
  omega

/-- The circular distance `(tail + capacity_ - head) % capacity_` of two
indices that stand for stream positions `seen ≤ T ≤ seen + C`. -/
theorem circular_distance {C seen T : Nat} (hC : C < 2 ^ 63) (h1 : seen ≤ T)
    (h2 : T ≤ seen + C) :
    szSub (szAdd (T % (C + 1)) (C + 1)) (seen % (C + 1)) % (C + 1) = T - seen := by
  have ht : T % (C + 1) < C + 1 := Nat.mod_lt _ (by omega)
  have hs : seen % (C + 1) < C + 1 := Nat.mod_lt _ (by omega)
  rw [szAdd_of_lt (by omega), szSub_of_le (by omega) (by omega)]
  obtain ⟨d, rfl⟩ : ∃ d, T = seen + d := ⟨T - seen, by omega⟩
  have hd : d < C + 1 := by omega
  have e : (seen + d) % (C + 1) = (seen % (C + 1) + d) % (C + 1) := by
    rw [Nat.mod_add_mod]
  rw [e, mod_of_lt_two_mul (x := seen % (C + 1) + d) (by omega)]
  split
  · have : seen % (C + 1) + d + (C + 1) - seen % (C + 1) = d + (C + 1) := by omega
    rw [this, Nat.add_mod_right, Nat.mod_eq_of_lt hd]
    omega
  · have : seen % (C + 1) + d - (C + 1) + (C + 1) - seen % (C + 1) = d := by omega
    rw [this, Nat.mod_eq_of_lt hd]
    omega

/-- The index after a slot of stream position `x` is the slot of `x + 1`. -/
theorem next_slot {C : Nat} (hC : C < 2 ^ 63) (x : Nat) :
    szAdd (x % (C + 1)) 1 % (C + 1) = (x + 1) % (C + 1) := by
  have hx : x % (C + 1) < C + 1 := Nat.mod_lt _ (by omega)
  rw [szAdd_of_lt (by omega), Nat.mod_add_mod]

theorem getD_set_other (buf : List Int) {i j : Nat} (x : Int) (h : i ≠ j) :
    (buf.set i x).getD j 0 = buf.getD j 0 := by
  simp only [List.getD_eq_getElem?_getD]
  rw [List.getElem?_set_ne h]

theorem getD_set_same (buf : List Int) {i : Nat} (x : Int) (h : i < buf.length) :
    (buf.set i x).getD i 0 = x := by
  simp only [List.getD_eq_getElem?_getD]
  rw [List.getElem?_set_self h]
  rfl

theorem getD_append_new (a b : List Int) (i : Nat) :
    (a ++ b).getD (a.length + i) 0 = b.getD i 0 := by
  simp only [List.getD_eq_getElem?_getD]
  rw [List.getElem?_append_right (by omega)]
  congr 2
  omega

theorem getD_append_old (a b : List Int) {i : Nat} (h : i < a.length) :
    (a ++ b).getD i 0 = a.getD i 0 := by
  simp only [List.getD_eq_getElem?_getD]
  rw [List.getElem?_append_left h]

theorem take_succ_getD (l : List Int) {n : Nat} (h : n < l.length) :
    l.take (n + 1) = l.take n ++ [l.getD n 0] := by
  rw [List.take_succ, List.getD_eq_getElem?_getD, List.getElem?_eq_getElem h]
  rfl

namespace Spsc

theorem prodInv_mono {C H K T : Nat} {buf : List Int} {calls : List (List Int)}
    {pc : WriteAt} (hHK : H ≤ K) (h : prodInv C H T buf calls pc) :
    prodInv C K T buf calls pc := by
  cases pc with
  | loadHead => trivial
  | loadTail head =>
    obtain ⟨seen, h1, h2, h3⟩ := h
    exact ⟨seen, by omega, h2, h3⟩
  | reloadTail =>
    intro data hd
    have := h data hd
    omega
  | copy tail left =>
    intro data hd
    obtain ⟨written, h1, h2, h3, h4⟩ := h data hd
    exact ⟨written, h1, h2, by omega, h4⟩

theorem consInv_append {C H T : Nat} {acc out : List Int} {pc : ReadAt} (more : List Int)
    (hacc : acc.length = T) (hle : H ≤ T) (h : consInv C H T acc out pc) :
    consInv C H (T + more.length) (acc ++ more) out pc := by
  cases pc with
  | loadHead =>
    show out = (acc ++ more).take H
    rw [List.take_append_of_le_length (by omega)]
    exact h
  | loadTail head =>
    refine ⟨h.1, ?_⟩
    rw [List.take_append_of_le_length (by omega)]
    exact h.2
  | reloadHead toRead =>
    refine ⟨by have := h.1; omega, ?_⟩
    rw [List.take_append_of_le_length (by omega)]
    exact h.2
  | copy head left toRead =>
    obtain ⟨k, h1, h2, h3, h4⟩ := h
    refine ⟨k, h1, h2, by omega, ?_⟩
    rw [List.take_append_of_le_length (by omega)]
    exact h4

theorem coherent_init {C : Nat} (hC : C < 2 ^ 63) (writes : List (List Int))
    (reads : List Nat) : Coherent C (init C writes reads) 0 0 := by
  have h : szAdd C 1 = C + 1 := szAdd_of_lt (by omega)
  refine ⟨?_, ?_, ?_, ?_, le_refl _, by omega, rfl, rfl, ?_, trivial, rfl⟩
  · simp [init, AudioRingBuffer.new, h]
  · simp [init, AudioRingBuffer.new, h]
  · simp [init, AudioRingBuffer.new]
  · simp [init, AudioRingBuffer.new]
  · intro i _ hi
    omega

theorem accepted_done_false (done : List (List Int × Bool)) (data : List Int) :
    accepted (done ++ [(data, false)]) = accepted done := by
  rw [accepted_append]
  simp [accepted]

theorem accepted_done_true (done : List (List Int × Bool)) (data : List Int) :
    accepted (done ++ [(data, true)]) = accepted done ++ data := by
  rw [accepted_append]
  simp [accepted]

/-- The free space the producer computes from a head it loaded earlier. -/
theorem producer_free {C seen T : Nat} (hC : C < 2 ^ 63) (h1 : seen ≤ T) (h2 : T ≤ seen + C) :
    szSub (szSub (C + 1)
      (szSub (szAdd (T % (C + 1)) (C + 1)) (seen % (C + 1)) % (C + 1))) 1 = C - (T - seen) := by
  rw [circular_distance hC h1 h2, szSub_of_le (a := C + 1) (b := T - seen) (by omega) (by omega),
    szSub_of_le (by omega) (by omega)]
  omega

theorem coherent_stepProducer {C : Nat} (hC : C < 2 ^ 63) {s : Spsc} {H T : Nat}
    (h : Coherent C s H T) : ∃ T2, Coherent C s.stepProducer H T2 := by
  obtain ⟨shared, ⟨pc, calls, done⟩, consumer⟩ := s
  obtain ⟨hcap, hlen, hhead, htail, hle, hroom, hret, hwr, hst, hprod, hcons⟩ := h
  simp only at hcap hlen hhead htail hret hwr hst hprod hcons
  cases calls with
  | nil => exact ⟨T, ⟨hcap, hlen, hhead, htail, hle, hroom, hret, hwr, hst, hprod, hcons⟩⟩
  | cons data later =>
    cases pc with
    | loadHead =>
      exact ⟨T, ⟨hcap, hlen, hhead, htail, hle, hroom, hret, hwr, hst,
        ⟨H, le_refl _, hhead, hroom⟩, hcons⟩⟩
    | loadTail head =>
      obtain ⟨seen, h1, h2, h3⟩ := hprod
      have hfree := producer_free hC (le_trans h1 hle) h3
      by_cases hgt : data.length > C - (T - seen)
      · have e : stepProducer ⟨shared, ⟨WriteAt.loadTail head, data :: later, done⟩, consumer⟩ =
            ⟨shared, ⟨WriteAt.loadHead, later, done ++ [(data, false)]⟩, consumer⟩ := by
          simp only [stepProducer]
          rw [hcap, htail, h2, hfree, if_pos hgt]
        rw [e]
        refine ⟨T, ⟨hcap, hlen, hhead, htail, hle, hroom, hret, ?_, ?_, trivial, ?_⟩⟩
        · simp only [accepted_done_false]
          exact hwr
        · simp only [accepted_done_false]
          exact hst
        · simp only [accepted_done_false]
          exact hcons
      · have e : stepProducer ⟨shared, ⟨WriteAt.loadTail head, data :: later, done⟩, consumer⟩ =
            ⟨shared, ⟨WriteAt.reloadTail, data :: later, done⟩, consumer⟩ := by
          simp only [stepProducer]
          rw [hcap, htail, h2, hfree, if_neg hgt]
        rw [e]
        refine ⟨T, ⟨hcap, hlen, hhead, htail, hle, hroom, hret, hwr, hst, ?_, hcons⟩⟩
        intro d hd
        simp only [List.head?_cons, Option.mem_def, Option.some.injEq] at hd
        subst hd
        omega
    | reloadTail =>
      show ∃ T2, Coherent C
        ⟨shared, ⟨WriteAt.copy shared.tail_ data, data :: later, done⟩, consumer⟩ H T2
      refine ⟨T, ⟨hcap, hlen, hhead, htail, hle, hroom, hret, hwr, hst, ?_, hcons⟩⟩
      intro d hd
      have hb := hprod d hd
      simp only [List.head?_cons, Option.mem_def, Option.some.injEq] at hd
      subst hd
      exact ⟨[], rfl, by simpa using htail, hb, fun i hi => absurd hi (by simp)⟩
    | copy tail left =>
      obtain ⟨written, e1, e2, e3, e4⟩ := hprod data (by simp)
      cases left with
      | nil =>
        rw [List.append_nil] at e1
        subst e1
        show ∃ T2, Coherent C
          ⟨{ shared with tail_ := tail }, ⟨WriteAt.loadHead, later, done ++ [(data, true)]⟩,
            consumer⟩ H T2
        refine ⟨T + data.length, ⟨hcap, hlen, hhead, e2, by omega, e3, hret, ?_, ?_, trivial, ?_⟩⟩
        · show (accepted (done ++ [(data, true)])).length = _
          rw [accepted_done_true, List.length_append, hwr]
        · intro i hi1 hi2
          show shared.buffer_.getD (i % (C + 1)) 0 = (accepted (done ++ [(data, true)])).getD i 0
          rw [accepted_done_true]
          by_cases hiT : i < T
          · rw [getD_append_old _ _ (by omega)]
            exact hst i hi1 hiT
          · obtain ⟨r, rfl⟩ : ∃ r, i = T + r := ⟨i - T, by omega⟩
            rw [← hwr, getD_append_new, hwr]
            exact e4 r (by omega)
        · show consInv C H (T + data.length) (accepted (done ++ [(data, true)])) _ _
          rw [accepted_done_true]
          exact consInv_append data hwr hle hcons
      | cons x rest =>
        have hlenw : T + written.length + 1 + rest.length ≤ H + C := by
          have := congrArg List.length e1
          rw [List.length_append, List.length_cons] at this
          omega
        have htl : tail < shared.buffer_.length := by
          rw [hlen, e2]
          exact Nat.mod_lt _ (by omega)
        show ∃ T2, Coherent C
          ⟨{ shared with buffer_ := shared.buffer_.set tail x },
            ⟨WriteAt.copy (szAdd tail 1 % shared.capacity_) rest, data :: later, done⟩,
            consumer⟩ H T2
        refine ⟨T, ⟨hcap, (List.length_set _ _ _).trans hlen, hhead, htail, hle, hroom, hret, hwr,
          ?_, ?_, hcons⟩⟩
        · intro i hi1 hi2
          show (shared.buffer_.set tail x).getD (i % (C + 1)) 0 = _
          rw [getD_set_other _ _ (by
            rw [e2]
            exact (slot_ne_of_lt (by omega) (by omega)).symm)]
          exact hst i hi1 hi2
        · intro d hd
          simp only [List.head?_cons, Option.mem_def, Option.some.injEq] at hd
          subst hd
          refine ⟨written ++ [x], by rw [e1]; simp, ?_, e3, ?_⟩
          · show szAdd tail 1 % shared.capacity_ = _
            rw [hcap, e2, next_slot hC, List.length_append]
            rfl
          · intro i hi
            rw [List.length_append, List.length_singleton] at hi
            show (shared.buffer_.set tail x).getD ((T + i) % (C + 1)) 0 = _
            by_cases hiw : i < written.length
            · rw [getD_set_other _ _ (by
                rw [e2]
                exact (slot_ne_of_lt (by omega) (by omega)).symm)]
              rw [e4 i hiw, getD_append_old _ _ hiw]
            · have hi2 : i = written.length := by omega
              subst hi2
              rw [← e2, getD_set_same _ _ htl]
              have := getD_append_new written [x] 0
              rw [Nat.add_zero] at this
              rw [this]
              rfl

theorem coherent_stepConsumer {C : Nat} (hC : C < 2 ^ 63) {s : Spsc} {H T : Nat}
    (h : Coherent C s H T) : ∃ H2, Coherent C s.stepConsumer H2 T := by
  obtain ⟨shared, producer, ⟨pc, calls, out, done⟩⟩ := s
  obtain ⟨hcap, hlen, hhead, htail, hle, hroom, hret, hwr, hst, hprod, hcons⟩ := h
  simp only at hcap hlen hhead htail hret hwr hst hprod hcons
  cases calls with
  | nil => exact ⟨H, ⟨hcap, hlen, hhead, htail, hle, hroom, hret, hwr, hst, hprod, hcons⟩⟩
  | cons count later =>
    cases pc with
    | loadHead =>
      exact ⟨H, ⟨hcap, hlen, hhead, htail, hle, hroom, hret, hwr, hst, hprod, ⟨hhead, hcons⟩⟩⟩
    | loadTail head =>
      obtain ⟨h1, h2⟩ := hcons
      have e : stepConsumer ⟨shared, producer, ⟨ReadAt.loadTail head, count :: later, out, done⟩⟩ =
          ⟨shared, producer, ⟨ReadAt.reloadHead (min count (T - H)), count :: later, out, done⟩⟩ := by
        simp only [stepConsumer]
        rw [hcap, htail, h1, circular_distance hC hle hroom]
      rw [e]
      refine ⟨H, ⟨hcap, hlen, hhead, htail, hle, hroom, hret, hwr, hst, hprod, ⟨?_, h2⟩⟩⟩
      have := Nat.min_le_right count (T - H)
      omega
    | reloadHead toRead =>
      show ∃ H2, Coherent C
        ⟨shared, producer, ⟨ReadAt.copy shared.head_ toRead toRead, count :: later, out, done⟩⟩
        H2 T
      exact ⟨H, ⟨hcap, hlen, hhead, htail, hle, hroom, hret, hwr, hst, hprod,
        ⟨0, Nat.zero_add _, hhead, hcons.1, hcons.2⟩⟩⟩
    | copy head left toRead =>
      obtain ⟨k, k1, k2, k3, k4⟩ := hcons
      cases left with
      | zero =>
        rw [Nat.add_zero] at k1
        subst k1
        show ∃ H2, Coherent C
          ⟨{ shared with head_ := head }, producer,
            ⟨ReadAt.loadHead, later, out, done ++ [k]⟩⟩ H2 T
        refine ⟨H + k, ⟨hcap, hlen, k2, htail, k3, by omega, ?_, hwr, ?_, ?_, k4⟩⟩
        · show (done ++ [k]).sum = H + k
          rw [List.sum_append, List.sum_singleton, hret]
        · intro i hi1 hi2
          exact hst i (by omega) hi2
        · exact prodInv_mono (Nat.le_add_right H k) hprod
      | succ left =>
        show ∃ H2, Coherent C
          ⟨shared, producer,
            ⟨ReadAt.copy (szAdd head 1 % shared.capacity_) left toRead, count :: later,
              out ++ [shared.buffer_.getD head 0], done⟩⟩ H2 T
        refine ⟨H, ⟨hcap, hlen, hhead, htail, hle, hroom, hret, hwr, hst, hprod,
          ⟨k + 1, by omega, ?_, k3, ?_⟩⟩⟩
        · show szAdd head 1 % shared.capacity_ = _
          rw [hcap, k2, next_slot hC]
          rfl
        · show out ++ [shared.buffer_.getD head 0] = _
          have hk : H + k < (accepted producer.done).length := by omega
          have e := take_succ_getD (accepted producer.done) hk
          rw [show H + (k + 1) = H + k + 1 from rfl, e, ← k4, k2, hst (H + k) (by omega) (by omega)]

theorem coherent_step {C : Nat} (hC : C < 2 ^ 63) {s : Spsc} {H T : Nat}
    (h : Coherent C s H T) (t : Thread) : ∃ H2 T2, Coherent C (s.step t) H2 T2 := by
  cases t with
  | producer =>
    obtain ⟨T2, h2⟩ := coherent_stepProducer hC h
    exact ⟨H, T2, h2⟩
  | consumer =>
    obtain ⟨H2, h2⟩ := coherent_stepConsumer hC h
    exact ⟨H2, T, h2⟩

theorem coherent_run {C : Nat} (hC : C < 2 ^ 63) (schedule : List Thread) :
    ∀ {s : Spsc} {H T : Nat}, Coherent C s H T → ∃ H2 T2, Coherent C (s.run schedule) H2 T2 := by
  induction schedule with
  | nil => exact fun h => ⟨_, _, h⟩
  | cons t rest ih =>
    intro s H T h
    obtain ⟨H2, T2, h2⟩ := coherent_step hC h t
    exact ih h2

/-- In a coherent state the samples copied so far are a prefix of the stream
written, the slot accesses are inside the storage, and a slot store and a
slot load that are both next are to different slots. -/
theorem coherent_facts {C : Nat} {s : Spsc} {H T : Nat} (h : Coherent C s H T) :
    (∃ n, s.consumer.out = (accepted s.producer.done).take n) ∧
    (s.consumer.pc = ReadAt.loadHead →
      s.consumer.out = (accepted s.producer.done).take s.consumer.done.sum) ∧
    (∀ j, s.storeIndex = some j → j < s.shared.buffer_.length) ∧
    (∀ k, s.loadIndex = some k → k < s.shared.buffer_.length) ∧
    (∀ j k, s.storeIndex = some j → s.loadIndex = some k → j ≠ k) := by
  obtain ⟨shared, ⟨ppc, pcalls, pdone⟩, ⟨cpc, ccalls, out, cdone⟩⟩ := s
  obtain ⟨hcap, hlen, hhead, htail, hle, hroom, hret, hwr, hst, hprod, hcons⟩ := h
  simp only at hcap hlen hhead htail hret hwr hst hprod hcons
  have hstore : ∀ j, storeIndex ⟨shared, ⟨ppc, pcalls, pdone⟩, ⟨cpc, ccalls, out, cdone⟩⟩ = some j →
      ∃ m, j = (T + m) % (C + 1) ∧ T + m < H + C := by
    intro j hj
    cases pcalls with
    | nil => simp [storeIndex] at hj
    | cons data later =>
      cases ppc with
      | copy tail left =>
        cases left with
        | nil => simp [storeIndex] at hj
        | cons x rest =>
          simp only [storeIndex, Option.some.injEq] at hj
          obtain ⟨written, e1, e2, e3, _⟩ := hprod data (by simp)
          have := congrArg List.length e1
          rw [List.length_append, List.length_cons] at this
          exact ⟨written.length, by rw [← hj, e2], by omega⟩
      | loadHead => simp [storeIndex] at hj
      | loadTail _ => simp [storeIndex] at hj
      | reloadTail => simp [storeIndex] at hj
  have hload : ∀ k, loadIndex ⟨shared, ⟨ppc, pcalls, pdone⟩, ⟨cpc, ccalls, out, cdone⟩⟩ = some k →
      ∃ r, k = (H + r) % (C + 1) ∧ H + r < T := by
    intro k hk
    cases ccalls with
    | nil => simp [loadIndex] at hk
    | cons count later =>
      cases cpc with
      | copy head left toRead =>
        cases left with
        | zero => simp [loadIndex] at hk
        | succ left =>
          simp only [loadIndex, Option.some.injEq] at hk
          obtain ⟨r, k1, k2, k3, _⟩ := hcons
          exact ⟨r, by rw [← hk, k2], by omega⟩
      | loadHead => simp [loadIndex] at hk
      | loadTail _ => simp [loadIndex] at hk
      | reloadHead _ => simp [loadIndex] at hk
  refine ⟨?_, ?_, ?_, ?_, ?_⟩
  · cases cpc with
    | loadHead => exact ⟨H, hcons⟩
    | loadTail _ => exact ⟨H, hcons.2⟩
    | reloadHead _ => exact ⟨H, hcons.2⟩
    | copy head left toRead =>
      obtain ⟨r, _, _, _, k4⟩ := hcons
      exact ⟨H + r, k4⟩
  · intro hpc
    simp only at hpc
    subst hpc
    rw [hret]
    exact hcons
  · intro j hj
    obtain ⟨m, e, _⟩ := hstore j hj
    rw [e]
    show _ < shared.buffer_.length
    rw [hlen]
    exact Nat.mod_lt _ (by omega)
  · intro k hk
    obtain ⟨r, e, _⟩ := hload k hk
    rw [e]
    show _ < shared.buffer_.length
    rw [hlen]
    exact Nat.mod_lt _ (by omega)
  · intro j k hj hk
    obtain ⟨m, e1, b1⟩ := hstore j hj
    obtain ⟨r, e2, b2⟩ := hload k hk
    rw [e1, e2]
    exact (slot_ne_of_lt (by omega) (by omega)).symm

theorem coherent_bounds {C : Nat} {s : Spsc} {H T : Nat} (h : Coherent C s H T) :
    s.consumer.done.sum ≤ (accepted s.producer.done).length ∧
      (accepted s.producer.done).length ≤ s.consumer.done.sum + C := by
  rw [h.returned, h.written]
  exact ⟨h.le, h.room⟩

theorem booked_init (C : Nat) (writes : List (List Int)) (reads : List Nat) :
    Booked writes reads (init C writes reads) :=
  ⟨rfl, by simp [init], fun _ => rfl, fun _ => rfl⟩

theorem booked_step {writes : List (List Int)} {reads : List Nat} {s : Spsc}
    (h : Booked writes reads s) (t : Thread) : Booked writes reads (s.step t) := by
  obtain ⟨shared, ⟨ppc, pcalls, pdone⟩, ⟨cpc, ccalls, out, cdone⟩⟩ := s
  obtain ⟨h1, h2, h3, h4⟩ := h
  simp only at h1 h2 h3 h4
  cases t with
  | producer =>
    cases pcalls with
    | nil => exact ⟨h1, h2, h3, h4⟩
    | cons data later =>
      cases ppc with
      | loadHead => exact ⟨h1, h2, fun e => by simp [step, stepProducer] at e, h4⟩
      | loadTail head =>
        simp only [step, stepProducer]
        split
        · exact ⟨by simpa using h1, h2, fun _ => rfl, h4⟩
        · exact ⟨h1, h2, fun e => by simp at e, h4⟩
      | reloadTail => exact ⟨h1, h2, fun e => by simp [step, stepProducer] at e, h4⟩
      | copy tail left =>
        cases left with
        | nil => exact ⟨by simpa [step, stepProducer] using h1, h2, fun _ => rfl, h4⟩
        | cons x rest => exact ⟨h1, h2, fun e => by simp [step, stepProducer] at e, h4⟩
  | consumer =>
    cases ccalls with
    | nil => exact ⟨h1, h2, h3, h4⟩
    | cons count later =>
      cases cpc with
      | loadHead => exact ⟨h1, h2, h3, fun e => by simp [step, stepConsumer] at e⟩
      | loadTail head => exact ⟨h1, h2, h3, fun e => by simp [step, stepConsumer] at e⟩
      | reloadHead toRead => exact ⟨h1, h2, h3, fun e => by simp [step, stepConsumer] at e⟩
      | copy head left toRead =>
        cases left with
        | zero =>
          refine ⟨h1, ?_, h3, fun _ => rfl⟩
          simp only [step, stepConsumer, List.length_append, List.length_singleton]
          simp only [List.length_cons] at h2
          omega
        | succ left => exact ⟨h1, h2, h3, fun e => by simp [step, stepConsumer] at e⟩

theorem booked_run {writes : List (List Int)} {reads : List Nat} (schedule : List Thread) :
    ∀ {s : Spsc}, Booked writes reads s → Booked writes reads (s.run schedule) := by
  induction schedule with
  | nil => exact fun h => h
  | cons t rest ih => exact fun h => ih (booked_step h t)

theorem run_cons (s : Spsc) (t : Thread) (rest : List Thread) :
    s.run (t :: rest) = (s.step t).run rest := rfl

theorem run_append (s : Spsc) (a b : List Thread) : s.run (a ++ b) = (s.run a).run b := by
  unfold run
  rw [List.foldl_append]

theorem producerWork_eq_zero {p : ProducerThread} (h : producerWork p = 0) : p.calls = [] := by
  obtain ⟨pc, calls, done⟩ := p
  cases calls with
  | nil => rfl
  | cons data later =>
    cases pc <;> simp [producerWork] at h

theorem consumerWork_eq_zero {c : ConsumerThread} (h : consumerWork c = 0) : c.calls = [] := by
  obtain ⟨pc, calls, out, done⟩ := c
  cases calls with
  | nil => rfl
  | cons count later =>
    cases pc <;> simp [consumerWork] at h

/-- Every step of the producer uses up one unit of its work; a step of the
consumer leaves it alone. -/
theorem producerWork_step (s : Spsc) (t : Thread) :
    producerWork (s.step t).producer ≤
      producerWork s.producer - (if t = Thread.producer then 1 else 0) := by
  obtain ⟨shared, ⟨ppc, pcalls, pdone⟩, ⟨cpc, ccalls, out, cdone⟩⟩ := s
  cases t with
  | consumer =>
    have e : (step ⟨shared, ⟨ppc, pcalls, pdone⟩, ⟨cpc, ccalls, out, cdone⟩⟩
        Thread.consumer).producer = ⟨ppc, pcalls, pdone⟩ := by
      cases ccalls with
      | nil => rfl
      | cons count later =>
        cases cpc with
        | copy head left toRead => cases left <;> rfl
        | loadHead => rfl
        | loadTail _ => rfl
        | reloadHead _ => rfl
    rw [e]
    simp
  | producer =>
    simp only [if_true]
    cases pcalls with
    | nil => simp [step, stepProducer, producerWork]
    | cons data later =>
      cases ppc with
      | loadHead => simp only [step, stepProducer, producerWork]; omega
      | loadTail head =>
        simp only [step, stepProducer]
        split
        · cases later with
          | nil => simp [producerWork]
          | cons d2 l2 => simp only [producerWork, List.map_cons, List.sum_cons]; omega
        · simp only [producerWork]; omega
      | reloadTail => simp only [step, stepProducer, producerWork]; omega
      | copy tail left =>
        cases left with
        | nil =>
          cases later with
          | nil => simp [step, stepProducer, producerWork]
          | cons d2 l2 =>
            simp only [step, stepProducer, producerWork, List.map_cons, List.sum_cons,
              List.length_nil]
            omega
        | cons x rest =>
          simp only [step, stepProducer, producerWork, List.length_cons]; omega

/-- Every step of the consumer uses up one unit of its work; a step of the
producer leaves it alone. -/
theorem consumerWork_step (s : Spsc) (t : Thread) :
    consumerWork (s.step t).consumer ≤
      consumerWork s.consumer - (if t = Thread.consumer then 1 else 0) := by
  obtain ⟨shared, ⟨ppc, pcalls, pdone⟩, ⟨cpc, ccalls, out, cdone⟩⟩ := s
  cases t with
  | producer =>
    have e : (step ⟨shared, ⟨ppc, pcalls, pdone⟩, ⟨cpc, ccalls, out, cdone⟩⟩
        Thread.producer).consumer = ⟨cpc, ccalls, out, cdone⟩ := by
      cases pcalls with
      | nil => rfl
      | cons data later =>
        cases ppc with
        | copy tail left => cases left <;> rfl
        | loadHead => rfl
        | loadTail _ =>
          simp only [step, stepProducer]
          split <;> rfl
        | reloadTail => rfl
    rw [e]
    simp
  | consumer =>
    simp only [if_true]
    cases ccalls with
    | nil => simp [step, stepConsumer, consumerWork]
    | cons count later =>
      cases cpc with
      | loadHead => simp only [step, stepConsumer, consumerWork]; omega
      | loadTail head =>
        simp only [step, stepConsumer, consumerWork]
        have := Nat.min_le_left count
          (szSub (szAdd shared.tail_ shared.capacity_) head % shared.capacity_)
        omega
      | reloadHead toRead => simp only [step, stepConsumer, consumerWork]; omega
      | copy head left toRead =>
        cases left with
        | zero =>
          cases later with
          | nil => simp [step, stepConsumer, consumerWork]
          | cons d2 l2 =>
            simp only [step, stepConsumer, consumerWork, List.map_cons, List.sum_cons]
            omega
        | succ left => simp only [step, stepConsumer, consumerWork]; omega

theorem work_run (schedule : List Thread) : ∀ s : Spsc,
    producerWork (s.run schedule).producer ≤
        producerWork s.producer - schedule.count Thread.producer ∧
      consumerWork (s.run schedule).consumer ≤
        consumerWork s.consumer - schedule.count Thread.consumer := by
  induction schedule with
  | nil => exact fun s => ⟨Nat.le_refl _, Nat.le_refl _⟩
  | cons t rest ih =>
    intro s
    obtain ⟨a1, a2⟩ := ih (s.step t)
    have b1 := producerWork_step s t
    have b2 := consumerWork_step s t
    rw [run_cons, List.count_cons, List.count_cons]
    cases t
    · simp only [if_true, beq_self_eq_true] at b1 b2 ⊢
      simp only [show (Thread.producer == Thread.consumer) = false from rfl,
        show (Thread.producer = Thread.consumer) = False from by simp, if_false,
        Bool.false_eq_true] at b2 ⊢
      constructor <;> omega
    · simp only [if_true, beq_self_eq_true] at b1 b2 ⊢
      simp only [show (Thread.consumer == Thread.producer) = false from rfl,
        show (Thread.consumer = Thread.producer) = False from by simp, if_false,
        Bool.false_eq_true] at b1 ⊢
      constructor <;> omega

theorem copy_alone (shared : AudioRingBuffer) (consumer : ConsumerThread) (data : List Int)
    (later : List (List Int)) (done : List (List Int × Bool)) :
    ∀ (left : List Int) (buf : List Int) (tail : Nat),
      run ⟨{ shared with buffer_ := buf }, ⟨WriteAt.copy tail left, data :: later, done⟩, consumer⟩
          (List.replicate left.length Thread.producer) =
        ⟨{ shared with
            buffer_ := (AudioRingBuffer.writeLoop shared.capacity_ buf tail left).1 },
          ⟨WriteAt.copy (AudioRingBuffer.writeLoop shared.capacity_ buf tail left).2 [],
            data :: later, done⟩, consumer⟩
  | [], _, _ => rfl
  | x :: rest, buf, tail => by
    rw [List.length_cons, List.replicate_succ, run_cons]
    exact copy_alone shared consumer data later done rest (buf.set tail x)
      (szAdd tail 1 % shared.capacity_)

/-- Run without interference, the steps of the producer through one call are
the method `write`. -/
theorem producer_alone (s : Spsc) (data : List Int) (later : List (List Int))
    (hpc : s.producer.pc = WriteAt.loadHead) (hcalls : s.producer.calls = data :: later) :
    s.run (List.replicate (if data.length > s.shared.freeSpace then 2 else data.length + 4)
        Thread.producer) =
      { shared := (s.shared.write data).2
        producer :=
          { pc := WriteAt.loadHead, calls := later
            done := s.producer.done ++ [(data, (s.shared.write data).1)] }
        consumer := s.consumer } := by
  obtain ⟨shared, ⟨pc, calls, done⟩, consumer⟩ := s
  simp only at hpc hcalls
  subst hpc hcalls
  simp only
  by_cases hgt : data.length > shared.freeSpace
  · rw [if_pos hgt, AudioRingBuffer.write_fail hgt]
    have hgt2 : data.length > szSub (szSub shared.capacity_
        (szSub (szAdd shared.tail_ shared.capacity_) shared.head_ % shared.capacity_)) 1 := hgt
    show ((Spsc.mk shared ⟨WriteAt.loadHead, data :: later, done⟩ consumer).step
      Thread.producer).step Thread.producer = _
    simp only [step, stepProducer]
    rw [if_pos hgt2]
  · rw [if_neg hgt, AudioRingBuffer.write_ok (Nat.le_of_not_gt hgt)]
    have hgt2 : ¬ data.length > szSub (szSub shared.capacity_
        (szSub (szAdd shared.tail_ shared.capacity_) shared.head_ % shared.capacity_)) 1 := hgt
    have e : data.length + 4 = 3 + (data.length + 1) := by omega
    rw [e, List.replicate_add, run_append]
    have e3 : (Spsc.mk shared ⟨WriteAt.loadHead, data :: later, done⟩ consumer).run
        (List.replicate 3 Thread.producer) =
        ⟨shared, ⟨WriteAt.copy shared.tail_ data, data :: later, done⟩, consumer⟩ := by
      show (((Spsc.mk shared ⟨WriteAt.loadHead, data :: later, done⟩ consumer).step
        Thread.producer).step Thread.producer).step Thread.producer = _
      simp only [step, stepProducer]
      rw [if_neg hgt2]
    rw [e3, List.replicate_add, run_append]
    have e4 := copy_alone shared consumer data later done data shared.buffer_ shared.tail_
    rw [show ({ shared with buffer_ := shared.buffer_ } : AudioRingBuffer) = shared from rfl] at e4
    rw [e4]
    rfl

theorem load_alone (shared : AudioRingBuffer) (producer : ProducerThread) (count : Nat)
    (later : List Nat) (done : List Nat) (toRead : Nat) :
    ∀ (left : Nat) (head : Nat) (out : List Int),
      run ⟨shared, producer, ⟨ReadAt.copy head left toRead, count :: later, out, done⟩⟩
          (List.replicate left Thread.consumer) =
        ⟨shared, producer,
          ⟨ReadAt.copy (AudioRingBuffer.readLoop shared.capacity_ shared.buffer_ head left).2 0
              toRead, count :: later,
            out ++ (AudioRingBuffer.readLoop shared.capacity_ shared.buffer_ head left).1, done⟩⟩
  | 0, _, out => by
    show _ = Spsc.mk shared producer ⟨_, _, out ++ [], _⟩
    rw [List.append_nil]
    rfl
  | left + 1, head, out => by
    rw [List.replicate_succ, run_cons]
    have ih := load_alone shared producer count later done toRead left
      (szAdd head 1 % shared.capacity_) (out ++ [shared.buffer_.getD head 0])
    rw [List.append_assoc] at ih
    exact ih

/-- Run without interference, the steps of the consumer through one call are
the method `read`. -/
theorem consumer_alone (s : Spsc) (count : Nat) (later : List Nat)
    (hpc : s.consumer.pc = ReadAt.loadHead) (hcalls : s.consumer.calls = count :: later) :
    s.run (List.replicate ((s.shared.read count).1 + 4) Thread.consumer) =
      { shared := (s.shared.read count).2.2
        producer := s.producer
        consumer :=
          { pc := ReadAt.loadHead, calls := later
            out := s.consumer.out ++ (s.shared.read count).2.1
            done := s.consumer.done ++ [(s.shared.read count).1] } } := by
  obtain ⟨shared, producer, ⟨pc, calls, out, done⟩⟩ := s
  simp only at hpc hcalls
  subst hpc hcalls
  simp only
  have e : (shared.read count).1 + 4 = 3 + ((shared.read count).1 + 1) := by omega
  rw [e, List.replicate_add, run_append]
  have e3 : (Spsc.mk shared producer ⟨ReadAt.loadHead, count :: later, out, done⟩).run
      (List.replicate 3 Thread.consumer) =
      ⟨shared, producer,
        ⟨ReadAt.copy shared.head_ (shared.read count).1 (shared.read count).1, count :: later,
          out, done⟩⟩ := rfl
  rw [e3, List.replicate_add, run_append, load_alone]
  rfl

end Spsc

section SpscStream

open Spsc

/-- C24. One producer making `write` calls and one consumer making `read`
calls on a buffer built by `AudioRingBuffer(C)`, their loads and stores of
`head_`, `tail_` and the slots interleaved by an arbitrary schedule. In the
state `s` reached: the samples the consumer has copied are, position by
position, the stream written (the data of the `write` calls that returned
true, in order), and between two of its calls they are exactly the first
`sum of the returned counts` samples of that stream; never more than `C`
samples are stored and unread; every slot access is inside the storage, and a
slot store of the producer and a slot load of the consumer that are both next
are to different slots. A thread that gets as many steps as its calls need
(a call on `n` samples takes at most `n + 4` accesses) completes all its
calls, whatever the other thread does. -/
theorem spsc_stream (C : Nat) (hC : C < 2 ^ 63) (writes : List (List Int)) (reads : List Nat)
    (schedule : List Thread) (s : Spsc) (hs : s = (init C writes reads).run schedule) :
    s.producer.done.map Prod.fst ++ s.producer.calls = writes ∧
    s.consumer.out <+: accepted s.producer.done ∧
    (∀ i, i < s.consumer.out.length → s.consumer.out[i]? = (accepted s.producer.done)[i]?) ∧
    (s.consumer.pc = ReadAt.loadHead →
      s.consumer.out = (accepted s.producer.done).take s.consumer.done.sum) ∧
    s.consumer.done.sum ≤ (accepted s.producer.done).length ∧
    (accepted s.producer.done).length ≤ s.consumer.done.sum + C ∧
    (∀ j, s.storeIndex = some j → j < s.shared.buffer_.length) ∧
    (∀ k, s.loadIndex = some k → k < s.shared.buffer_.length) ∧
    (∀ j k, s.storeIndex = some j → s.loadIndex = some k → j ≠ k) ∧
    ((writes.map fun d => d.length + 4).sum ≤ schedule.count Thread.producer →
      s.producer.calls = [] ∧ s.producer.done.map Prod.fst = writes) ∧
    ((reads.map fun n => n + 4).sum ≤ schedule.count Thread.consumer →
      s.consumer.calls = [] ∧ s.consumer.done.length = reads.length ∧
        s.consumer.out = (accepted s.producer.done).take s.consumer.done.sum) := by
  subst hs
  obtain ⟨H, T, hco⟩ := coherent_run hC schedule (coherent_init hC writes reads)
  have hbk := booked_run schedule (booked_init C writes reads)
  obtain ⟨⟨n, f1⟩, f2, f3, f4, f5⟩ := coherent_facts hco
  obtain ⟨g1, g2⟩ := coherent_bounds hco
  obtain ⟨w1, w2⟩ := work_run schedule (init C writes reads)
  have hpre : ((init C writes reads).run schedule).consumer.out <+:
      accepted ((init C writes reads).run schedule).producer.done := by
    rw [f1]
    exact List.take_prefix _ _
  refine ⟨hbk.writes, hpre, ?_, f2, g1, g2, f3, f4, f5, ?_, ?_⟩
  · intro i hi
    obtain ⟨more, hmore⟩ := hpre
    rw [← hmore, List.getElem?_append_left hi]
  · intro hsteps
    have hw : producerWork ((init C writes reads).run schedule).producer = 0 := by
      have e : producerWork (init C writes reads).producer ≤
          (writes.map fun d => d.length + 4).sum := by
        cases writes with
        | nil => simp [init, producerWork]
        | cons d l => simp [init, producerWork]
      omega
    have hc := producerWork_eq_zero hw
    refine ⟨hc, ?_⟩
    have := hbk.writes
    rw [hc, List.append_nil] at this
    exact this
  · intro hsteps
    have hw : consumerWork ((init C writes reads).run schedule).consumer = 0 := by
      have e : consumerWork (init C writes reads).consumer ≤
          (reads.map fun n => n + 4).sum := by
        cases reads with
        | nil => simp [init, consumerWork]
        | cons d l => simp [init, consumerWork]
      omega
    have hc := consumerWork_eq_zero hw
    refine ⟨hc, ?_, f2 (hbk.consumerIdle hc)⟩
    have := hbk.reads
    rw [hc, List.length_nil, Nat.add_zero] at this
    exact this

/-- C24 witness: capacity 2, the writes `1, 2` (accepted), `3, 4, 5` (refused)
and `3`, reads of up to 1, 2 and 2 samples. After `upToSlots` the producer is
about to store into slot 2 and the consumer to load from slot 1; at the end of
`toTheEnd` the consumer has copied `1, 2, 3`. -/
theorem spsc_stream_witness :
    (small.run upToSlots).storeIndex = some 2 ∧ (small.run upToSlots).loadIndex = some 1 ∧
      (2 : Nat) ≠ 1 ∧
      (small.run toTheEnd).consumer.out = [1, 2, 3] ∧
      (small.run toTheEnd).consumer.done = [1, 1, 1] ∧
      (small.run toTheEnd).producer.done = [([1, 2], true), ([3, 4, 5], false), ([3], true)] ∧
      (small.run toTheEnd).consumer.out <+: accepted (small.run toTheEnd).producer.done :=
  have h1 := spsc_stream 2 (by decide) [[1, 2], [3, 4, 5], [3]] [1, 2, 2] upToSlots
    (small.run upToSlots) rfl
  have h2 := spsc_stream 2 (by decide) [[1, 2], [3, 4, 5], [3]] [1, 2, 2] toTheEnd
    (small.run toTheEnd) rfl
  ⟨by decide, by decide, h1.2.2.2.2.2.2.2.2.1 2 1 (by decide) (by decide), by decide, by decide,
    by decide, h2.2.1⟩

end SpscStream

/-! ## Ring buffer: what a read copies -/

section ReadCopies

open AudioRingBuffer

/-- C5. `read(buffer, count)` returns exactly `min(count, available())`, with
`available()` taken before the call, and copies exactly that many samples into
the output: the samples of the slots `head_`, `head_ + 1`, … (modulo
`capacity_`), in that order. In a state reachable from `AudioRingBuffer(C)`
these are the oldest `min(count, available())` stored samples, oldest first,
and the other stored samples stay stored. A read with `count = 0`, or on an
empty buffer, returns `0`, copies nothing and leaves the state as it was. -/
theorem read_returns_min (rb : AudioRingBuffer) (count : Nat) :
    (rb.read count).1 = min count rb.available ∧
    (rb.read count).2.1.length = min count rb.available ∧
    (rb.read count).2.1 = (readAccesses rb count).map (fun j => rb.buffer_.getD j 0) ∧
    (∀ C, C < 2 ^ 63 → Reachable C rb →
      (rb.read count).2.1 = rb.contents.take (min count rb.available) ∧
      (rb.read count).2.1 = rb.contents.take count ∧
      (∀ i, i < min count rb.available →
        (rb.read count).2.1[i]? = some (rb.buffer_.getD ((rb.head_ + i) % rb.capacity_) 0)) ∧
      (rb.read count).2.2.contents = rb.contents.drop count) ∧
    rb.read 0 = (0, [], rb) ∧
    (rb.available = 0 → rb.read count = (0, [], rb)) := by
  refine ⟨rfl, ?_, ?_, ?_, ?_, ?_⟩
  · rw [read_eq]
    exact readLoop_length _ _ _ _
  · rw [read_eq]
    exact readLoop_eq_map _ _ _ _
  · intro C hC hr
    have h := reachable_inv hC hr
    obtain ⟨c1, c2⟩ := read_contents hC h count
    have hl := contents_length rb
    have e : rb.contents.take (min count rb.available) = rb.contents.take count := by
      rw [← hl, List.take_eq_take]
      simp
    refine ⟨by rw [e]; exact c1, c1, ?_, c2⟩
    intro i hi
    rw [c1, List.getElem?_take_of_lt (lt_of_lt_of_le hi (Nat.min_le_left _ _))]
    unfold contents
    rw [List.getElem?_map, List.getElem?_range (lt_of_lt_of_le hi (Nat.min_le_right _ _))]
    rfl
  · rw [read_eq, Nat.zero_min]
    rfl
  · intro h0
    rw [read_eq, h0, Nat.min_zero]
    rfl

/-- Instance of C5: the wrapped state after a write of `7, 8` (stored in slots
2 and 0); a read of up to five samples returns 2 and copies `7, 8`, a read of
one sample copies `7`, and a read on the empty wrapped state returns 0. -/
theorem read_returns_min_witness :
    ((wrapState.write [7, 8]).2.read 5).1 = 2 ∧
      ((wrapState.write [7, 8]).2.read 5).2.1 = [7, 8] ∧
      ((wrapState.write [7, 8]).2.read 1).2.1 = [7] ∧
      wrapState.read 5 = (0, [], wrapState) :=
  ⟨(read_returns_min (wrapState.write [7, 8]).2 5).1.trans (by decide),
    ((read_returns_min (wrapState.write [7, 8]).2 5).2.2.2.1 2 (by decide)
      (Reachable.write [7, 8] wrapState_reachable)).2.1.trans (by decide),
    ((read_returns_min (wrapState.write [7, 8]).2 1).2.2.2.1 2 (by decide)
      (Reachable.write [7, 8] wrapState_reachable)).2.1.trans (by decide),
    (read_returns_min wrapState 5).2.2.2.2.2 (by decide)⟩

end ReadCopies

end jarvis
